import Mathlib

/-!
# The two-phase KDG window executor (`KDGtwoPhase.h`)

A shallow embedding of `KDGtwoPhaseStableExecutor`: the members of the class,
the two per-round worklists of `execute_stable` and the arena of Contexts form
one explicit state; every member function is a function on that state.

Conventions of the embedding

* `size_t` members keep their values in `Nat`; products that the code takes in
  `size_t` are reduced modulo `2 ^ 64` (`toSizeT`), the product of the two `unsigned`
  values `CHUNK_SIZE` and `getActiveThreads ()` modulo `2 ^ 32`.
* A `Ctxt*` is a natural number, the arena (`ctxtAlloc`) is a partial map from
  pointers to Contexts; `allocate` hands out a pointer never used before.
* `PerThreadVector<Ctxt*>` is the list of its entries (the concatenation of the
  per-thread vectors), and a `do_all` loop visits the entries in list order.
* User code (`nhFunc`, `opFunc`), the lock substrate and the two computations the
  code performs in `double` are parameters of the configuration; assertions are
  not executed (the `NDEBUG` behaviour).
-/

namespace KDGtwoPhase

/-- Reduction of a natural number to the range of `size_t`. -/
def toSizeT (n : Nat) : Nat := n % 2 ^ 64

/-- The part of `TwoPhaseContext` the executor reads: the item and the source flag. -/
structure Ctxt (T : Type) where
  elem : T
  source : Bool

/-- A `Ctxt*`. -/
abbrev CtxtPtr := Nat

/-- What one run of `nhFunc` under `runCatching` does: the new user state, whether
`CONFLICT` was signalled for the running Context, and the Contexts that lost a lock
to it (the lock substrate disables them). -/
structure NhResult (σ : Type) where
  user : σ
  conflict : Bool
  losers : List CtxtPtr

/-- What one run of `opFunc` under `runCatching` does: as `NhResult`, and the
contents of the push buffer of the user handle when the operator returns. -/
structure OpResult (T σ : Type) where
  user : σ
  conflict : Bool
  losers : List CtxtPtr
  pushBuffer : List T

/-- The template arguments and the environment of the executor. -/
structure Config (T σ : Type) where
  /-- the comparator `cmp (a, b)`: a before b -/
  cmp : T → T → Bool
  /-- the trait `ForEachTraits<OpFunc>::NeedsPush` -/
  NeedsPush : Bool
  /-- the trait `OpFunc::CHUNK_SIZE` -/
  CHUNK_SIZE : Nat
  /-- the value of `getActiveThreads ()` -/
  activeThreads : Nat
  /-- the test `double (currCommits) / double (prevWindowSize) >= TARGET_COMMIT_RATIO`,
  as a function of `currCommits` and `prevWindowSize` -/
  commitRatioGE : Nat → Nat → Bool
  /-- the value `int (windowSize * commitRatio / TARGET_COMMIT_RATIO)` converted to
  `size_t`, as a function of `windowSize`, `currCommits` and `prevWindowSize` -/
  shrinkWindow : Nat → Nat → Nat → Nat
  /-- the number of elements one call `winWL.poll (wl, newSize, origSize, ...)`
  transfers, as a function of the contents of the window worklist and the two sizes -/
  pollCount : List T → Nat → Nat → Nat
  /-- the neighbourhood function, run under `runCatching` -/
  nhFunc : σ → CtxtPtr → T → NhResult σ
  /-- the operator, run under `runCatching` -/
  opFunc : σ → CtxtPtr → T → OpResult T σ
  /-- the effect of `c->commitIteration ()` on the user state -/
  commitIteration : σ → CtxtPtr → σ
  /-- the effect of `c->cancelIteration ()` on the user state -/
  cancelIteration : σ → CtxtPtr → σ

/-- The members of `KDGtwoPhaseStableExecutor`, the worklists `currWL` and `nextWL`
of `execute_stable`, and four history variables (`committed`, `pushed`, `pushedItems`,
`opCalls`). -/
structure State (T σ : Type) where
  user : σ
  /-- the window worklist `winWL`, least element first -/
  winWL : List T
  /-- the value of `winWL.initSize ()` -/
  initSize : Nat
  /-- the arena `ctxtAlloc`: the live Contexts -/
  heap : CtxtPtr → Option (Ctxt T)
  /-- the next pointer `ctxtAlloc.allocate` returns -/
  nextPtr : CtxtPtr
  currWL : List CtxtPtr
  nextWL : List CtxtPtr
  windowSize : Nat
  rounds : Nat
  prevCommits : Nat
  numCommitted : Nat
  total : Nat
  /-- history: the items of the committed iterations, in commit order -/
  committed : List T
  /-- history: the number of items in the push buffers of committed iterations -/
  pushed : Nat
  /-- history: the items in the push buffers of committed iterations, in push order -/
  pushedItems : List T
  /-- history: the number of invocations of `opFunc` -/
  opCalls : Nat

variable {T σ : Type}

/-! ## The window worklist -/

/-- Modelled from the spec: `WindowWL.push` (`WindowWorkList.h` is not among the
sources). The window worklist is "logically an ordered sequence of items not yet
admitted"; `push` inserts the item behind the items that are not after it. -/
def WindowWL.push (cmp : T → T → Bool) (x : T) : List T → List T
  | [] => [x]
  | y :: ys => if cmp x y then x :: y :: ys else y :: WindowWL.push cmp x ys

/-- Modelled from the spec: `WindowWL.initfill`, "bulk-load initial items". -/
def WindowWL.initfill (cmp : T → T → Bool) (range : List T) : List T :=
  range.foldl (fun w x => WindowWL.push cmp x w) []

/-- Modelled from the spec: `WindowWL.getMin`, "returns the least element or nothing
if empty". -/
def WindowWL.getMin (w : List T) : Option T := w.head?

/-- Modelled from the spec: `WindowWL.empty`. -/
def WindowWL.empty (w : List T) : Bool := w.isEmpty

/-- `MakeContext::operator ()`: allocate a Context and construct it around `x`
(a new Context is a source). -/
def MakeContext (st : State T σ) (x : T) : State T σ × CtxtPtr :=
  ({ st with
      heap := fun q => if q = st.nextPtr then some { elem := x, source := true } else st.heap q
      nextPtr := st.nextPtr + 1 },
   st.nextPtr)

/-- One transfer of `poll`: `wl.push_back (makeCtxt (x))` for `wl = currWL`. -/
def pollOne (st : State T σ) (x : T) : State T σ :=
  { (MakeContext st x).1 with currWL := st.currWL ++ [(MakeContext st x).2] }

/-- Modelled from the spec: `WindowWL.poll (wl, newSize, origSize, makeCtxt)`
"transfers up to approximately `k - currentSize` least elements to `out`,
constructing Contexts via `makeCtxt`"; how many is left to `Config.pollCount`.
The worklist polled into is `currWL` (the only call is the one of `refill`). -/
def WindowWL.poll (cfg : Config T σ) (st : State T σ) (newSize origSize : Nat) : State T σ :=
  let n := cfg.pollCount st.winWL newSize origSize
  (st.winWL.take n).foldl pollOne { st with winWL := st.winWL.drop n }

/-! ## Contexts in the arena -/

/-- `c->isSrc ()`. -/
def isSrc (heap : CtxtPtr → Option (Ctxt T)) (p : CtxtPtr) : Bool :=
  match heap p with
  | some c => c.source
  | none => false

/-- `c->disableSrc ()` for every `c` of `ps`. -/
def disableSrc (ps : List CtxtPtr) (heap : CtxtPtr → Option (Ctxt T)) : CtxtPtr → Option (Ctxt T) :=
  fun q => if q ∈ ps then (heap q).map (fun c => { c with source := false }) else heap q

/-- `c->reset ()`: the source flag is enabled again. -/
def resetCtxt (p : CtxtPtr) (heap : CtxtPtr → Option (Ctxt T)) : CtxtPtr → Option (Ctxt T) :=
  fun q => if q = p then (heap q).map (fun c => { c with source := true }) else heap q

/-- `c->~Ctxt (); ctxtAlloc.deallocate (c, 1)`. -/
def destroyCtxt (p : CtxtPtr) (heap : CtxtPtr → Option (Ctxt T)) : CtxtPtr → Option (Ctxt T) :=
  fun q => if q = p then none else heap q

/-- The Contexts a run under `runCatching` disables: the losers, and the running
Context itself when `CONFLICT` is caught. -/
def disabledBy (p : CtxtPtr) (conflict : Bool) (losers : List CtxtPtr) : List CtxtPtr :=
  if conflict then p :: losers else losers

/-! ## The member functions -/

/-- `MIN_WIN_SIZE = OpFunc::CHUNK_SIZE * getActiveThreads ()` (line 167): the product is
taken in the type of its operands, `unsigned` (32 bits), and only then converted to
`size_t`. -/
def MIN_WIN_SIZE (cfg : Config T σ) : Nat :=
  toSizeT ((cfg.CHUNK_SIZE * cfg.activeThreads) % 2 ^ 32)

def INIT_MAX_ROUNDS : Nat := 500

def THREAD_MULT_FACTOR : Nat := 16

def WIN_OVER_SIZE_FACTOR : Nat := 8

/-- One iteration of the loop of `spillAll`: the Context is taken from the worklist,
its item goes back to `winWL`, the Context is destroyed. -/
def spillOne (cfg : Config T σ) (st : State T σ) (p : CtxtPtr) : State T σ :=
  match st.heap p with
  | some c => { st with winWL := WindowWL.push cfg.cmp c.elem st.winWL, heap := destroyCtxt p st.heap }
  | none => st

/-- `spillAll (wl)` for `wl = currWL`: the entries are popped from the back. -/
def spillAll (cfg : Config T σ) (st : State T σ) : State T σ :=
  { st.currWL.reverse.foldl (spillOne cfg) st with currWL := [] }

/-- The value `refill` gives `windowSize` before the comparison with `MIN_WIN_SIZE`
(lines 171-206). -/
def refillRule (cfg : Config T σ) (st : State T σ) (currCommits prevWindowSize : Nat) : Nat :=
  if prevWindowSize = 0 then
    if cfg.NeedsPush then
      max st.initSize (toSizeT (THREAD_MULT_FACTOR * MIN_WIN_SIZE cfg))
    else
      min (st.initSize / INIT_MAX_ROUNDS) (toSizeT (THREAD_MULT_FACTOR * MIN_WIN_SIZE cfg))
  else
    if cfg.commitRatioGE currCommits prevWindowSize then
      toSizeT (st.windowSize * 2)
    else
      toSizeT (cfg.shrinkWindow st.windowSize currCommits prevWindowSize)

/-- The clamp of `refill` (lines 208-210). -/
def refillClamp (cfg : Config T σ) (w : Nat) : Nat :=
  if w < MIN_WIN_SIZE cfg then MIN_WIN_SIZE cfg else w

/-- The spill decision of `refill` (lines 215-229). -/
def refillSpill (cfg : Config T σ) (st : State T σ) : State T σ :=
  if cfg.NeedsPush then
    if WindowWL.empty st.winWL && decide (st.currWL.length > st.windowSize) then
      spillAll cfg st
    else if st.currWL.length > toSizeT (WIN_OVER_SIZE_FACTOR * st.windowSize) then
      spillAll cfg st
    else st
  else st

/-- The state of `refill` when it reaches the call of `winWL.poll`. -/
def refillBeforePoll (cfg : Config T σ) (st : State T σ) (currCommits prevWindowSize : Nat) :
    State T σ :=
  refillSpill cfg { st with windowSize := refillClamp cfg (refillRule cfg st currCommits prevWindowSize) }

/-- `refill (wl, currCommits, prevWindowSize)` for `wl = currWL`. -/
def refill (cfg : Config T σ) (st : State T σ) (currCommits prevWindowSize : Nat) : State T σ :=
  let st1 := refillBeforePoll cfg st currCommits prevWindowSize
  WindowWL.poll cfg st1 st1.windowSize st1.currWL.length

/-- The state of `prepareRound` when it reaches the call of `refill`. -/
def prepareRoundHead (st : State T σ) : State T σ :=
  { st with
      rounds := st.rounds + 1
      currWL := st.nextWL
      nextWL := []
      prevCommits := st.prevCommits + (st.numCommitted - st.prevCommits) }

/-- `prepareRound (currWL, nextWL)`: after the swap `nextWL` is the worklist of the
round before, its size is `prevWindowSize`. -/
def prepareRound (cfg : Config T σ) (st : State T σ) : State T σ :=
  refill cfg (prepareRoundHead st) (st.numCommitted - st.prevCommits) st.currWL.length

/-- The body of the loop of `expandNhood` for one Context. -/
def expandOne (cfg : Config T σ) (st : State T σ) (p : CtxtPtr) : State T σ :=
  match st.heap p with
  | some c =>
    let r := cfg.nhFunc st.user p c.elem
    { st with
        user := r.user
        heap := disableSrc (disabledBy p r.conflict r.losers) st.heap
        total := st.total + 1 }
  | none => st

/-- `expandNhood (currWL)`. -/
def expandNhood (cfg : Config T σ) (st : State T σ) : State T σ :=
  st.currWL.foldl (expandOne cfg) st

/-- The value of `minElem` in `applyOperator` (lines 307-313). -/
def getMinElem (cfg : Config T σ) (st : State T σ) : Option T :=
  if cfg.NeedsPush then
    if !WindowWL.empty st.winWL then WindowWL.getMin st.winWL else none
  else none

/-- The test `!minElem || !cmp (*minElem, *i)` of line 337. -/
def goesToNextWL (cfg : Config T σ) (minElem : Option T) (x : T) : Bool :=
  match minElem with
  | none => true
  | some m => !cfg.cmp m x

/-- The body of the loop over the push buffer (lines 337-342). -/
def routePush (cfg : Config T σ) (minElem : Option T) (st : State T σ) (x : T) : State T σ :=
  if goesToNextWL cfg minElem x then
    { (MakeContext st x).1 with nextWL := st.nextWL ++ [(MakeContext st x).2] }
  else
    { st with winWL := WindowWL.push cfg.cmp x st.winWL }

/-- The first half of the body of the loop of `applyOperator` (lines 318-329): the
state after it, the value of `commit`, and the push buffer. -/
def runOperator (cfg : Config T σ) (st : State T σ) (p : CtxtPtr) (c : Ctxt T) :
    State T σ × Bool × List T :=
  if c.source then
    let r := cfg.opFunc st.user p c.elem
    let st1 := { st with
      user := r.user
      heap := disableSrc (disabledBy p r.conflict r.losers) st.heap
      opCalls := st.opCalls + 1 }
    (st1, isSrc st1.heap p, r.pushBuffer)
  else
    (st, false, [])

/-- The commit branch (lines 332-350). -/
def commitCtxt (cfg : Config T σ) (minElem : Option T) (st : State T σ) (p : CtxtPtr)
    (c : Ctxt T) (pushBuffer : List T) : State T σ :=
  let st1 := { st with
    numCommitted := st.numCommitted + 1
    committed := st.committed ++ [c.elem]
    pushed := st.pushed + pushBuffer.length
    pushedItems := st.pushedItems ++ pushBuffer }
  let st2 := if cfg.NeedsPush then pushBuffer.foldl (routePush cfg minElem) st1 else st1
  { st2 with user := cfg.commitIteration st2.user p, heap := destroyCtxt p st2.heap }

/-- The abort branch (lines 352-354). -/
def abortCtxt (cfg : Config T σ) (st : State T σ) (p : CtxtPtr) : State T σ :=
  { st with
      user := cfg.cancelIteration st.user p
      heap := resetCtxt p st.heap
      nextWL := st.nextWL ++ [p] }

/-- The body of the loop of `applyOperator` for one Context. -/
def applyOne (cfg : Config T σ) (minElem : Option T) (st : State T σ) (p : CtxtPtr) : State T σ :=
  match st.heap p with
  | some c =>
    let r := runOperator cfg st p c
    if r.2.1 then commitCtxt cfg minElem r.1 p c r.2.2 else abortCtxt cfg r.1 p
  | none => st

/-- `applyOperator (currWL, nextWL)`. -/
def applyOperator (cfg : Config T σ) (st : State T σ) : State T σ :=
  st.currWL.foldl (applyOne cfg (getMinElem cfg st)) st

/-- The state the constructor leaves. -/
def initState (user : σ) : State T σ :=
  { user := user, winWL := [], initSize := 0, heap := fun _ => none, nextPtr := 0
    currWL := [], nextWL := [], windowSize := 0, rounds := 0, prevCommits := 0
    numCommitted := 0, total := 0, committed := [], pushed := 0, pushedItems := []
    opCalls := 0 }

/-- `fill_initial (range)`. -/
def fill_initial (cfg : Config T σ) (st : State T σ) (range : List T) : State T σ :=
  { st with winWL := WindowWL.initfill cfg.cmp range, initSize := range.length }

/-- `execute_stable`: the loop runs at most `fuel` rounds; `none` when the fuel is
used up before the loop is left. -/
def execute_stable (cfg : Config T σ) : Nat → State T σ → Option (State T σ)
  | 0, _ => none
  | fuel + 1, st =>
    let st1 := prepareRound cfg st
    if st1.currWL.isEmpty then some st1
    else execute_stable cfg fuel (applyOperator cfg (expandNhood cfg st1))

/-- `for_each_ordered_2p_win (range, cmp, nhFunc, opFunc)`: the stable executor on
the initial range. -/
def for_each_ordered_2p_win (cfg : Config T σ) (fuel : Nat) (user : σ) (range : List T) :
    Option (State T σ) :=
  execute_stable cfg fuel (fill_initial cfg (initState user) range)

/-! ## Program points -/

/-- The states `execute_stable` is observed in. -/
inductive Point where
  /-- after `fill_initial`, before the first round -/
  | initfill
  /-- inside `refill`, at the call of `winWL.poll` (after `spillAll` when it ran) -/
  | beforePoll
  /-- after `prepareRound`, that is after `refill` and its `poll` -/
  | prepared
  /-- after `expandNhood`, at the start of `applyOperator` -/
  | applyStart
  /-- inside `applyOperator`, after the body of the loop has handled one more Context -/
  | applied
  deriving DecidableEq

/-- The states after each iteration of the loop of `applyOperator`. -/
def applyTrace (cfg : Config T σ) (minElem : Option T) : List CtxtPtr → State T σ → List (State T σ)
  | [], _ => []
  | p :: ps, st => applyOne cfg minElem st p :: applyTrace cfg minElem ps (applyOne cfg minElem st p)

/-- The states `execute_stable` passes through in its first `fuel` rounds, each with
its program point. -/
def execTrace (cfg : Config T σ) : Nat → State T σ → List (Point × State T σ)
  | 0, _ => []
  | fuel + 1, st =>
    let st0 := refillBeforePoll cfg (prepareRoundHead st) (st.numCommitted - st.prevCommits)
      st.currWL.length
    let st1 := prepareRound cfg st
    if st1.currWL.isEmpty then [(Point.beforePoll, st0), (Point.prepared, st1)]
    else
      let st2 := expandNhood cfg st1
      (Point.beforePoll, st0) :: (Point.prepared, st1) :: (Point.applyStart, st2) ::
        ((applyTrace cfg (getMinElem cfg st2) st2.currWL st2).map (fun s => (Point.applied, s))
          ++ execTrace cfg fuel (applyOperator cfg st2))

/-- The states of a run of `for_each_ordered_2p_win`, from `fill_initial` on. -/
def programTrace (cfg : Config T σ) (fuel : Nat) (user : σ) (range : List T) :
    List (Point × State T σ) :=
  (Point.initfill, fill_initial cfg (initState user) range) ::
    execTrace cfg fuel (fill_initial cfg (initState user) range)

/-- The state after the call of `prepareRound` in round `n + 1`, when the loop is not
left before. -/
def afterPrepare (cfg : Config T σ) : Nat → State T σ → State T σ
  | 0, st => prepareRound cfg st
  | n + 1, st => afterPrepare cfg n (applyOperator cfg (expandNhood cfg (prepareRound cfg st)))

/-! ## Properties of states -/

/-- The comparator is a strict weak order. -/
structure StrictWeakOrder (cmp : T → T → Bool) : Prop where
  irrefl : ∀ a, cmp a a = false
  trans : ∀ a b c, cmp a b = true → cmp b c = true → cmp a c = true
  incomp_trans : ∀ a b c, cmp a b = false → cmp b a = false → cmp b c = false →
    cmp c b = false → cmp a c = false ∧ cmp c a = false

/-- The window worklist is in order: no element is after a later one. -/
def WindowWL.Ordered (cmp : T → T → Bool) (w : List T) : Prop :=
  w.Pairwise (fun a b => cmp b a = false)

/-- The live Contexts that `currWL` and `nextWL` hold: the pointers in their slots
that the arena has not destroyed, each counted once. -/
def liveCtxts (st : State T σ) : Finset CtxtPtr :=
  (st.currWL ++ st.nextWL).toFinset.filter (fun p => (st.heap p).isSome)

/-- The list `L` enumerates the live Contexts of the arena, each once, and all of
them were allocated before `nextPtr`. -/
structure HeapInv (heap : CtxtPtr → Option (Ctxt T)) (nextPtr : CtxtPtr) (L : List CtxtPtr) :
    Prop where
  nodup : L.Nodup
  live : ∀ p, p ∈ L ↔ ∃ c, heap p = some c
  fresh : ∀ p, p ∈ L → p < nextPtr

/-- The operator keeps the promise of its trait: without `NeedsPush` it leaves the
push buffer empty (the assertion of line 345). -/
def PushesOnlyIfNeedsPush (cfg : Config T σ) : Prop :=
  cfg.NeedsPush = false → ∀ u p x, (cfg.opFunc u p x).pushBuffer = []

/-- The list `L` enumerates the live Contexts, and (for an operator that keeps the
promise of its trait) the items balance: those committed, those waiting in `winWL`
and those held by the live Contexts are the `n0` initial ones and the pushed ones. -/
structure Tracked (cfg : Config T σ) (n0 : Nat) (st : State T σ) (L : List CtxtPtr) : Prop where
  heap : HeapInv st.heap st.nextPtr L
  count : PushesOnlyIfNeedsPush cfg →
    st.committed.length + st.winWL.length + L.length = n0 + st.pushed
  commits : st.numCommitted = st.committed.length

/-- The window is valid: `winWL` is in order and no item of a live Context is after
an element of `winWL`. -/
structure WindowValid (cmp : T → T → Bool) (st : State T σ) : Prop where
  ordered : WindowWL.Ordered cmp st.winWL
  valid : ∀ p c, st.heap p = some c → ∀ w ∈ st.winWL, cmp w c.elem = false

/-- The window worklist makes progress: a `poll` on a non-empty worklist with a target
size above the current size transfers at least one element. -/
def PollProgress (cfg : Config T σ) : Prop :=
  ∀ w newSize origSize, w ≠ [] → origSize < newSize → 0 < cfg.pollCount w newSize origSize

/-! ## Scenario S4 of the spec -/

/-- Scenario S4: larger items first, the operator pushes `elem - 1` while
`elem > 0`; one thread, chunk size one, target commit ratio 4/5. -/
def cfgS4 : Config Nat Unit :=
  { cmp := fun a b => decide (b < a)
    NeedsPush := true
    CHUNK_SIZE := 1
    activeThreads := 1
    commitRatioGE := fun c p => decide (4 * p ≤ 5 * c)
    shrinkWindow := fun w c p => (w * c * 5) / (p * 4)
    pollCount := fun _ newSize origSize => newSize - origSize
    nhFunc := fun u _ _ => { user := u, conflict := false, losers := [] }
    opFunc := fun u _ x =>
      { user := u, conflict := false, losers := [], pushBuffer := if 0 < x then [x - 1] else [] }
    commitIteration := fun u _ => u
    cancelIteration := fun u _ => u }

/-- The invariant of the loop of `applyOperator` for the order: `m0` is the least
element `winWL` had when the loop started, `b` the number of commits before this
round. Live Contexts and the items committed in this round are neither after an
element of `winWL` nor after `m0`. -/
structure ApplyValid (cmp : T → T → Bool) (m0 : Option T) (b : Nat) (st : State T σ) : Prop where
  ordered : WindowWL.Ordered cmp st.winWL
  live : ∀ p c, st.heap p = some c →
    (∀ w ∈ st.winWL, cmp w c.elem = false) ∧ (∀ mm, m0 = some mm → cmp mm c.elem = false)
  done : ∀ x ∈ st.committed.drop b,
    (∀ w ∈ st.winWL, cmp w x = false) ∧ (∀ mm, m0 = some mm → cmp mm x = false)
  len : b ≤ st.committed.length
  minLe : ∀ mm, m0 = some mm → ∀ w ∈ st.winWL, cmp w mm = false
  noMin : m0 = none → st.winWL = []

/-- Scenario S4 on the range `[10]`: the state at the start of the apply phase of the
first round. -/
def applyStartS4 : State Nat Unit :=
  expandNhood cfgS4 (prepareRound cfgS4 (fill_initial cfgS4 (initState ()) [10]))

/-- Scenario S4 on the range `[10]`: the state `execute_stable` returns (the
initial state if it did not return within 20 rounds). -/
def finalS4 : State Nat Unit :=
  (for_each_ordered_2p_win cfgS4 20 () [10]).getD (initState ())

/-- Scenario S4 on the range `[60]`, a chain of 61 items: the state after round 60,
at the head of the loop of `execute_stable`. -/
def round60S4 : State Nat Unit :=
  applyOperator cfgS4 (expandNhood cfgS4
    (afterPrepare cfgS4 59 (fill_initial cfgS4 (initState ()) [60])))

/-! ## The arguments of `refill` and the heads of the loop -/

/-- The two worklists after `std::swap (currWL, nextWL)` in `prepareRound`. -/
def swapWL (st : State T σ) : State T σ :=
  { st with currWL := st.nextWL, nextWL := st.currWL }

/-- The value of `prevWindowSize` in `prepareRound`: `nextWL->size_all ()` after the
swap (line 281). -/
def prevWindowSizeOf (st : State T σ) : Nat := (swapWL st).nextWL.length

/-- The value of `currCommits` in `prepareRound`:
`numCommitted.reduce () - prevCommits` (line 284). -/
def currCommitsOf (st : State T σ) : Nat := st.numCommitted - st.prevCommits

/-- The state at the head of the loop of `execute_stable` after `n` rounds, when the
loop is not left before. -/
def loopHead (cfg : Config T σ) : Nat → State T σ → State T σ
  | 0, st => st
  | n + 1, st => applyOperator cfg (expandNhood cfg (afterPrepare cfg n st))

/-! ## The unstable executor -/

/-- The items of `currWL`: what the iterators `m_beg`, `m_end` of
`KDGtwoPhaseUnstableExecutor::expandNhood` range over. -/
def currItems (st : State T σ) : List T :=
  st.currWL.filterMap (fun p => (st.heap p).map (fun c => c.elem))

/-- The body of the loop of `KDGtwoPhaseUnstableExecutor::expandNhood` for one
Context: the neighbourhood function also receives the items of `currWL`. -/
def expandOneUnstable (nhFunc : σ → CtxtPtr → T → List T → NhResult σ) (items : List T)
    (st : State T σ) (p : CtxtPtr) : State T σ :=
  match st.heap p with
  | some c =>
    let r := nhFunc st.user p c.elem items
    { st with
        user := r.user
        heap := disableSrc (disabledBy p r.conflict r.losers) st.heap
        total := st.total + 1 }
  | none => st

/-- `KDGtwoPhaseUnstableExecutor::expandNhood (currWL)`. -/
def expandNhoodUnstable (nhFunc : σ → CtxtPtr → T → List T → NhResult σ) (st : State T σ) :
    State T σ :=
  st.currWL.foldl (expandOneUnstable nhFunc (currItems st)) st

/-- One iteration of the serial loop of `execute_unstable` (lines 520-526). -/
def serialOne (serialLoop : σ → T → σ) (st : State T σ) (p : CtxtPtr) : State T σ :=
  match st.heap p with
  | some c => if c.source then { st with user := serialLoop st.user c.elem } else st
  | none => st

/-- The serial loop of `execute_unstable` over `currWL`. -/
def serialSweep (serialLoop : σ → T → σ) (st : State T σ) : State T σ :=
  st.currWL.foldl (serialOne serialLoop) st

/-- One round of `execute_unstable` after `prepareRound`. -/
def unstableBody (cfg : Config T σ) (nhFunc : σ → CtxtPtr → T → List T → NhResult σ)
    (serialLoop : σ → T → σ) (st : State T σ) : State T σ :=
  applyOperator cfg (serialSweep serialLoop (expandNhoodUnstable nhFunc st))

/-- `execute_unstable`: the loop runs at most `fuel` rounds. -/
def execute_unstable (cfg : Config T σ) (nhFunc : σ → CtxtPtr → T → List T → NhResult σ)
    (serialLoop : σ → T → σ) : Nat → State T σ → Option (State T σ)
  | 0, _ => none
  | fuel + 1, st =>
    let st1 := prepareRound cfg st
    if st1.currWL.isEmpty then some st1
    else execute_unstable cfg nhFunc serialLoop fuel (unstableBody cfg nhFunc serialLoop st1)

/-- The state at the head of the loop of `execute_unstable` after `n` rounds, when
the loop is not left before. -/
def unstableHead (cfg : Config T σ) (nhFunc : σ → CtxtPtr → T → List T → NhResult σ)
    (serialLoop : σ → T → σ) : Nat → State T σ → State T σ
  | 0, st => st
  | n + 1, st =>
    unstableBody cfg nhFunc serialLoop
      (prepareRound cfg (unstableHead cfg nhFunc serialLoop n st))

/-! ## Scenario S2 of the spec and a burst of conflicts -/

/-- Scenario S2: a single global lock, taken by the first Context of a round that asks
for it and released at its commit or abort; 16 items per chunk, 4 threads, no pushes,
target commit ratio 4/5. The user state is the owner of the lock. -/
def cfgS2 : Config Nat (Option CtxtPtr) :=
  { cmp := fun a b => decide (a < b)
    NeedsPush := false
    CHUNK_SIZE := 16
    activeThreads := 4
    commitRatioGE := fun c p => decide (4 * p ≤ 5 * c)
    shrinkWindow := fun w c p => (w * c * 5) / (p * 4)
    pollCount := fun _ newSize origSize => newSize - origSize
    nhFunc := fun u p _ =>
      match u with
      | none => { user := some p, conflict := false, losers := [] }
      | some q => { user := some q, conflict := decide (q ≠ p), losers := [] }
    opFunc := fun u _ _ => { user := u, conflict := false, losers := [], pushBuffer := [] }
    commitIteration := fun u p => if u = some p then none else u
    cancelIteration := fun u p => if u = some p then none else u }

/-- Scenario S2 on the range 1..100: the state at the head of the loop after the
first round. -/
def round1S2 : State Nat (Option CtxtPtr) :=
  loopHead cfgS2 1 (fill_initial cfgS2 (initState none) (List.range' 1 100))

/-- A run without pushes in which the calls 5, 6 and 7 of the neighbourhood function
signal a conflict; chunk size one, one thread, target commit ratio 4/5. The user state
counts the calls of the neighbourhood function. -/
def cfgBurst : Config Nat Nat :=
  { cmp := fun a b => decide (a < b)
    NeedsPush := false
    CHUNK_SIZE := 1
    activeThreads := 1
    commitRatioGE := fun c p => decide (4 * p ≤ 5 * c)
    shrinkWindow := fun w c p => (w * c * 5) / (p * 4)
    pollCount := fun _ newSize origSize => newSize - origSize
    nhFunc := fun u _ _ => { user := u + 1, conflict := decide (4 ≤ u ∧ u ≤ 6), losers := [] }
    opFunc := fun u _ _ => { user := u, conflict := false, losers := [], pushBuffer := [] }
    commitIteration := fun u _ => u
    cancelIteration := fun u _ => u }

/-- The run of `cfgBurst` on the range 1..7: the state at the head of the loop after
three rounds. -/
def round3Burst : State Nat Nat :=
  loopHead cfgBurst 3 (fill_initial cfgBurst (initState 0) (List.range' 1 7))

/-- Scenario S4 on the range `[10]`: the state of the second `prepareRound` when it
reaches `refill`; its worklist holds the Context of the pushed item 9. -/
def refillInputS4 : State Nat Unit :=
  prepareRoundHead (loopHead cfgS4 1 (fill_initial cfgS4 (initState ()) [10]))

end KDGtwoPhase

/-!
# The Cartesian vertex cut (`DistributedGraph_CartesianCut.h`)

The members of `DistGraphCartesianCut` the functions below read or write are passed
explicitly. `unsigned` and `uint64_t` values are natural numbers; host counts stay far
below the range of their type, sums of edge counts and of range sizes are reduced
modulo `2 ^ 64`, the `uint32_t` column index modulo `2 ^ 32`. A function whose C++ text divides by zero, indexes a vector out of
range or calls `at` on a missing key returns `none`.
-/

namespace DistGraphCartesianCut

/-- The loop of `factorizeHosts` (lines 64-65), started with `numColumnHosts = c`:
the value of `numColumnHosts` when the loop is left. -/
def factorizeLoop (numHosts : Nat) : Nat → Option Nat
  | 0 => none
  | c + 1 => if numHosts % (c + 1) ≠ 0 then factorizeLoop numHosts c else some (c + 1)

/-- The largest `k <= bound` with `k * k <= n`. -/
def floorSqrtBelow (n : Nat) : Nat → Nat
  | 0 => 0
  | k + 1 => if (k + 1) * (k + 1) ≤ n then k + 1 else floorSqrtBelow n k

/-- The value of `sqrt (numHosts)` stored in the `unsigned` `numColumnHosts` (line
62): the double-precision root of an `unsigned`, truncated, which is the largest `k`
with `k * k <= numHosts`. -/
def floorSqrt (n : Nat) : Nat := floorSqrtBelow n n

/-- The value of `numColumnHosts` after the loop of `factorizeHosts`, before the
swap. -/
def columnsBeforeSwap (numHosts : Nat) : Option Nat :=
  factorizeLoop numHosts (floorSqrt numHosts)

/-- `factorizeHosts`: the pair `(numRowHosts, numColumnHosts)` it leaves. -/
def factorizeHosts (moreColumnHosts : Bool) (numHosts : Nat) : Option (Nat × Nat) :=
  match columnsBeforeSwap numHosts with
  | none => none
  | some c => if moreColumnHosts then some (c, numHosts / c) else some (numHosts / c, c)

/-- `gridRowID (id)`. -/
def gridRowID (numColumnHosts id : Nat) : Nat := id / numColumnHosts

/-- `gridColumnID (id)`. -/
def gridColumnID (numColumnHosts id : Nat) : Nat := id % numColumnHosts

/-- The enumeration `SyncType` of `DistGraph`. -/
inductive SyncType where
  | syncReduce
  | syncBroadcast
  deriving DecidableEq

/-- The enumeration `WriteLocation`. -/
inductive WriteLocation where
  | writeSource
  | writeDestination
  | writeAny
  deriving DecidableEq

/-- The enumeration `ReadLocation`. -/
inductive ReadLocation where
  | readSource
  | readDestination
  | readAny
  deriving DecidableEq

/-- `isNotCommunicationPartner (host, syncType, writeLocation, readLocation)` on the
host `id`: the value it returns (the invalidation of `currentBVFlag` in the broadcast
cases does not enter the result). -/
def isNotCommunicationPartner (numColumnHosts : Nat) (transposed : Bool) (id host : Nat)
    (syncType : SyncType) (writeLocation : WriteLocation) (readLocation : ReadLocation) : Bool :=
  if transposed then
    match syncType with
    | SyncType.syncReduce =>
      match writeLocation with
      | WriteLocation.writeSource =>
        gridColumnID numColumnHosts id != gridColumnID numColumnHosts host
      | WriteLocation.writeDestination =>
        gridRowID numColumnHosts id != gridRowID numColumnHosts host
      | WriteLocation.writeAny =>
        (gridRowID numColumnHosts id != gridRowID numColumnHosts host)
          && (gridColumnID numColumnHosts id != gridColumnID numColumnHosts host)
    | SyncType.syncBroadcast =>
      match readLocation with
      | ReadLocation.readSource =>
        gridColumnID numColumnHosts id != gridColumnID numColumnHosts host
      | ReadLocation.readDestination =>
        gridRowID numColumnHosts id != gridRowID numColumnHosts host
      | ReadLocation.readAny =>
        (gridRowID numColumnHosts id != gridRowID numColumnHosts host)
          && (gridColumnID numColumnHosts id != gridColumnID numColumnHosts host)
  else
    match syncType with
    | SyncType.syncReduce =>
      match writeLocation with
      | WriteLocation.writeSource =>
        gridRowID numColumnHosts id != gridRowID numColumnHosts host
      | WriteLocation.writeDestination =>
        gridColumnID numColumnHosts id != gridColumnID numColumnHosts host
      | WriteLocation.writeAny =>
        (gridRowID numColumnHosts id != gridRowID numColumnHosts host)
          && (gridColumnID numColumnHosts id != gridColumnID numColumnHosts host)
    | SyncType.syncBroadcast =>
      match readLocation with
      | ReadLocation.readSource =>
        gridRowID numColumnHosts id != gridRowID numColumnHosts host
      | ReadLocation.readDestination =>
        gridColumnID numColumnHosts id != gridColumnID numColumnHosts host
      | ReadLocation.readAny =>
        (gridRowID numColumnHosts id != gridRowID numColumnHosts host)
          && (gridColumnID numColumnHosts id != gridColumnID numColumnHosts host)

/-- What one host knows for `nothingToSend` and `nothingToRecv`: its id and, for
every other host, the lists `mirrorNodes[host]` and `masterNodes[host]`. -/
structure HostView where
  id : Nat
  mirrorNodes : Nat → List Nat
  masterNodes : Nat → List Nat

/-- `nothingToSend (host, syncType, writeLocation, readLocation)` on the host `me`. -/
def nothingToSend (numColumnHosts : Nat) (transposed : Bool) (me : HostView) (host : Nat)
    (syncType : SyncType) (writeLocation : WriteLocation) (readLocation : ReadLocation) : Bool :=
  if ((if syncType = SyncType.syncReduce then me.mirrorNodes else me.masterNodes) host).length > 0
  then isNotCommunicationPartner numColumnHosts transposed me.id host syncType writeLocation
    readLocation
  else true

/-- `nothingToRecv (host, syncType, writeLocation, readLocation)` on the host `me`. -/
def nothingToRecv (numColumnHosts : Nat) (transposed : Bool) (me : HostView) (host : Nat)
    (syncType : SyncType) (writeLocation : WriteLocation) (readLocation : ReadLocation) : Bool :=
  if ((if syncType = SyncType.syncReduce then me.masterNodes else me.mirrorNodes) host).length > 0
  then isNotCommunicationPartner numColumnHosts transposed me.id host syncType writeLocation
    readLocation
  else true

/-- The members `finalizeNodeMapping` works on. -/
structure NodeMaps where
  localToGlobalVector : List Nat
  globalToLocalMap : Nat → Option Nat
  numNodes : Nat
  numEdges : Nat

/-- The assignment `globalToLocalMap[gid] = lid`. -/
def mapAssign (m : Nat → Option Nat) (gid lid : Nat) : Nat → Option Nat :=
  fun q => if q = gid then some lid else m q

/-- The body of the loop of `finalizeNodeMapping` (lines 796-799) for the index `i`. -/
def finalizeStep (s : NodeMaps × List Nat) (i : Nat) : Option (NodeMaps × List Nat) :=
  match s.2[i]?, s.2[i - 1]?, s.1.localToGlobalVector[i]? with
  | some a, some b, some gid =>
    some ({ s.1 with globalToLocalMap := mapAssign s.1.globalToLocalMap gid i },
          s.2.set i ((a + b) % 2 ^ 64))
  | _, _, _ => none

/-- The loop of `finalizeNodeMapping` for `k` more indices from `i` on. -/
def finalizeLoop : Nat → Nat → NodeMaps × List Nat → Option (NodeMaps × List Nat)
  | 0, _, s => some s
  | k + 1, i, s =>
    match finalizeStep s i with
    | some s1 => finalizeLoop k (i + 1) s1
    | none => none

/-- `finalizeNodeMapping (prefixSumOfEdges)`: the members and the vector afterwards. -/
def finalizeNodeMapping (g : NodeMaps) (prefixSumOfEdges : List Nat) :
    Option (NodeMaps × List Nat) :=
  if g.numNodes = 0 then some (g, prefixSumOfEdges)
  else
    match g.localToGlobalVector[0]? with
    | none => none
    | some gid0 =>
      match finalizeLoop (g.numNodes - 1) 1
          ({ g with globalToLocalMap := mapAssign g.globalToLocalMap gid0 0 }, prefixSumOfEdges) with
      | none => none
      | some s =>
        match s.2.getLast? with
        | none => none
        | some e => some ({ s.1 with numEdges := e }, s.2)

/-- `G2L (gid)`: `globalToLocalMap.at (gid)`. -/
def G2L (g : NodeMaps) (gid : Nat) : Option Nat := g.globalToLocalMap gid

/-- `L2G (lid)`: `localToGlobalVector[lid]`. -/
def L2G (g : NodeMaps) (lid : Nat) : Option Nat := g.localToGlobalVector[lid]?

/-- A grid of two columns with the hosts 0 and 1, each holding one mirror and one
master node of the other. -/
def hostViewExample (id : Nat) : HostView :=
  { id := id, mirrorNodes := fun _ => [7], masterNodes := fun _ => [3] }

/-- Three local nodes with the global ids 10, 4 and 7 and an empty map. -/
def nodeMapsExample : NodeMaps :=
  { localToGlobalVector := [10, 4, 7], globalToLocalMap := fun _ => none, numNodes := 3,
    numEdges := 0 }

/-- `is_vertex_cut ()` (lines 1414-1425), as a function of the template argument
`moreColumnHosts` and the two members it reads. -/
def is_vertex_cut (moreColumnHosts : Bool) (numRowHosts numColumnHosts : Nat) : Bool :=
  if moreColumnHosts then
    if numRowHosts = 1 ∧ numColumnHosts = 1 then false else true
  else
    if numRowHosts = 1 ∨ numColumnHosts = 1 then false else true

/-- `is_vertex_cut ()` on the grid `factorizeHosts` leaves for `numHosts` hosts. -/
def vertexCutOfHosts (moreColumnHosts : Bool) (numHosts : Nat) : Option Bool :=
  (factorizeHosts moreColumnHosts numHosts).map
    (fun g => is_vertex_cut moreColumnHosts g.1 g.2)

/-- The difference `a - b` of two `uint64_t` values. -/
def sub64 (a b : Nat) : Nat := (a + 2 ^ 64 - b) % 2 ^ 64

/-- The loop of `getHostID (gid)` (lines 230-236) for `k` more hosts from `h` on;
when the loop runs out the function returns `numHosts`. -/
def getHostIDLoop (gid2host : List (Nat × Nat)) (gid : Nat) : Nat → Nat → Option Nat
  | 0, h => some h
  | k + 1, h =>
    match gid2host[h]? with
    | none => none
    | some r =>
      if r.1 ≤ gid ∧ gid < r.2 then some h else getHostIDLoop gid2host gid k (h + 1)

/-- `getHostID (gid)`. -/
def getHostID (numHosts : Nat) (gid2host : List (Nat × Nat)) (gid : Nat) : Option Nat :=
  getHostIDLoop gid2host gid numHosts 0

/-- The loop of `getColumnIndexOfNode` (lines 110-124) for `k` more hosts from `h` on,
with the `uint32_t` accumulator `columnIndex`; `c` is the column of the host of
`gid`. -/
def columnIndexLoop (numColumnHosts : Nat) (gid2host : List (Nat × Nat)) (gid c : Nat) :
    Nat → Nat → Nat → Option Nat
  | 0, _, columnIndex => some columnIndex
  | k + 1, h, columnIndex =>
    if gridColumnID numColumnHosts h = c then
      match gid2host[h]? with
      | none => none
      | some r =>
        if gid < r.2 then some ((columnIndex + sub64 gid r.1) % 2 ^ 32)
        else
          columnIndexLoop numColumnHosts gid2host gid c k (h + 1)
            ((columnIndex + sub64 r.2 r.1) % 2 ^ 32)
    else columnIndexLoop numColumnHosts gid2host gid c k (h + 1) columnIndex

/-- `getColumnIndexOfNode (gid)`. -/
def getColumnIndexOfNode (numColumnHosts numHosts : Nat) (gid2host : List (Nat × Nat))
    (gid : Nat) : Option Nat :=
  match getHostID numHosts gid2host gid with
  | none => none
  | some hostID =>
    columnIndexLoop numColumnHosts gid2host gid (gridColumnID numColumnHosts hostID)
      (hostID + 1) 0 0

/-- The inner loop of `inOutMetadataInitialization` (lines 458-464) for the column `i`
and `k` more hosts from `h` on, with the `uint64_t` accumulator `columnBlockSize`. -/
def columnBlockLoop (numColumnHosts : Nat) (gid2host : List (Nat × Nat)) (i : Nat) :
    Nat → Nat → Nat → Option Nat
  | 0, _, columnBlockSize => some columnBlockSize
  | k + 1, h, columnBlockSize =>
    if gridColumnID numColumnHosts h = i then
      match gid2host[h]? with
      | none => none
      | some r =>
        columnBlockLoop numColumnHosts gid2host i k (h + 1)
          ((columnBlockSize + sub64 r.2 r.1) % 2 ^ 64)
    else columnBlockLoop numColumnHosts gid2host i k (h + 1) columnBlockSize

/-- The value of `columnBlockSize` that `inOutMetadataInitialization` computes for the
column `i`. -/
def columnBlockSize (numColumnHosts numHosts : Nat) (gid2host : List (Nat × Nat))
    (i : Nat) : Option Nat :=
  columnBlockLoop numColumnHosts gid2host i numHosts 0 0

/-- The host `h` owns `gid`: `gid` lies in the range `gid2host[h]` (the test of
`isOwned`). -/
def ownedBy (gid2host : List (Nat × Nat)) (h gid : Nat) : Bool :=
  match gid2host[h]? with
  | some r => decide (r.1 ≤ gid) && decide (gid < r.2)
  | none => false

/-- Some host of the grid column `c` owns `gid`. -/
def ownedInColumn (numColumnHosts numHosts : Nat) (gid2host : List (Nat × Nat))
    (c gid : Nat) : Bool :=
  (List.range numHosts).any
    (fun h => ownedBy gid2host h gid && decide (gridColumnID numColumnHosts h = c))

/-- The number of global ids in `[lo, hi)` that hosts of the grid column `c` own. -/
def ownedInColumnCount (numColumnHosts numHosts : Nat) (gid2host : List (Nat × Nat))
    (c lo hi : Nat) : Nat :=
  ((List.range' lo (hi - lo)).filter (ownedInColumn numColumnHosts numHosts gid2host c)).length

/-- The index of `gid` within the column `c` as the claim words it: the number of
global ids smaller than `gid` that hosts of the grid column `c` own. -/
def columnRank (numColumnHosts numHosts : Nat) (gid2host : List (Nat × Nat))
    (c gid : Nat) : Nat :=
  ownedInColumnCount numColumnHosts numHosts gid2host c 0 gid

/-- The table `gid2host` lists, for the hosts `0 .. numHosts - 1`, consecutive
ascending half-open ranges that partition `[0, numGlobalNodes)`. -/
structure RangesPartition (numHosts : Nat) (gid2host : List (Nat × Nat))
    (numGlobalNodes : Nat) : Prop where
  hosts : 1 ≤ numHosts
  size : gid2host.length = numHosts
  first : ∀ r : Nat × Nat, gid2host[0]? = some r → r.1 = 0
  ascending : ∀ (h : Nat) (r : Nat × Nat), gid2host[h]? = some r → r.1 ≤ r.2
  consecutive : ∀ (h : Nat) (r r1 : Nat × Nat),
    gid2host[h]? = some r → gid2host[h + 1]? = some r1 → r1.1 = r.2
  last : ∀ r : Nat × Nat, gid2host[numHosts - 1]? = some r → r.2 = numGlobalNodes

/-- Six hosts in a grid of two columns, owning 3, 2, 0, 4, 1 and 2 of 12 nodes. -/
def gid2hostExample : List (Nat × Nat) :=
  [(0, 3), (3, 5), (5, 5), (5, 9), (9, 10), (10, 12)]

end DistGraphCartesianCut

/-!
# Thread-local node ranges (`Galois/Graph/Util.h`)

`LL::getTID ()` and `getActiveThreads ()` are passed as the arguments `id` and `num`
(`unsigned int`, far below the range of the type); the arithmetic is that of
`uint64_t`, and a division by zero returns `none`.
-/

namespace Galois.Graph

/-- The common factor `(numNodes + num - 1) / num` of `localStart` and `localEnd`. -/
def blockSize (num numNodes : Nat) : Option Nat :=
  if num = 0 then none else some ((numNodes + num - 1) % 2 ^ 64 / num)

/-- `localStart (numNodes)` on the thread `id` of `num` active threads. -/
def localStart (id num numNodes : Nat) : Option Nat :=
  (blockSize num numNodes).map (fun b => (b * id) % 2 ^ 64)

/-- `localEnd (numNodes)` on the thread `id` of `num` active threads. -/
def localEnd (id num numNodes : Nat) : Option Nat :=
  (blockSize num numNodes).map (fun b => min ((b * (id + 1)) % 2 ^ 64) numNodes)

/-- The test `localStart (numNodes) <= x && x < localEnd (numNodes)` on the thread
`id`: the node `x` lies in the range of the thread. -/
def inLocalRange (id num numNodes x : Nat) : Bool :=
  match localStart id num numNodes, localEnd id num numNodes with
  | some a, some b => decide (a ≤ x) && decide (x < b)
  | _, _ => false

end Galois.Graph

namespace KDGtwoPhase

variable {T σ : Type}

/-! ## A chunk size whose product with the thread count does not fit `unsigned` -/

/-- An operator without pushes whose `CHUNK_SIZE` is `2 ^ 31`, run by two threads: the
`unsigned` product of line 167 is `2 ^ 32` before it wraps. One conflict-free
iteration per item, target commit ratio 4/5. -/
def cfgWrap : Config Nat Unit :=
  { cmp := fun a b => decide (a < b)
    NeedsPush := false
    CHUNK_SIZE := 2 ^ 31
    activeThreads := 2
    commitRatioGE := fun c p => decide (4 * p ≤ 5 * c)
    shrinkWindow := fun w c p => (w * c * 5) / (p * 4)
    pollCount := fun _ newSize origSize => newSize - origSize
    nhFunc := fun u _ _ => { user := u, conflict := false, losers := [] }
    opFunc := fun u _ _ => { user := u, conflict := false, losers := [], pushBuffer := [] }
    commitIteration := fun u _ => u
    cancelIteration := fun u _ => u }

/-- The state after `fill_initial` for `cfgWrap` on the range 1..1000. -/
def wrapInput : State Nat Unit :=
  fill_initial cfgWrap (initState ()) (List.range' 1 1000)

/-! ## A run with a lock and pushes, in which the window worklist refills -/

/-- A single global lock as in scenario S2 (the first Context of a round that asks for
it commits, the others abort), with an operator that pushes `x + 1` and `x + 11` for
an even item `x < 10`; smaller items first, chunk size one, one thread, target commit
ratio 4/5. The user state is the owner of the lock. -/
def cfgSpill : Config Nat (Option CtxtPtr) :=
  { cmp := fun a b => decide (a < b)
    NeedsPush := true
    CHUNK_SIZE := 1
    activeThreads := 1
    commitRatioGE := fun c p => decide (4 * p ≤ 5 * c)
    shrinkWindow := fun w c p => (w * c * 5) / (p * 4)
    pollCount := fun _ newSize origSize => newSize - origSize
    nhFunc := fun u p _ =>
      match u with
      | none => { user := some p, conflict := false, losers := [] }
      | some q => { user := some q, conflict := decide (q ≠ p), losers := [] }
    opFunc := fun u _ x =>
      { user := u, conflict := false, losers := []
        pushBuffer := if x % 2 = 0 ∧ x < 10 then [x + 1, x + 11] else [] }
    commitIteration := fun u p => if u = some p then none else u
    cancelIteration := fun u p => if u = some p then none else u }

/-- The run of `cfgSpill` on the range `[2, 4, 6]`: the state at the start of the apply
phase of the third round. The second round left four Contexts and a window of size 1,
so `refill` spilled them and polled one: `winWL` holds 6 and 13, `currWL` the Context
of 4. -/
def applyStartSpill : State Nat (Option CtxtPtr) :=
  expandNhood cfgSpill (afterPrepare cfgSpill 2 (fill_initial cfgSpill (initState none) [2, 4, 6]))

/-- The items of the Contexts in `nextWL`. -/
def nextItems (st : State T σ) : List T :=
  st.nextWL.filterMap (fun p => (st.heap p).map (fun c => c.elem))

/-! ## The items of a run -/

/-- The items of the Contexts `L`, in the order of `L`. -/
def itemsOf (heap : CtxtPtr → Option (Ctxt T)) (L : List CtxtPtr) : List T :=
  L.filterMap (fun p => (heap p).map (fun c => c.elem))

/-- The items balance: the committed items, the items waiting in `winWL` and the items
of the Contexts `L` are, up to order, the initial items and the pushed items, each as
often as it was given; and `pushed` counts the pushed items. -/
structure ItemsBalance (range : List T) (st : State T σ) (L : List CtxtPtr) : Prop where
  items : (st.committed ++ st.winWL ++ itemsOf st.heap L).Perm (range ++ st.pushedItems)
  pushed : st.pushed = st.pushedItems.length

/-- Scenario S2 on the range `[3, 1, 5, 2, 4]`: the state `execute_stable` returns
(the initial state if it did not return within 20 rounds). Every round commits one
item and aborts the others. -/
def finalS2 : State Nat (Option CtxtPtr) :=
  (for_each_ordered_2p_win cfgS2 20 none [3, 1, 5, 2, 4]).getD (initState none)

/-! ## The `double` arithmetic of `refill` -/

/-- A finite non-negative `double` (IEEE 754 binary64): the value `m * 2 ^ e`. -/
structure Dbl where
  m : Nat
  e : Int
  deriving DecidableEq

/-- The value of a `double` as a rational number. -/
def Dbl.toRat (d : Dbl) : ℚ := (d.m : ℚ) * (2 : ℚ) ^ d.e

/-- The number of binary digits of `n`, by `fuel` halvings. -/
def bitsAux : Nat → Nat → Nat
  | 0, _ => 0
  | fuel + 1, n => if n = 0 then 0 else bitsAux fuel (n / 2) + 1

/-- The number of binary digits of `n`. -/
def bits (n : Nat) : Nat := bitsAux n n

/-- The exponent `k` with `2 ^ k <= N / D < 2 ^ (k + 1)`, for `N, D > 0`. -/
def floorLog2 (N D : Nat) : Int :=
  if 2 ^ ((bits N : Int) - (bits D : Int)).toNat * D
      ≤ N * 2 ^ ((bits D : Int) - (bits N : Int)).toNat
  then (bits N : Int) - (bits D : Int)
  else (bits N : Int) - (bits D : Int) - 1

/-- Rounding of the integer quotient `N / D` to the nearest integer, ties to even. -/
def roundHalfEven (N D : Nat) : Nat :=
  if 2 * (N % D) < D then N / D
  else if D < 2 * (N % D) then N / D + 1
  else if (N / D) % 2 = 0 then N / D else N / D + 1

/-- The `double` nearest to the non-negative rational `N / D` (`D > 0`), ties to even:
53 binary digits, or a multiple of `2 ^ -1074` in the subnormal range; `none` when the
result is not finite. -/
def roundDouble (N D : Nat) : Option Dbl :=
  if N = 0 then some ⟨0, 0⟩
  else
    let u : Int := max (floorLog2 N D - 52) (-1074)
    let m := roundHalfEven (N * 2 ^ (-u).toNat) (D * 2 ^ u.toNat)
    if (bits m : Int) + u > 1024 then none else some ⟨m, u⟩

/-- The conversion `double (n)` of a `size_t`. -/
def Dbl.ofNat (n : Nat) : Option Dbl := roundDouble n 1

/-- The product of two `double`s. -/
def Dbl.mul (x y : Dbl) : Option Dbl :=
  roundDouble (x.m * y.m * 2 ^ (x.e + y.e).toNat) (2 ^ (-(x.e + y.e)).toNat)

/-- The quotient of two `double`s; `none` for a divisor 0. -/
def Dbl.div (x y : Dbl) : Option Dbl :=
  if y.m = 0 then none
  else roundDouble (x.m * 2 ^ (x.e - y.e).toNat) (y.m * 2 ^ (y.e - x.e).toNat)

/-- The comparison `x <= y` of two `double`s. -/
def Dbl.le (x y : Dbl) : Bool :=
  decide (x.m * 2 ^ (x.e - y.e).toNat ≤ y.m * 2 ^ (y.e - x.e).toNat)

/-- The conversion `int (x)`: the integral part, undefined (`none`) when it does not
fit `int`. -/
def Dbl.toInt (x : Dbl) : Option Nat :=
  if x.m * 2 ^ x.e.toNat / 2 ^ (-x.e).toNat < 2 ^ 31
  then some (x.m * 2 ^ x.e.toNat / 2 ^ (-x.e).toNat) else none

/-- The value of `double (currCommits) / double (prevWindowSize)` (line 189). -/
def commitRatioDouble (currCommits prevWindowSize : Nat) : Option Dbl :=
  match Dbl.ofNat currCommits, Dbl.ofNat prevWindowSize with
  | some c, some p => Dbl.div c p
  | _, _ => none

/-- The test `commitRatio >= TARGET_COMMIT_RATIO` (line 191). -/
def commitRatioGEDouble (target : Dbl) (currCommits prevWindowSize : Nat) : Option Bool :=
  (commitRatioDouble currCommits prevWindowSize).map (fun r => Dbl.le target r)

/-- The value of `int (windowSize * commitRatio / TARGET_COMMIT_RATIO)` (line 197);
`none` when a step is not finite or the conversion to `int` is undefined. -/
def shrinkDouble (target : Dbl) (windowSize currCommits prevWindowSize : Nat) : Option Nat :=
  match commitRatioDouble currCommits prevWindowSize, Dbl.ofNat windowSize with
  | some r, some w =>
    match Dbl.mul w r with
    | some prod =>
      match Dbl.div prod target with
      | some q => Dbl.toInt q
      | none => none
    | none => none
  | _, _ => none

/-- The `double` nearest to 0.8, the default of `commitRatioArg`. -/
def target08 : Dbl := ⟨7205759403792794, -53⟩

/-- The configuration computes its two window-size oracles in `double` arithmetic with
`TARGET_COMMIT_RATIO = target`, as lines 189-197 do, wherever that computation is
defined. -/
structure DoubleArith (cfg : Config T σ) (target : Dbl) : Prop where
  /-- the test of line 191 -/
  ratio : ∀ c p b, commitRatioGEDouble target c p = some b → cfg.commitRatioGE c p = b
  /-- the value of line 197 -/
  shrink : ∀ w c p v, shrinkDouble target w c p = some v → cfg.shrinkWindow w c p = v

/-- Scenario S2 with the window-size arithmetic of the source: `double`s and the default
target commit ratio 0.8. -/
def cfgS2D : Config Nat (Option CtxtPtr) :=
  { cfgS2 with
    commitRatioGE := fun c p => (commitRatioGEDouble target08 c p).getD false
    shrinkWindow := fun w c p => (shrinkDouble target08 w c p).getD 0 }

/-- Scenario S2 in `double` arithmetic on the range 1..100: the state at the head of the
loop after the first round. -/
def round1S2D : State Nat (Option CtxtPtr) :=
  loopHead cfgS2D 1 (fill_initial cfgS2D (initState none) (List.range' 1 100))

/-- The burst of conflicts with the window-size arithmetic of the source: `double`s and
the default target commit ratio 0.8. -/
def cfgBurstD : Config Nat Nat :=
  { cfgBurst with
    commitRatioGE := fun c p => (commitRatioGEDouble target08 c p).getD false
    shrinkWindow := fun w c p => (shrinkDouble target08 w c p).getD 0 }

/-- The run of `cfgBurstD` on the range 1..7: the state at the head of the loop after
three rounds. -/
def round3BurstD : State Nat Nat :=
  loopHead cfgBurstD 3 (fill_initial cfgBurstD (initState 0) (List.range' 1 7))

/-! # Theorems -/


theorem StrictWeakOrder.asymm {cmp : T → T → Bool} (h : StrictWeakOrder cmp) {a b : T}
    (hab : cmp a b = true) : cmp b a = false := by
  cases hba : cmp b a with
  | false => rfl
  | true =>
    have := h.trans a b a hab hba
    rw [h.irrefl a] at this
    exact absurd this (by simp)

theorem StrictWeakOrder.negTrans {cmp : T → T → Bool} (h : StrictWeakOrder cmp) {a b c : T}
    (hab : cmp a b = false) (hbc : cmp b c = false) : cmp a c = false := by
  cases hac : cmp a c with
  | false => rfl
  | true =>
    exfalso
    cases hba : cmp b a with
    | true =>
      have := h.trans b a c hba hac
      rw [hbc] at this
      exact absurd this (by simp)
    | false =>
      cases hcb : cmp c b with
      | true =>
        have := h.trans a c b hac hcb
        rw [hab] at this
        exact absurd this (by simp)
      | false =>
        have := (h.incomp_trans a b c hab hba hbc hcb).1
        rw [hac] at this
        exact absurd this (by simp)

theorem WindowWL.mem_push (cmp : T → T → Bool) (x a : T) (w : List T) :
    a ∈ WindowWL.push cmp x w ↔ a = x ∨ a ∈ w := by
  induction w with
  | nil => simp [WindowWL.push]
  | cons y ys ih =>
    unfold WindowWL.push
    split
    · simp
    · simp [ih]; tauto

theorem WindowWL.length_push (cmp : T → T → Bool) (x : T) (w : List T) :
    (WindowWL.push cmp x w).length = w.length + 1 := by
  induction w with
  | nil => simp [WindowWL.push]
  | cons y ys ih =>
    unfold WindowWL.push
    split <;> simp [ih]

theorem WindowWL.ordered_push {cmp : T → T → Bool} (h : StrictWeakOrder cmp) (x : T) (w : List T)
    (hw : WindowWL.Ordered cmp w) : WindowWL.Ordered cmp (WindowWL.push cmp x w) := by
  induction w with
  | nil => simp [WindowWL.push, WindowWL.Ordered]
  | cons y ys ih =>
    unfold WindowWL.Ordered at hw ih ⊢
    rw [List.pairwise_cons] at hw
    unfold WindowWL.push
    split
    · rename_i hxy
      rw [List.pairwise_cons]
      refine ⟨?_, List.pairwise_cons.mpr hw⟩
      intro z hz
      rcases List.mem_cons.mp hz with rfl | hz
      · exact h.asymm hxy
      · exact h.negTrans (hw.1 z hz) (h.asymm hxy)
    · rename_i hxy
      rw [List.pairwise_cons]
      refine ⟨?_, ih hw.2⟩
      intro z hz
      rcases (WindowWL.mem_push cmp x z ys).mp hz with rfl | hz
      · simpa using hxy
      · exact hw.1 z hz

theorem WindowWL.length_initfill (cmp : T → T → Bool) (range : List T) :
    (WindowWL.initfill cmp range).length = range.length := by
  unfold WindowWL.initfill
  suffices h : ∀ (w : List T), (range.foldl (fun w x => WindowWL.push cmp x w) w).length
      = w.length + range.length by simpa using h []
  induction range with
  | nil => intro w; simp
  | cons x xs ih => intro w; simp [ih, WindowWL.length_push]; omega

theorem WindowWL.ordered_initfill {cmp : T → T → Bool} (h : StrictWeakOrder cmp) (range : List T) :
    WindowWL.Ordered cmp (WindowWL.initfill cmp range) := by
  unfold WindowWL.initfill
  suffices hs : ∀ (w : List T), WindowWL.Ordered cmp w →
      WindowWL.Ordered cmp (range.foldl (fun w x => WindowWL.push cmp x w) w) from
    hs [] (by simp [WindowWL.Ordered])
  induction range with
  | nil => intro w hw; simpa using hw
  | cons x xs ih => intro w hw; exact ih _ (WindowWL.ordered_push h x w hw)

/-! ## The arena -/

theorem HeapInv.perm {heap : CtxtPtr → Option (Ctxt T)} {n : CtxtPtr} {L L' : List CtxtPtr}
    (h : HeapInv heap n L) (hp : L.Perm L') : HeapInv heap n L' where
  nodup := hp.nodup_iff.mp h.nodup
  live := fun p => by rw [← hp.mem_iff]; exact h.live p
  fresh := fun p hm => h.fresh p (hp.mem_iff.mpr hm)

theorem HeapInv.alloc {heap : CtxtPtr → Option (Ctxt T)} {n : CtxtPtr} {L : List CtxtPtr}
    (h : HeapInv heap n L) (c : Ctxt T) :
    HeapInv (fun q => if q = n then some c else heap q) (n + 1) (L ++ [n]) where
  nodup := by
    rw [List.nodup_append]
    refine ⟨h.nodup, List.nodup_singleton n, ?_⟩
    intro a ha hb
    have hlt := h.fresh a ha
    rw [List.mem_singleton] at hb
    rw [hb] at hlt
    exact Nat.lt_irrefl _ hlt
  live := fun p => by
    by_cases hp : p = n
    · simp [hp]
    · simp [hp, h.live p]
  fresh := fun p hm => by
    rcases List.mem_append.mp hm with hm | hm
    · exact Nat.lt_succ_of_lt (h.fresh p hm)
    · rw [List.mem_singleton] at hm
      rw [hm]
      exact Nat.lt_succ_self _

theorem HeapInv.destroy {heap : CtxtPtr → Option (Ctxt T)} {n p : CtxtPtr} {L : List CtxtPtr}
    (h : HeapInv heap n (p :: L)) : HeapInv (destroyCtxt p heap) n L where
  nodup := (List.nodup_cons.mp h.nodup).2
  live := fun q => by
    have hn := (List.nodup_cons.mp h.nodup).1
    have hl := h.live q
    unfold destroyCtxt
    by_cases hq : q = p
    · subst hq; simp [hn]
    · simp [hq] at hl ⊢; exact hl
  fresh := fun q hm => h.fresh q (List.mem_cons_of_mem p hm)

theorem disableSrc_some {heap : CtxtPtr → Option (Ctxt T)} {ps : List CtxtPtr} {q : CtxtPtr}
    {c : Ctxt T} (h : disableSrc ps heap q = some c) : ∃ c0, heap q = some c0 ∧ c0.elem = c.elem := by
  unfold disableSrc at h
  split at h
  · cases hq : heap q with
    | none => simp [hq] at h
    | some c0 => simp [hq] at h; exact ⟨c0, rfl, by rw [← h]⟩
  · exact ⟨c, h, rfl⟩

theorem disableSrc_isSome (heap : CtxtPtr → Option (Ctxt T)) (ps : List CtxtPtr) (q : CtxtPtr) :
    (∃ c, disableSrc ps heap q = some c) ↔ ∃ c, heap q = some c := by
  unfold disableSrc
  split <;> cases heap q <;> simp

theorem resetCtxt_some {heap : CtxtPtr → Option (Ctxt T)} {p q : CtxtPtr}
    {c : Ctxt T} (h : resetCtxt p heap q = some c) : ∃ c0, heap q = some c0 ∧ c0.elem = c.elem := by
  unfold resetCtxt at h
  split at h
  · cases hq : heap q with
    | none => simp [hq] at h
    | some c0 => simp [hq] at h; exact ⟨c0, rfl, by rw [← h]⟩
  · exact ⟨c, h, rfl⟩

theorem resetCtxt_isSome (heap : CtxtPtr → Option (Ctxt T)) (p q : CtxtPtr) :
    (∃ c, resetCtxt p heap q = some c) ↔ ∃ c, heap q = some c := by
  unfold resetCtxt
  split <;> cases heap q <;> simp

theorem destroyCtxt_some {heap : CtxtPtr → Option (Ctxt T)} {p q : CtxtPtr}
    {c : Ctxt T} (h : destroyCtxt p heap q = some c) : heap q = some c := by
  unfold destroyCtxt at h
  split at h
  · simp at h
  · exact h

theorem HeapInv.disable {heap : CtxtPtr → Option (Ctxt T)} {n : CtxtPtr} {L : List CtxtPtr}
    (h : HeapInv heap n L) (ps : List CtxtPtr) : HeapInv (disableSrc ps heap) n L where
  nodup := h.nodup
  live := fun p => by rw [disableSrc_isSome]; exact h.live p
  fresh := h.fresh

theorem HeapInv.reset {heap : CtxtPtr → Option (Ctxt T)} {n : CtxtPtr} {L : List CtxtPtr}
    (h : HeapInv heap n L) (p : CtxtPtr) : HeapInv (resetCtxt p heap) n L where
  nodup := h.nodup
  live := fun q => by rw [resetCtxt_isSome]; exact h.live q
  fresh := h.fresh

theorem HeapInv.heap_none {heap : CtxtPtr → Option (Ctxt T)} {n : CtxtPtr}
    (h : HeapInv heap n []) (p : CtxtPtr) : heap p = none := by
  cases hp : heap p with
  | none => rfl
  | some c => exact absurd ((h.live p).mpr ⟨c, hp⟩) (by simp)

/-- When `L` enumerates the live Contexts and all of them are in the worklists, the
worklists hold `L.length` live Contexts. -/
theorem card_liveCtxts {st : State T σ} {L : List CtxtPtr} (h : HeapInv st.heap st.nextPtr L)
    (hsub : ∀ p ∈ L, p ∈ st.currWL ++ st.nextWL) : (liveCtxts st).card = L.length := by
  have heq : liveCtxts st = L.toFinset := by
    ext p
    simp only [liveCtxts, Finset.mem_filter, List.mem_toFinset]
    constructor
    · rintro ⟨_, hl⟩
      exact (h.live p).mpr (Option.isSome_iff_exists.mp hl)
    · intro hp
      exact ⟨hsub p hp, Option.isSome_iff_exists.mpr ((h.live p).mp hp)⟩
  rw [heq, List.toFinset_card_of_nodup h.nodup]

/-! ## Folds -/

theorem foldl_keeps {α β γ : Type} (f : α → β → α) (g : α → γ)
    (h : ∀ a b, g (f a b) = g a) (l : List β) (a : α) : g (l.foldl f a) = g a := by
  induction l generalizing a with
  | nil => rfl
  | cons b bs ih => simp [ih, h]

theorem foldl_rest {α β : Type} (f : α → β → α) (P : List β → α → Prop)
    (step : ∀ b R a, P (b :: R) a → P R (f a b)) (l R : List β) (a : α) (h : P (l ++ R) a) :
    P R (l.foldl f a) := by
  induction l generalizing a with
  | nil => simpa using h
  | cons b bs ih => exact ih _ (step b (bs ++ R) a (by simpa using h))

/-! ## `poll`, `spillAll` and `refill` keep the Contexts tracked -/

theorem foldl_inv {α β : Type} (f : α → β → α) (P : α → Prop)
    (step : ∀ a b, P a → P (f a b)) (l : List β) (a : α) (h : P a) : P (l.foldl f a) := by
  induction l generalizing a with
  | nil => exact h
  | cons b bs ih => exact ih _ (step a b h)

theorem pollOne_fold_tracked (C : Prop) (n0 : Nat) (xs R : List T) (st : State T σ)
    (hh : HeapInv st.heap st.nextPtr st.currWL)
    (hc : C → st.committed.length + st.winWL.length + st.currWL.length + (xs ++ R).length
      = n0 + st.pushed)
    (hn : st.numCommitted = st.committed.length) :
    HeapInv (xs.foldl pollOne st).heap (xs.foldl pollOne st).nextPtr (xs.foldl pollOne st).currWL
    ∧ (C → (xs.foldl pollOne st).committed.length + (xs.foldl pollOne st).winWL.length
        + (xs.foldl pollOne st).currWL.length + R.length = n0 + (xs.foldl pollOne st).pushed)
    ∧ (xs.foldl pollOne st).numCommitted = (xs.foldl pollOne st).committed.length := by
  refine foldl_rest pollOne
    (fun R a => HeapInv a.heap a.nextPtr a.currWL
      ∧ (C → a.committed.length + a.winWL.length + a.currWL.length + R.length = n0 + a.pushed)
      ∧ a.numCommitted = a.committed.length) ?_ xs R st ⟨hh, hc, hn⟩
  rintro b R a ⟨h1, h2, h3⟩
  refine ⟨h1.alloc _, fun hC => ?_, h3⟩
  have h2 := h2 hC
  simp only [pollOne, MakeContext, List.length_append, List.length_cons, List.length_nil] at h2 ⊢
  omega

theorem poll_winWL (cfg : Config T σ) (st : State T σ) (k o : Nat) :
    (WindowWL.poll cfg st k o).winWL = st.winWL.drop (cfg.pollCount st.winWL k o) := by
  unfold WindowWL.poll
  exact foldl_keeps pollOne (fun s => s.winWL) (fun _ _ => rfl) _ _

theorem poll_nextWL (cfg : Config T σ) (st : State T σ) (k o : Nat) :
    (WindowWL.poll cfg st k o).nextWL = st.nextWL := by
  unfold WindowWL.poll
  exact foldl_keeps pollOne (fun s => s.nextWL) (fun _ _ => rfl) _ _

theorem poll_windowSize (cfg : Config T σ) (st : State T σ) (k o : Nat) :
    (WindowWL.poll cfg st k o).windowSize = st.windowSize := by
  unfold WindowWL.poll
  exact foldl_keeps pollOne (fun s => s.windowSize) (fun _ _ => rfl) _ _

theorem pollOne_fold_length (xs : List T) (st : State T σ) :
    (xs.foldl pollOne st).currWL.length = st.currWL.length + xs.length := by
  induction xs generalizing st with
  | nil => simp
  | cons x xs ih => simp [ih, pollOne]; omega

theorem poll_length (cfg : Config T σ) (st : State T σ) (k o : Nat) :
    (WindowWL.poll cfg st k o).currWL.length
      = st.currWL.length + min (cfg.pollCount st.winWL k o) st.winWL.length := by
  unfold WindowWL.poll
  simp [pollOne_fold_length]

theorem poll_tracked (cfg : Config T σ) (n0 : Nat) (st : State T σ) (k o : Nat)
    (h : Tracked cfg n0 st st.currWL) :
    Tracked cfg n0 (WindowWL.poll cfg st k o) (WindowWL.poll cfg st k o).currWL := by
  have := pollOne_fold_tracked (PushesOnlyIfNeedsPush cfg) n0
    (st.winWL.take (cfg.pollCount st.winWL k o)) []
    { st with winWL := st.winWL.drop (cfg.pollCount st.winWL k o) } h.heap
    (fun hp => by
      have := h.count hp
      simp only [List.length_drop, List.length_take, List.append_nil]; omega)
    h.commits
  unfold WindowWL.poll
  exact ⟨this.1, fun hp => by simpa using this.2.1 hp, this.2.2⟩

theorem spillOne_fold_tracked (cfg : Config T σ) (n0 : Nat) (ps R : List CtxtPtr)
    (st : State T σ) (h : Tracked cfg n0 st (ps ++ R)) :
    Tracked cfg n0 (ps.foldl (spillOne cfg) st) R := by
  refine foldl_rest (spillOne cfg) (fun R a => Tracked cfg n0 a R) ?_ ps R st h
  intro p R a ha
  obtain ⟨c, hc⟩ := (ha.heap.live p).mp (List.mem_cons_self p R)
  have hs : spillOne cfg a p
      = { a with winWL := WindowWL.push cfg.cmp c.elem a.winWL, heap := destroyCtxt p a.heap } := by
    simp [spillOne, hc]
  rw [hs]
  refine ⟨ha.heap.destroy, fun hp => ?_, ha.commits⟩
  have := ha.count hp
  simp only [WindowWL.length_push, List.length_cons] at this ⊢
  omega

theorem spillAll_tracked (cfg : Config T σ) (n0 : Nat) (st : State T σ)
    (h : Tracked cfg n0 st st.currWL) : Tracked cfg n0 (spillAll cfg st) [] := by
  have h1 : Tracked cfg n0 st (st.currWL.reverse ++ []) :=
    ⟨h.heap.perm (by simpa using (List.reverse_perm st.currWL).symm),
      fun hp => by simpa using h.count hp, h.commits⟩
  have := spillOne_fold_tracked cfg n0 _ [] st h1
  exact ⟨this.heap, this.count, this.commits⟩

theorem spillAll_currWL (cfg : Config T σ) (st : State T σ) : (spillAll cfg st).currWL = [] := rfl

theorem spillAll_nextWL (cfg : Config T σ) (st : State T σ) :
    (spillAll cfg st).nextWL = st.nextWL := by
  show (st.currWL.reverse.foldl (spillOne cfg) st).nextWL = st.nextWL
  refine foldl_keeps (spillOne cfg) (fun s => s.nextWL) ?_ _ _
  intro a b; simp only [spillOne]; split <;> rfl

theorem spillAll_windowSize (cfg : Config T σ) (st : State T σ) :
    (spillAll cfg st).windowSize = st.windowSize := by
  show (st.currWL.reverse.foldl (spillOne cfg) st).windowSize = st.windowSize
  refine foldl_keeps (spillOne cfg) (fun s => s.windowSize) ?_ _ _
  intro a b; simp only [spillOne]; split <;> rfl

theorem refillSpill_tracked (cfg : Config T σ) (n0 : Nat) (st : State T σ)
    (h : Tracked cfg n0 st st.currWL) :
    Tracked cfg n0 (refillSpill cfg st) (refillSpill cfg st).currWL := by
  unfold refillSpill
  split
  · split
    · rw [spillAll_currWL]; exact spillAll_tracked cfg n0 st h
    · split
      · rw [spillAll_currWL]; exact spillAll_tracked cfg n0 st h
      · exact h
  · exact h

theorem refillSpill_nextWL (cfg : Config T σ) (st : State T σ) :
    (refillSpill cfg st).nextWL = st.nextWL := by
  unfold refillSpill
  split
  · split
    · exact spillAll_nextWL cfg st
    · split
      · exact spillAll_nextWL cfg st
      · rfl
  · rfl

theorem refillSpill_windowSize (cfg : Config T σ) (st : State T σ) :
    (refillSpill cfg st).windowSize = st.windowSize := by
  unfold refillSpill
  split
  · split
    · exact spillAll_windowSize cfg st
    · split
      · exact spillAll_windowSize cfg st
      · rfl
  · rfl

theorem refillBeforePoll_tracked (cfg : Config T σ) (n0 : Nat) (st : State T σ) (c w : Nat)
    (h : Tracked cfg n0 st st.currWL) :
    Tracked cfg n0 (refillBeforePoll cfg st c w) (refillBeforePoll cfg st c w).currWL :=
  refillSpill_tracked cfg n0 _ ⟨h.heap, h.count, h.commits⟩

theorem refillBeforePoll_nextWL (cfg : Config T σ) (st : State T σ) (c w : Nat) :
    (refillBeforePoll cfg st c w).nextWL = st.nextWL :=
  refillSpill_nextWL cfg _

theorem refillBeforePoll_windowSize (cfg : Config T σ) (st : State T σ) (c w : Nat) :
    (refillBeforePoll cfg st c w).windowSize = refillClamp cfg (refillRule cfg st c w) :=
  refillSpill_windowSize cfg _

theorem refill_tracked (cfg : Config T σ) (n0 : Nat) (st : State T σ) (c w : Nat)
    (h : Tracked cfg n0 st st.currWL) :
    Tracked cfg n0 (refill cfg st c w) (refill cfg st c w).currWL :=
  poll_tracked cfg n0 _ _ _ (refillBeforePoll_tracked cfg n0 st c w h)

theorem refill_nextWL (cfg : Config T σ) (st : State T σ) (c w : Nat) :
    (refill cfg st c w).nextWL = st.nextWL := by
  unfold refill
  simp only [poll_nextWL, refillBeforePoll_nextWL]

theorem prepareRound_tracked (cfg : Config T σ) (n0 : Nat) (st : State T σ)
    (h : Tracked cfg n0 st st.nextWL) :
    Tracked cfg n0 (prepareRound cfg st) (prepareRound cfg st).currWL :=
  refill_tracked cfg n0 _ _ _ ⟨h.heap, h.count, h.commits⟩

theorem prepareRound_nextWL (cfg : Config T σ) (st : State T σ) :
    (prepareRound cfg st).nextWL = [] := by
  unfold prepareRound
  rw [refill_nextWL]
  rfl


/-! ## `expandNhood` and `applyOperator` keep the Contexts tracked -/

theorem expandOne_tracked (cfg : Config T σ) (n0 : Nat) (L : List CtxtPtr) (st : State T σ)
    (p : CtxtPtr) (h : Tracked cfg n0 st L) : Tracked cfg n0 (expandOne cfg st p) L := by
  unfold expandOne
  split
  · exact ⟨h.heap.disable _, h.count, h.commits⟩
  · exact h

theorem expandOne_currWL (cfg : Config T σ) (st : State T σ) (p : CtxtPtr) :
    (expandOne cfg st p).currWL = st.currWL := by
  unfold expandOne; split <;> rfl

theorem expandOne_nextWL (cfg : Config T σ) (st : State T σ) (p : CtxtPtr) :
    (expandOne cfg st p).nextWL = st.nextWL := by
  unfold expandOne; split <;> rfl

theorem expandOne_winWL (cfg : Config T σ) (st : State T σ) (p : CtxtPtr) :
    (expandOne cfg st p).winWL = st.winWL := by
  unfold expandOne; split <;> rfl

theorem expandNhood_tracked (cfg : Config T σ) (n0 : Nat) (L : List CtxtPtr) (st : State T σ)
    (h : Tracked cfg n0 st L) : Tracked cfg n0 (expandNhood cfg st) L :=
  foldl_inv (expandOne cfg) (fun a => Tracked cfg n0 a L)
    (fun a b ha => expandOne_tracked cfg n0 L a b ha) _ _ h

theorem expandNhood_currWL (cfg : Config T σ) (st : State T σ) :
    (expandNhood cfg st).currWL = st.currWL :=
  foldl_keeps (expandOne cfg) (fun s => s.currWL) (fun a b => expandOne_currWL cfg a b) _ _

theorem expandNhood_nextWL (cfg : Config T σ) (st : State T σ) :
    (expandNhood cfg st).nextWL = st.nextWL :=
  foldl_keeps (expandOne cfg) (fun s => s.nextWL) (fun a b => expandOne_nextWL cfg a b) _ _

theorem expandNhood_winWL (cfg : Config T σ) (st : State T σ) :
    (expandNhood cfg st).winWL = st.winWL :=
  foldl_keeps (expandOne cfg) (fun s => s.winWL) (fun a b => expandOne_winWL cfg a b) _ _

theorem runOperator_tracked (cfg : Config T σ) (n0 : Nat) (L : List CtxtPtr) (st : State T σ)
    (p : CtxtPtr) (c : Ctxt T) (h : Tracked cfg n0 st L) :
    Tracked cfg n0 (runOperator cfg st p c).1 L := by
  unfold runOperator
  split
  · exact ⟨h.heap.disable _, h.count, h.commits⟩
  · exact h

theorem runOperator_nextWL (cfg : Config T σ) (st : State T σ) (p : CtxtPtr) (c : Ctxt T) :
    (runOperator cfg st p c).1.nextWL = st.nextWL := by
  unfold runOperator; split <;> rfl

theorem runOperator_currWL (cfg : Config T σ) (st : State T σ) (p : CtxtPtr) (c : Ctxt T) :
    (runOperator cfg st p c).1.currWL = st.currWL := by
  unfold runOperator; split <;> rfl

theorem runOperator_buffer (cfg : Config T σ) (hpush : PushesOnlyIfNeedsPush cfg)
    (hnp : cfg.NeedsPush = false) (st : State T σ) (p : CtxtPtr) (c : Ctxt T) :
    (runOperator cfg st p c).2.2 = [] := by
  unfold runOperator
  split
  · exact hpush hnp _ _ _
  · rfl

theorem routePush_nextWL_or (cfg : Config T σ) (m : Option T) (st : State T σ) (x : T) :
    ((routePush cfg m st x).heap = (fun q => if q = st.nextPtr
          then some { elem := x, source := true } else st.heap q)
      ∧ (routePush cfg m st x).nextPtr = st.nextPtr + 1
      ∧ (routePush cfg m st x).nextWL = st.nextWL ++ [st.nextPtr]
      ∧ (routePush cfg m st x).winWL = st.winWL
      ∧ goesToNextWL cfg m x = true)
    ∨ ((routePush cfg m st x).heap = st.heap
      ∧ (routePush cfg m st x).nextPtr = st.nextPtr
      ∧ (routePush cfg m st x).nextWL = st.nextWL
      ∧ (routePush cfg m st x).winWL = WindowWL.push cfg.cmp x st.winWL
      ∧ goesToNextWL cfg m x = false) := by
  unfold routePush
  split
  · rename_i h; exact Or.inl ⟨rfl, rfl, rfl, rfl, h⟩
  · rename_i h; exact Or.inr ⟨rfl, rfl, rfl, rfl, by simpa using h⟩

theorem routePush_committed (cfg : Config T σ) (m : Option T) (st : State T σ) (x : T) :
    (routePush cfg m st x).committed = st.committed := by
  unfold routePush; split <;> rfl

theorem routePush_pushed (cfg : Config T σ) (m : Option T) (st : State T σ) (x : T) :
    (routePush cfg m st x).pushed = st.pushed := by
  unfold routePush; split <;> rfl

theorem routePush_numCommitted (cfg : Config T σ) (m : Option T) (st : State T σ) (x : T) :
    (routePush cfg m st x).numCommitted = st.numCommitted := by
  unfold routePush; split <;> rfl

theorem routePush_currWL (cfg : Config T σ) (m : Option T) (st : State T σ) (x : T) :
    (routePush cfg m st x).currWL = st.currWL := by
  unfold routePush; split <;> rfl

/-- The invariant of the loop over the push buffer: the Context `p` being committed
is still live, `R` are the Contexts not yet visited. -/
theorem routePush_fold_tracked (cfg : Config T σ) (C : Prop) (m : Option T) (n0 : Nat)
    (p : CtxtPtr)
    (R : List CtxtPtr) (xs Rem : List T) (st : State T σ)
    (hh : HeapInv st.heap st.nextPtr (p :: (R ++ st.nextWL)))
    (hc : C → st.committed.length + st.winWL.length + R.length + st.nextWL.length
      + (xs ++ Rem).length = n0 + st.pushed)
    (hn : st.numCommitted = st.committed.length) :
    HeapInv (xs.foldl (routePush cfg m) st).heap (xs.foldl (routePush cfg m) st).nextPtr
        (p :: (R ++ (xs.foldl (routePush cfg m) st).nextWL))
    ∧ (C → (xs.foldl (routePush cfg m) st).committed.length
        + (xs.foldl (routePush cfg m) st).winWL.length + R.length
        + (xs.foldl (routePush cfg m) st).nextWL.length + Rem.length
        = n0 + (xs.foldl (routePush cfg m) st).pushed)
    ∧ (xs.foldl (routePush cfg m) st).numCommitted
        = (xs.foldl (routePush cfg m) st).committed.length := by
  refine foldl_rest (routePush cfg m)
    (fun Rem a => HeapInv a.heap a.nextPtr (p :: (R ++ a.nextWL))
      ∧ (C → a.committed.length + a.winWL.length + R.length + a.nextWL.length + Rem.length
          = n0 + a.pushed)
      ∧ a.numCommitted = a.committed.length) ?_ xs Rem st ⟨hh, hc, hn⟩
  rintro x Rem a ⟨h1, h2, h3⟩
  rw [routePush_committed, routePush_pushed, routePush_numCommitted]
  rcases routePush_nextWL_or cfg m a x with ⟨e1, e2, e3, e4, _⟩ | ⟨e1, e2, e3, e4, _⟩
  · rw [e1, e2, e3, e4]
    refine ⟨?_, fun hC => ?_, h3⟩
    · have := h1.alloc { elem := x, source := true }
      simpa [List.append_assoc] using this
    · have h2 := h2 hC
      simp only [List.length_append, List.length_cons, List.length_nil] at h2 ⊢
      omega
  · rw [e1, e2, e3, e4]
    refine ⟨h1, fun hC => ?_, h3⟩
    have h2 := h2 hC
    simp only [WindowWL.length_push, List.length_cons] at h2 ⊢
    omega

theorem commitCtxt_tracked (cfg : Config T σ) (m : Option T) (n0 : Nat) (p : CtxtPtr)
    (R : List CtxtPtr) (st : State T σ) (c : Ctxt T) (buf : List T)
    (hbuf : PushesOnlyIfNeedsPush cfg → cfg.NeedsPush = false → buf = [])
    (h : Tracked cfg n0 st (p :: (R ++ st.nextWL))) :
    Tracked cfg n0 (commitCtxt cfg m st p c buf) (R ++ (commitCtxt cfg m st p c buf).nextWL) := by
  have hc := h.count
  simp only [List.length_cons, List.length_append] at hc
  unfold commitCtxt
  cases hnp : cfg.NeedsPush with
  | false =>
    simp only [Bool.false_eq_true, if_false]
    refine ⟨h.heap.destroy, fun hp => ?_, ?_⟩
    · have hb := hbuf hp hnp
      have hc := hc hp
      subst hb
      simp only [List.length_append, List.length_cons, List.length_nil]
      omega
    · simp [h.commits]
  | true =>
    simp only [if_true]
    have := routePush_fold_tracked cfg (PushesOnlyIfNeedsPush cfg) m n0 p R buf []
      { st with numCommitted := st.numCommitted + 1, committed := st.committed ++ [c.elem],
                pushed := st.pushed + buf.length,
                pushedItems := st.pushedItems ++ buf }
      h.heap (fun hp => by
        have hc := hc hp
        simp only [List.length_append, List.length_cons, List.length_nil, List.append_nil]
        omega)
      (by simp [h.commits])
    refine ⟨this.1.destroy, fun hp => ?_, this.2.2⟩
    have h2 := this.2.1 hp
    simp only [List.length_append, List.length_nil] at h2 ⊢
    omega

theorem abortCtxt_tracked (cfg : Config T σ) (n0 : Nat) (p : CtxtPtr)
    (R : List CtxtPtr) (st : State T σ) (h : Tracked cfg n0 st (p :: (R ++ st.nextWL))) :
    Tracked cfg n0 (abortCtxt cfg st p) (R ++ (abortCtxt cfg st p).nextWL) := by
  unfold abortCtxt
  refine ⟨(h.heap.reset p).perm ?_, fun hp => ?_, h.commits⟩
  · show (p :: (R ++ st.nextWL)).Perm (R ++ (st.nextWL ++ [p]))
    rw [← List.append_assoc]
    exact (List.perm_append_singleton p (R ++ st.nextWL)).symm
  · have := h.count hp
    simp only [List.length_append, List.length_cons, List.length_nil] at this ⊢
    omega

theorem applyOne_tracked (cfg : Config T σ) (m : Option T)
    (n0 : Nat) (p : CtxtPtr) (R : List CtxtPtr) (st : State T σ)
    (h : Tracked cfg n0 st (p :: (R ++ st.nextWL))) :
    Tracked cfg n0 (applyOne cfg m st p) (R ++ (applyOne cfg m st p).nextWL) := by
  obtain ⟨c, hc⟩ := (h.heap.live p).mp (List.mem_cons_self p _)
  have hr : Tracked cfg n0 (runOperator cfg st p c).1 (p :: (R ++ (runOperator cfg st p c).1.nextWL)) := by
    rw [runOperator_nextWL]
    exact runOperator_tracked cfg n0 _ st p c h
  unfold applyOne
  simp only [hc]
  split
  · exact commitCtxt_tracked cfg m n0 p R _ c _
      (fun hpush hnp => runOperator_buffer cfg hpush hnp st p c) hr
  · exact abortCtxt_tracked cfg n0 p R _ hr

theorem commitCtxt_currWL (cfg : Config T σ) (m : Option T) (st : State T σ) (p : CtxtPtr)
    (c : Ctxt T) (buf : List T) : (commitCtxt cfg m st p c buf).currWL = st.currWL := by
  unfold commitCtxt
  split
  · exact foldl_keeps (routePush cfg m) (fun s => s.currWL)
      (fun a b => routePush_currWL cfg m a b) _ _
  · rfl

theorem applyOne_currWL (cfg : Config T σ) (m : Option T) (st : State T σ) (p : CtxtPtr) :
    (applyOne cfg m st p).currWL = st.currWL := by
  unfold applyOne
  split
  · simp only []
    split
    · rw [commitCtxt_currWL, runOperator_currWL]
    · show (runOperator cfg st p _).1.currWL = st.currWL
      rw [runOperator_currWL]
  · rfl

theorem applyLoop_tracked (cfg : Config T σ) (m : Option T)
    (n0 : Nat) (ps R : List CtxtPtr) (st : State T σ)
    (h : Tracked cfg n0 st ((ps ++ R) ++ st.nextWL)) :
    Tracked cfg n0 (ps.foldl (applyOne cfg m) st) (R ++ (ps.foldl (applyOne cfg m) st).nextWL) :=
  foldl_rest (applyOne cfg m) (fun R a => Tracked cfg n0 a (R ++ a.nextWL))
    (fun p R a ha => applyOne_tracked cfg m n0 p R a ha) ps R st h

theorem applyLoop_currWL (cfg : Config T σ) (m : Option T) (ps : List CtxtPtr) (st : State T σ) :
    (ps.foldl (applyOne cfg m) st).currWL = st.currWL :=
  foldl_keeps (applyOne cfg m) (fun s => s.currWL) (fun a b => applyOne_currWL cfg m a b) _ _

theorem applyOperator_tracked (cfg : Config T σ) (n0 : Nat)
    (st : State T σ) (h : Tracked cfg n0 st st.currWL) (hn : st.nextWL = []) :
    Tracked cfg n0 (applyOperator cfg st) (applyOperator cfg st).nextWL := by
  have := applyLoop_tracked cfg (getMinElem cfg st) n0 st.currWL [] st
    (by simpa [hn] using h)
  simpa using this

/-! ## Rounds -/

theorem tracked_fill_initial (cfg : Config T σ) (user : σ) (range : List T) :
    Tracked cfg range.length (fill_initial cfg (initState user) range)
      (fill_initial cfg (initState user) range).nextWL where
  heap := ⟨List.nodup_nil, fun p => by simp [fill_initial, initState], fun p hp => by
    simp [fill_initial, initState] at hp⟩
  count := fun _ => by simp [fill_initial, initState, WindowWL.length_initfill]
  commits := rfl

theorem round_tracked (cfg : Config T σ) (n0 : Nat) (st : State T σ)
    (h : Tracked cfg n0 st st.nextWL) :
    Tracked cfg n0 (applyOperator cfg (expandNhood cfg (prepareRound cfg st)))
      (applyOperator cfg (expandNhood cfg (prepareRound cfg st))).nextWL := by
  apply applyOperator_tracked
  · rw [expandNhood_currWL]
    exact expandNhood_tracked cfg n0 _ _ (prepareRound_tracked cfg n0 st h)
  · rw [expandNhood_nextWL, prepareRound_nextWL]

/-- A state whose live Contexts are tracked and sit in the worklists loses no item. -/
theorem noLost_of_tracked {cfg : Config T σ} (hpush : PushesOnlyIfNeedsPush cfg) {n0 : Nat}
    {st : State T σ} {L : List CtxtPtr} (h : Tracked cfg n0 st L)
    (hsub : ∀ p ∈ L, p ∈ st.currWL ++ st.nextWL) :
    st.committed.length + st.winWL.length + (liveCtxts st).card = n0 + st.pushed
      ∧ st.numCommitted = st.committed.length := by
  rw [card_liveCtxts h.heap hsub]
  exact ⟨h.count hpush, h.commits⟩

theorem applyTrace_tracked (cfg : Config T σ) (m : Option T) (n0 : Nat) (ps R : List CtxtPtr)
    (st : State T σ) (h : Tracked cfg n0 st ((ps ++ R) ++ st.nextWL)) :
    ∀ s ∈ applyTrace cfg m ps st, ∃ R', (∀ p ∈ R', p ∈ ps ++ R)
      ∧ Tracked cfg n0 s (R' ++ s.nextWL) ∧ s.currWL = st.currWL := by
  induction ps generalizing st with
  | nil => intro s hs; simp [applyTrace] at hs
  | cons p ps ih =>
    intro s hs
    have h1 : Tracked cfg n0 (applyOne cfg m st p) ((ps ++ R) ++ (applyOne cfg m st p).nextWL) :=
      applyOne_tracked cfg m n0 p (ps ++ R) st (by simpa using h)
    simp only [applyTrace, List.mem_cons] at hs
    rcases hs with rfl | hs
    · exact ⟨ps ++ R, fun q hq => by simp at hq ⊢; tauto, h1, applyOne_currWL cfg m st p⟩
    · obtain ⟨R', h2, h3, h4⟩ := ih _ h1 s hs
      exact ⟨R', fun q hq => by have := h2 q hq; simp at this ⊢; tauto, h3,
        by rw [h4, applyOne_currWL]⟩

theorem execTrace_noLost (cfg : Config T σ) (hpush : PushesOnlyIfNeedsPush cfg) (n0 : Nat)
    (fuel : Nat) (st : State T σ) (h : Tracked cfg n0 st st.nextWL) :
    ∀ e ∈ execTrace cfg fuel st,
      e.2.committed.length + e.2.winWL.length + (liveCtxts e.2).card = n0 + e.2.pushed
        ∧ e.2.numCommitted = e.2.committed.length := by
  induction fuel generalizing st with
  | zero => intro e he; simp [execTrace] at he
  | succ fuel ih =>
    have h0 : Tracked cfg n0
        (refillBeforePoll cfg (prepareRoundHead st) (st.numCommitted - st.prevCommits)
          st.currWL.length)
        (refillBeforePoll cfg (prepareRoundHead st) (st.numCommitted - st.prevCommits)
          st.currWL.length).currWL :=
      refillBeforePoll_tracked cfg n0 _ _ _ ⟨h.heap, h.count, h.commits⟩
    have h1 := prepareRound_tracked cfg n0 st h
    have h2 := expandNhood_tracked cfg n0 _ _ h1
    have e0 := noLost_of_tracked hpush h0 (fun p hp => List.mem_append_left _ hp)
    have e1 := noLost_of_tracked hpush h1 (fun p hp => List.mem_append_left _ hp)
    have e2 := noLost_of_tracked hpush h2 (fun p hp => by
      rw [expandNhood_currWL]; exact List.mem_append_left _ hp)
    intro e he
    unfold execTrace at he
    simp only [] at he
    split at he
    · simp only [List.mem_cons, List.mem_singleton, List.not_mem_nil, or_false] at he
      rcases he with rfl | rfl
      · exact e0
      · exact e1
    · simp only [List.mem_cons, List.mem_append, List.mem_map] at he
      rcases he with rfl | rfl | rfl | ⟨s, hs, rfl⟩ | he
      · exact e0
      · exact e1
      · exact e2
      · have h2' : Tracked cfg n0 (expandNhood cfg (prepareRound cfg st))
            (((expandNhood cfg (prepareRound cfg st)).currWL ++ [])
              ++ (expandNhood cfg (prepareRound cfg st)).nextWL) := by
          rw [expandNhood_currWL, expandNhood_nextWL, prepareRound_nextWL]
          simpa using h2
        obtain ⟨R', hR, ht, hc⟩ := applyTrace_tracked cfg _ n0 _ [] _ h2' s hs
        refine noLost_of_tracked hpush ht (fun p hp => ?_)
        rcases List.mem_append.mp hp with hp | hp
        · rw [hc]; exact List.mem_append_left _ (by simpa using hR p hp)
        · exact List.mem_append_right _ hp
      · exact ih _ (round_tracked cfg n0 st h) e he

theorem le_refillClamp (cfg : Config T σ) (w : Nat) : MIN_WIN_SIZE cfg ≤ refillClamp cfg w := by
  unfold refillClamp
  split <;> omega

theorem refill_eq_poll (cfg : Config T σ) (st : State T σ) (c w : Nat) :
    refill cfg st c w = WindowWL.poll cfg (refillBeforePoll cfg st c w)
      (refillClamp cfg (refillRule cfg st c w)) (refillBeforePoll cfg st c w).currWL.length := by
  unfold refill
  simp only [refillBeforePoll_windowSize]

/-- When `refill` leaves the worklist empty, the window worklist is empty as well. -/
theorem refill_empty (cfg : Config T σ) (hpoll : PollProgress cfg) (hmin : 0 < MIN_WIN_SIZE cfg)
    (st : State T σ) (c w : Nat) (h : (refill cfg st c w).currWL = []) :
    (refill cfg st c w).winWL = [] := by
  rw [refill_eq_poll] at h ⊢
  have hl := poll_length cfg (refillBeforePoll cfg st c w)
    (refillClamp cfg (refillRule cfg st c w)) (refillBeforePoll cfg st c w).currWL.length
  rw [h, List.length_nil] at hl
  rw [poll_winWL]
  cases hw : (refillBeforePoll cfg st c w).winWL with
  | nil => simp
  | cons x xs =>
    exfalso
    have hc : (refillBeforePoll cfg st c w).currWL.length = 0 := by omega
    have hpos := hpoll (refillBeforePoll cfg st c w).winWL
      (refillClamp cfg (refillRule cfg st c w)) (refillBeforePoll cfg st c w).currWL.length
      (by rw [hw]; simp) (by have := le_refillClamp cfg (refillRule cfg st c w); omega)
    rw [hw] at hl hpos
    simp only [List.length_cons] at hl
    omega

theorem afterPrepare_tracked (cfg : Config T σ) (n0 : Nat) (n : Nat) (st : State T σ)
    (h : Tracked cfg n0 st st.nextWL) :
    Tracked cfg n0 (afterPrepare cfg n st) (afterPrepare cfg n st).currWL
      ∧ (afterPrepare cfg n st).nextWL = [] := by
  induction n generalizing st with
  | zero => exact ⟨prepareRound_tracked cfg n0 st h, prepareRound_nextWL cfg st⟩
  | succ n ih => exact ih _ (round_tracked cfg n0 st h)

theorem afterPrepare_empty (cfg : Config T σ) (hpoll : PollProgress cfg)
    (hmin : 0 < MIN_WIN_SIZE cfg) (n : Nat) (st : State T σ)
    (h : (afterPrepare cfg n st).currWL = []) : (afterPrepare cfg n st).winWL = [] := by
  induction n generalizing st with
  | zero => exact refill_empty cfg hpoll hmin _ _ _ h
  | succ n ih => exact ih _ h

theorem execute_stable_iff (cfg : Config T σ) (fuel : Nat) (st s : State T σ) :
    execute_stable cfg fuel st = some s ↔
      ∃ n, n < fuel ∧ afterPrepare cfg n st = s ∧ s.currWL = []
        ∧ ∀ m, m < n → (afterPrepare cfg m st).currWL ≠ [] := by
  induction fuel generalizing st with
  | zero => simp [execute_stable]
  | succ fuel ih =>
    unfold execute_stable
    simp only []
    by_cases he : (prepareRound cfg st).currWL = []
    · simp only [he, List.isEmpty_nil, if_true, Option.some.injEq]
      constructor
      · rintro rfl
        exact ⟨0, Nat.succ_pos _, rfl, he, fun m hm => absurd hm (Nat.not_lt_zero m)⟩
      · rintro ⟨n, _, hs, _, hall⟩
        cases n with
        | zero => exact hs
        | succ n => exact absurd he (hall 0 (Nat.succ_pos _))
    · have he' : (prepareRound cfg st).currWL.isEmpty = false := by
        cases hc : (prepareRound cfg st).currWL with
        | nil => exact absurd hc he
        | cons a l => rfl
      simp only [he', Bool.false_eq_true, if_false]
      rw [ih]
      constructor
      · rintro ⟨n, hn, hs, hc, hall⟩
        refine ⟨n + 1, Nat.succ_lt_succ hn, hs, hc, fun m hm => ?_⟩
        cases m with
        | zero => exact he
        | succ m => exact hall m (Nat.lt_of_succ_lt_succ hm)
      · rintro ⟨n, hn, hs, hc, hall⟩
        cases n with
        | zero => exact absurd (by rw [← hs] at hc; exact hc) he
        | succ n =>
          exact ⟨n, Nat.lt_of_succ_lt_succ hn, hs, hc,
            fun m hm => hall (m + 1) (Nat.succ_lt_succ hm)⟩

/-! ## The counter of pushed items -/

theorem poll_pushed (cfg : Config T σ) (st : State T σ) (k o : Nat) :
    (WindowWL.poll cfg st k o).pushed = st.pushed := by
  unfold WindowWL.poll
  exact foldl_keeps pollOne (fun s => s.pushed) (fun _ _ => rfl) _ _

theorem spillAll_pushed (cfg : Config T σ) (st : State T σ) :
    (spillAll cfg st).pushed = st.pushed := by
  show (st.currWL.reverse.foldl (spillOne cfg) st).pushed = st.pushed
  refine foldl_keeps (spillOne cfg) (fun s => s.pushed) ?_ _ _
  intro a b; simp only [spillOne]; split <;> rfl

theorem refillSpill_pushed (cfg : Config T σ) (st : State T σ) :
    (refillSpill cfg st).pushed = st.pushed := by
  unfold refillSpill
  split
  · split
    · exact spillAll_pushed cfg st
    · split
      · exact spillAll_pushed cfg st
      · rfl
  · rfl

theorem prepareRound_pushed (cfg : Config T σ) (st : State T σ) :
    (prepareRound cfg st).pushed = st.pushed := by
  unfold prepareRound refill
  rw [poll_pushed]
  unfold refillBeforePoll
  rw [refillSpill_pushed]
  rfl

theorem expandNhood_pushed (cfg : Config T σ) (st : State T σ) :
    (expandNhood cfg st).pushed = st.pushed := by
  refine foldl_keeps (expandOne cfg) (fun s => s.pushed) ?_ _ _
  intro a b; simp only [expandOne]; split <;> rfl

theorem runOperator_pushed (cfg : Config T σ) (st : State T σ) (p : CtxtPtr) (c : Ctxt T) :
    (runOperator cfg st p c).1.pushed = st.pushed := by
  unfold runOperator; split <;> rfl

theorem commitCtxt_pushed (cfg : Config T σ) (m : Option T) (st : State T σ) (p : CtxtPtr)
    (c : Ctxt T) (buf : List T) :
    (commitCtxt cfg m st p c buf).pushed = st.pushed + buf.length := by
  unfold commitCtxt
  split
  · exact foldl_keeps (routePush cfg m) (fun s => s.pushed)
      (fun a b => routePush_pushed cfg m a b) _ _
  · rfl

theorem applyOne_pushed (cfg : Config T σ) (hnb : ∀ u p x, (cfg.opFunc u p x).pushBuffer = [])
    (m : Option T) (st : State T σ) (p : CtxtPtr) : (applyOne cfg m st p).pushed = st.pushed := by
  have hb : ∀ c, (runOperator cfg st p c).2.2 = [] := by
    intro c
    unfold runOperator
    split
    · exact hnb _ _ _
    · rfl
  unfold applyOne
  split
  · simp only []
    split
    · rw [commitCtxt_pushed, runOperator_pushed, hb]; rfl
    · show (runOperator cfg st p _).1.pushed = st.pushed
      rw [runOperator_pushed]
  · rfl

theorem applyOperator_pushed (cfg : Config T σ)
    (hnb : ∀ u p x, (cfg.opFunc u p x).pushBuffer = []) (st : State T σ) :
    (applyOperator cfg st).pushed = st.pushed :=
  foldl_keeps (applyOne cfg _) (fun s => s.pushed) (fun a b => applyOne_pushed cfg hnb _ a b) _ _

theorem afterPrepare_pushed (cfg : Config T σ)
    (hnb : ∀ u p x, (cfg.opFunc u p x).pushBuffer = []) (n : Nat) (st : State T σ) :
    (afterPrepare cfg n st).pushed = st.pushed := by
  induction n generalizing st with
  | zero => exact prepareRound_pushed cfg st
  | succ n ih =>
    show (afterPrepare cfg n _).pushed = st.pushed
    rw [ih, applyOperator_pushed cfg hnb, expandNhood_pushed, prepareRound_pushed]

/-! ## The stable executor: items and exit -/

/-- C2 (no lost items). At every program point of a run of the stable executor (after
`fill_initial`, in `refill` after the spill and after the poll, after `expandNhood`, and
after each Context handled by `applyOperator`) the committed items, the items in
`winWL` and the live Contexts held by `currWL` and `nextWL` together are as many as
the initial range plus the items pushed by committed iterations; `numCommitted` is the
number of committed items. The operator is assumed to keep the promise of its trait
(line 345): without `NeedsPush` it pushes nothing. -/
theorem no_lost_items (cfg : Config T σ) (hpush : PushesOnlyIfNeedsPush cfg) (fuel : Nat)
    (user : σ) (range : List T) :
    ∀ e ∈ programTrace cfg fuel user range,
      e.2.committed.length + e.2.winWL.length + (liveCtxts e.2).card
          = range.length + e.2.pushed
        ∧ e.2.numCommitted = e.2.committed.length := by
  intro e he
  unfold programTrace at he
  rcases List.mem_cons.mp he with rfl | he
  · exact noLost_of_tracked hpush (tracked_fill_initial cfg user range)
      (fun p hp => List.mem_append_right _ hp)
  · exact execTrace_noLost cfg hpush range.length fuel _ (tracked_fill_initial cfg user range) e he

/-- C4 (exit of `execute_stable`). The loop is left exactly in the first round whose
`currWL` is empty after `prepareRound`; assuming `MIN_WIN_SIZE > 0` and a poll that
transfers an element from a non-empty window worklist below its target, at that moment
`winWL` is empty, `currWL` and `nextWL` are empty and no Context is live. -/
theorem execute_stable_exit (cfg : Config T σ) (hpoll : PollProgress cfg)
    (hmin : 0 < MIN_WIN_SIZE cfg) (fuel : Nat) (user : σ) (range : List T) (s : State T σ) :
    (for_each_ordered_2p_win cfg fuel user range = some s ↔
      ∃ n, n < fuel ∧ afterPrepare cfg n (fill_initial cfg (initState user) range) = s
        ∧ s.currWL = []
        ∧ ∀ m, m < n → (afterPrepare cfg m (fill_initial cfg (initState user) range)).currWL ≠ [])
    ∧ (for_each_ordered_2p_win cfg fuel user range = some s →
        s.winWL = [] ∧ s.currWL = [] ∧ s.nextWL = [] ∧ ∀ p, s.heap p = none) := by
  refine ⟨execute_stable_iff cfg fuel _ s, fun hret => ?_⟩
  obtain ⟨n, _, hs, hc, _⟩ := (execute_stable_iff cfg fuel _ s).mp hret
  have ht := afterPrepare_tracked cfg range.length n _ (tracked_fill_initial cfg user range)
  have hw := afterPrepare_empty cfg hpoll hmin n (fill_initial cfg (initState user) range)
    (by rw [hs]; exact hc)
  rw [hs] at ht hw
  refine ⟨hw, hc, ht.2, ?_⟩
  have hh := ht.1.heap
  rw [hc] at hh
  exact hh.heap_none

/-! ## Window validity -/

theorem pollOne_fold_valid (cmp : T → T → Bool) (xs R : List T) (st : State T σ)
    (hv : WindowValid cmp st) (hx : ∀ x ∈ xs ++ R, ∀ w ∈ st.winWL, cmp w x = false) :
    WindowValid cmp (xs.foldl pollOne st) := by
  have := foldl_rest pollOne
    (fun R a => WindowValid cmp a ∧ ∀ x ∈ R, ∀ w ∈ a.winWL, cmp w x = false) ?_ xs R st ⟨hv, hx⟩
  · exact this.1
  · rintro b R a ⟨h1, h2⟩
    refine ⟨⟨h1.ordered, ?_⟩, fun x hx => h2 x (List.mem_cons_of_mem b hx)⟩
    intro p c hc w hw
    simp only [pollOne, MakeContext] at hc
    split at hc
    · simp only [Option.some.injEq] at hc
      subst hc
      exact h2 b (List.mem_cons_self b R) w hw
    · exact h1.valid p c hc w hw

theorem poll_valid (cfg : Config T σ) (st : State T σ) (k o : Nat)
    (hv : WindowValid cfg.cmp st) : WindowValid cfg.cmp (WindowWL.poll cfg st k o) := by
  unfold WindowWL.poll
  have hord := hv.ordered
  unfold WindowWL.Ordered at hord
  have hsplit : st.winWL.take (cfg.pollCount st.winWL k o)
      ++ st.winWL.drop (cfg.pollCount st.winWL k o) = st.winWL := List.take_append_drop _ _
  rw [← hsplit] at hord
  have hp := List.pairwise_append.mp hord
  refine pollOne_fold_valid cfg.cmp _ [] _ ⟨hp.2.1, ?_⟩ ?_
  · intro p c hc w hw
    exact hv.valid p c hc w (List.mem_of_mem_drop hw)
  · intro x hx w hw
    rw [List.append_nil] at hx
    exact hp.2.2 x hx w hw

theorem spillOne_ordered (cfg : Config T σ) (hswo : StrictWeakOrder cfg.cmp) (st : State T σ)
    (p : CtxtPtr) (h : WindowWL.Ordered cfg.cmp st.winWL) :
    WindowWL.Ordered cfg.cmp (spillOne cfg st p).winWL := by
  unfold spillOne
  split
  · exact WindowWL.ordered_push hswo _ _ h
  · exact h

theorem spillAll_valid (cfg : Config T σ) (hswo : StrictWeakOrder cfg.cmp) (n0 : Nat)
    (st : State T σ) (ht : Tracked cfg n0 st st.currWL) (hv : WindowValid cfg.cmp st) :
    WindowValid cfg.cmp (spillAll cfg st) := by
  refine ⟨?_, ?_⟩
  · show WindowWL.Ordered cfg.cmp (st.currWL.reverse.foldl (spillOne cfg) st).winWL
    exact foldl_inv (spillOne cfg) (fun a => WindowWL.Ordered cfg.cmp a.winWL)
      (fun a b ha => spillOne_ordered cfg hswo a b ha) _ _ hv.ordered
  · intro p c hc
    have := (spillAll_tracked cfg n0 st ht).heap.heap_none p
    rw [this] at hc
    exact absurd hc (by simp)

theorem refillSpill_valid (cfg : Config T σ) (hswo : StrictWeakOrder cfg.cmp) (n0 : Nat)
    (st : State T σ) (ht : Tracked cfg n0 st st.currWL) (hv : WindowValid cfg.cmp st) :
    WindowValid cfg.cmp (refillSpill cfg st) := by
  unfold refillSpill
  split
  · split
    · exact spillAll_valid cfg hswo n0 st ht hv
    · split
      · exact spillAll_valid cfg hswo n0 st ht hv
      · exact hv
  · exact hv

theorem refillBeforePoll_valid (cfg : Config T σ) (hswo : StrictWeakOrder cfg.cmp) (n0 : Nat)
    (st : State T σ) (c w : Nat) (ht : Tracked cfg n0 st st.currWL)
    (hv : WindowValid cfg.cmp st) : WindowValid cfg.cmp (refillBeforePoll cfg st c w) :=
  refillSpill_valid cfg hswo n0 _ ⟨ht.heap, ht.count, ht.commits⟩ ⟨hv.ordered, hv.valid⟩

theorem prepareRound_valid (cfg : Config T σ) (hswo : StrictWeakOrder cfg.cmp) (n0 : Nat)
    (st : State T σ) (ht : Tracked cfg n0 st st.nextWL) (hv : WindowValid cfg.cmp st) :
    WindowValid cfg.cmp (prepareRound cfg st) :=
  poll_valid cfg _ _ _ (refillBeforePoll_valid cfg hswo n0 (prepareRoundHead st) _ _
    ⟨ht.heap, ht.count, ht.commits⟩ ⟨hv.ordered, hv.valid⟩)

theorem expandOne_valid (cfg : Config T σ) (st : State T σ) (p : CtxtPtr)
    (hv : WindowValid cfg.cmp st) : WindowValid cfg.cmp (expandOne cfg st p) := by
  unfold expandOne
  split
  · refine ⟨hv.ordered, fun q c hc w hw => ?_⟩
    obtain ⟨c0, h0, he⟩ := disableSrc_some hc
    rw [← he]
    exact hv.valid q c0 h0 w hw
  · exact hv

theorem expandNhood_valid (cfg : Config T σ) (st : State T σ)
    (hv : WindowValid cfg.cmp st) : WindowValid cfg.cmp (expandNhood cfg st) :=
  foldl_inv (expandOne cfg) (fun a => WindowValid cfg.cmp a)
    (fun a b ha => expandOne_valid cfg a b ha) _ _ hv

theorem expandNhood_committed (cfg : Config T σ) (st : State T σ) :
    (expandNhood cfg st).committed = st.committed := by
  refine foldl_keeps (expandOne cfg) (fun s => s.committed) ?_ _ _
  intro a b; simp only [expandOne]; split <;> rfl

theorem getMinElem_eq (cfg : Config T σ) (st : State T σ) (h : cfg.NeedsPush = true) :
    getMinElem cfg st = WindowWL.getMin st.winWL := by
  unfold getMinElem
  rw [h]
  cases hw : st.winWL <;> simp [WindowWL.empty, WindowWL.getMin]

theorem applyValid_start {cmp : T → T → Bool} (hswo : StrictWeakOrder cmp) (st : State T σ)
    (hv : WindowValid cmp st) :
    ApplyValid cmp (WindowWL.getMin st.winWL) st.committed.length st where
  ordered := hv.ordered
  live := fun p c hc => ⟨hv.valid p c hc, fun mm hm =>
    hv.valid p c hc mm (List.mem_of_mem_head? hm)⟩
  done := fun x hx => by simp at hx
  len := Nat.le_refl _
  minLe := fun mm hm w hw => by
    have hord := hv.ordered
    unfold WindowWL.Ordered at hord
    cases hl : st.winWL with
    | nil => rw [hl] at hw; simp at hw
    | cons y ys =>
      rw [hl] at hw hord
      simp only [WindowWL.getMin, hl, List.head?_cons, Option.some.injEq] at hm
      subst hm
      rcases List.mem_cons.mp hw with rfl | hw
      · exact hswo.irrefl _
      · exact (List.pairwise_cons.mp hord).1 w hw
  noMin := fun hm => by
    cases hl : st.winWL with
    | nil => rfl
    | cons y ys => simp [WindowWL.getMin, hl] at hm

theorem ApplyValid.windowValid {cmp : T → T → Bool} {m0 : Option T} {b : Nat} {st : State T σ}
    (h : ApplyValid cmp m0 b st) : WindowValid cmp st :=
  ⟨h.ordered, fun p c hc => (h.live p c hc).1⟩

theorem goesToNextWL_false {cfg : Config T σ} {m : Option T} {x : T}
    (h : goesToNextWL cfg m x = false) : ∃ mm, m = some mm ∧ cfg.cmp mm x = true := by
  unfold goesToNextWL at h
  cases m with
  | none => simp at h
  | some mm => exact ⟨mm, rfl, by simpa using h⟩

theorem routePush_applyValid (cfg : Config T σ) (hswo : StrictWeakOrder cfg.cmp) (m0 : Option T)
    (b : Nat) (st : State T σ) (x : T) (h : ApplyValid cfg.cmp m0 b st) :
    ApplyValid cfg.cmp m0 b (routePush cfg m0 st x) := by
  rcases routePush_nextWL_or cfg m0 st x with ⟨e1, _, _, e4, ha⟩ | ⟨e1, _, _, e4, ha⟩
  · have hx : (∀ w ∈ st.winWL, cfg.cmp w x = false)
        ∧ (∀ mm, m0 = some mm → cfg.cmp mm x = false) := by
      cases hm : m0 with
      | none => rw [h.noMin hm]; simp
      | some mm =>
        have hmx : cfg.cmp mm x = false := by
          rw [hm] at ha
          simpa [goesToNextWL] using ha
        refine ⟨fun w hw => hswo.negTrans (h.minLe mm hm w hw) hmx, fun m' he => ?_⟩
        simp only [Option.some.injEq] at he
        rw [← he]; exact hmx
    refine ⟨by rw [e4]; exact h.ordered, ?_, ?_, by rw [routePush_committed]; exact h.len,
      by rw [e4]; exact h.minLe, by rw [e4]; exact h.noMin⟩
    · intro p c hc
      rw [e4]
      rw [e1] at hc
      simp only [] at hc
      split at hc
      · simp only [Option.some.injEq] at hc
        subst hc
        exact hx
      · exact h.live p c hc
    · intro y hy
      rw [e4]
      rw [routePush_committed] at hy
      exact h.done y hy
  · obtain ⟨mm, hm, hmx⟩ := goesToNextWL_false ha
    have key : ∀ y, (∀ mm, m0 = some mm → cfg.cmp mm y = false) → cfg.cmp x y = false := by
      intro y hy
      cases hxy : cfg.cmp x y with
      | false => rfl
      | true =>
        have := hswo.trans mm x y hmx hxy
        rw [hy mm hm] at this
        exact absurd this (by simp)
    have up : ∀ y, ((∀ w ∈ st.winWL, cfg.cmp w y = false)
          ∧ (∀ mm, m0 = some mm → cfg.cmp mm y = false)) →
        ((∀ w ∈ WindowWL.push cfg.cmp x st.winWL, cfg.cmp w y = false)
          ∧ (∀ mm, m0 = some mm → cfg.cmp mm y = false)) := by
      intro y hy
      refine ⟨fun w hw => ?_, hy.2⟩
      rcases (WindowWL.mem_push cfg.cmp x w st.winWL).mp hw with rfl | hw
      · exact key _ hy.2
      · exact hy.1 w hw
    refine ⟨by rw [e4]; exact WindowWL.ordered_push hswo _ _ h.ordered, ?_, ?_,
      by rw [routePush_committed]; exact h.len, ?_, ?_⟩
    · intro p c hc
      rw [e4]
      rw [e1] at hc
      exact up _ (h.live p c hc)
    · intro y hy
      rw [e4]
      rw [routePush_committed] at hy
      exact up _ (h.done y hy)
    · intro m' hm' w hw
      rw [e4] at hw
      rcases (WindowWL.mem_push cfg.cmp x w st.winWL).mp hw with rfl | hw
      · rw [hm] at hm'
        simp only [Option.some.injEq] at hm'
        rw [← hm']
        exact hswo.asymm hmx
      · exact h.minLe m' hm' w hw
    · intro hn
      rw [hm] at hn
      exact absurd hn (by simp)

theorem runOperator_applyValid (cfg : Config T σ) (m0 : Option T) (b : Nat) (st : State T σ)
    (p : CtxtPtr) (c : Ctxt T) (h : ApplyValid cfg.cmp m0 b st) :
    ApplyValid cfg.cmp m0 b (runOperator cfg st p c).1 := by
  unfold runOperator
  split
  · refine ⟨h.ordered, fun q d hd => ?_, h.done, h.len, h.minLe, h.noMin⟩
    obtain ⟨c0, h0, he⟩ := disableSrc_some hd
    rw [← he]
    exact h.live q c0 h0
  · exact h

theorem runOperator_live (cfg : Config T σ) (st : State T σ) (p : CtxtPtr) (c : Ctxt T)
    (hc : st.heap p = some c) :
    ∃ d, (runOperator cfg st p c).1.heap p = some d ∧ d.elem = c.elem := by
  unfold runOperator
  split
  · simp only [disableSrc]
    split
    · exact ⟨{ c with source := false }, by simp [hc], rfl⟩
    · exact ⟨c, hc, rfl⟩
  · exact ⟨c, hc, rfl⟩

theorem commitCtxt_applyValid (cfg : Config T σ) (hswo : StrictWeakOrder cfg.cmp)
    (m m0 : Option T) (hm : cfg.NeedsPush = true → m = m0) (b : Nat) (st : State T σ)
    (p : CtxtPtr) (c : Ctxt T) (buf : List T)
    (hc : (∀ w ∈ st.winWL, cfg.cmp w c.elem = false)
      ∧ (∀ mm, m0 = some mm → cfg.cmp mm c.elem = false))
    (h : ApplyValid cfg.cmp m0 b st) :
    ApplyValid cfg.cmp m0 b (commitCtxt cfg m st p c buf) := by
  have h1 : ApplyValid cfg.cmp m0 b
      { st with numCommitted := st.numCommitted + 1, committed := st.committed ++ [c.elem],
                pushed := st.pushed + buf.length,
                pushedItems := st.pushedItems ++ buf } := by
    refine ⟨h.ordered, h.live, ?_, ?_, h.minLe, h.noMin⟩
    · intro x hx
      simp only [List.drop_append_of_le_length h.len, List.mem_append,
        List.mem_singleton] at hx
      rcases hx with hx | rfl
      · exact h.done x hx
      · exact hc
    · have := h.len
      simp only [List.length_append, List.length_cons, List.length_nil]
      omega
  have h2 : ApplyValid cfg.cmp m0 b
      (if cfg.NeedsPush then buf.foldl (routePush cfg m)
          { st with numCommitted := st.numCommitted + 1, committed := st.committed ++ [c.elem],
                    pushed := st.pushed + buf.length,
                    pushedItems := st.pushedItems ++ buf }
        else { st with numCommitted := st.numCommitted + 1,
                       committed := st.committed ++ [c.elem],
                       pushed := st.pushed + buf.length,
                       pushedItems := st.pushedItems ++ buf }) := by
    split
    · rename_i hnp
      rw [hm hnp]
      exact foldl_inv (routePush cfg m0) (fun a => ApplyValid cfg.cmp m0 b a)
        (fun a x ha => routePush_applyValid cfg hswo m0 b a x ha) _ _ h1
    · exact h1
  unfold commitCtxt
  exact ⟨h2.ordered, fun q d hd => h2.live q d (destroyCtxt_some hd), h2.done, h2.len,
    h2.minLe, h2.noMin⟩

theorem abortCtxt_applyValid (cfg : Config T σ) (m0 : Option T) (b : Nat) (st : State T σ)
    (p : CtxtPtr) (h : ApplyValid cfg.cmp m0 b st) :
    ApplyValid cfg.cmp m0 b (abortCtxt cfg st p) := by
  unfold abortCtxt
  refine ⟨h.ordered, fun q d hd => ?_, h.done, h.len, h.minLe, h.noMin⟩
  obtain ⟨c0, h0, he⟩ := resetCtxt_some hd
  rw [← he]
  exact h.live q c0 h0

theorem applyOne_applyValid (cfg : Config T σ) (hswo : StrictWeakOrder cfg.cmp)
    (m m0 : Option T) (hm : cfg.NeedsPush = true → m = m0) (b : Nat) (st : State T σ)
    (p : CtxtPtr) (h : ApplyValid cfg.cmp m0 b st) :
    ApplyValid cfg.cmp m0 b (applyOne cfg m st p) := by
  unfold applyOne
  split
  · rename_i c hc
    simp only []
    have hr := runOperator_applyValid cfg m0 b st p c h
    split
    · obtain ⟨d, hd, he⟩ := runOperator_live cfg st p c hc
      have := hr.live p d hd
      rw [he] at this
      exact commitCtxt_applyValid cfg hswo m m0 hm b _ p c _ this hr
    · exact abortCtxt_applyValid cfg m0 b _ p hr
  · exact h

theorem applyTrace_applyValid (cfg : Config T σ) (hswo : StrictWeakOrder cfg.cmp)
    (m m0 : Option T) (hm : cfg.NeedsPush = true → m = m0) (b : Nat) (ps : List CtxtPtr)
    (st : State T σ) (h : ApplyValid cfg.cmp m0 b st) :
    ∀ s ∈ applyTrace cfg m ps st, ApplyValid cfg.cmp m0 b s := by
  induction ps generalizing st with
  | nil => intro s hs; simp [applyTrace] at hs
  | cons p ps ih =>
    intro s hs
    have h1 := applyOne_applyValid cfg hswo m m0 hm b st p h
    simp only [applyTrace, List.mem_cons] at hs
    rcases hs with rfl | hs
    · exact h1
    · exact ih _ h1 s hs

theorem applyOperator_applyValid (cfg : Config T σ) (hswo : StrictWeakOrder cfg.cmp)
    (st : State T σ) (hv : WindowValid cfg.cmp st) :
    ApplyValid cfg.cmp (WindowWL.getMin st.winWL) st.committed.length (applyOperator cfg st) :=
  foldl_inv (applyOne cfg (getMinElem cfg st))
    (fun a => ApplyValid cfg.cmp (WindowWL.getMin st.winWL) st.committed.length a)
    (fun a p ha => applyOne_applyValid cfg hswo _ _ (getMinElem_eq cfg st) _ a p ha) _ _
    (applyValid_start hswo st hv)

theorem execTrace_valid (cfg : Config T σ) (hswo : StrictWeakOrder cfg.cmp) (n0 : Nat)
    (fuel : Nat) (st : State T σ) (ht : Tracked cfg n0 st st.nextWL)
    (hv : WindowValid cfg.cmp st) :
    ∀ e ∈ execTrace cfg fuel st,
      WindowValid cfg.cmp e.2
      ∧ (e.1 = Point.applyStart →
          (∀ p ∈ e.2.currWL, ∃ c, e.2.heap p = some c
            ∧ (∀ m, WindowWL.getMin e.2.winWL = some m → cfg.cmp m c.elem = false)
            ∧ ∀ w ∈ e.2.winWL, cfg.cmp w c.elem = false)
          ∧ ∀ x ∈ (applyOperator cfg e.2).committed.drop e.2.committed.length,
              (∀ w ∈ (applyOperator cfg e.2).winWL, cfg.cmp w x = false)
              ∧ ∀ m, WindowWL.getMin e.2.winWL = some m → cfg.cmp m x = false) := by
  induction fuel generalizing st with
  | zero => intro e he; simp [execTrace] at he
  | succ fuel ih =>
    have v0 : WindowValid cfg.cmp
        (refillBeforePoll cfg (prepareRoundHead st) (st.numCommitted - st.prevCommits)
          st.currWL.length) :=
      refillBeforePoll_valid cfg hswo n0 (prepareRoundHead st) _ _
        ⟨ht.heap, ht.count, ht.commits⟩ ⟨hv.ordered, hv.valid⟩
    have v1 := prepareRound_valid cfg hswo n0 st ht hv
    have v2 := expandNhood_valid cfg _ v1
    have t1 := prepareRound_tracked cfg n0 st ht
    have t2 := expandNhood_tracked cfg n0 _ _ t1
    have a3 := applyOperator_applyValid cfg hswo _ v2
    intro e he
    unfold execTrace at he
    simp only [] at he
    split at he
    · simp only [List.mem_cons, List.mem_singleton, List.not_mem_nil, or_false] at he
      rcases he with rfl | rfl
      · exact ⟨v0, fun h => Point.noConfusion h⟩
      · exact ⟨v1, fun h => Point.noConfusion h⟩
    · simp only [List.mem_cons, List.mem_append, List.mem_map] at he
      rcases he with rfl | rfl | rfl | ⟨s, hs, rfl⟩ | he
      · exact ⟨v0, fun h => Point.noConfusion h⟩
      · exact ⟨v1, fun h => Point.noConfusion h⟩
      · refine ⟨v2, fun _ => ⟨fun p hp => ?_, fun x hx => a3.done x hx⟩⟩
        rw [expandNhood_currWL] at hp
        obtain ⟨c, hc⟩ := (t2.heap.live p).mp hp
        exact ⟨c, hc, fun m hm => v2.valid p c hc m (List.mem_of_mem_head? hm), v2.valid p c hc⟩
      · exact ⟨(applyTrace_applyValid cfg hswo _ _ (getMinElem_eq cfg _) _ _ _
          (applyValid_start hswo _ v2) s hs).windowValid, fun h => Point.noConfusion h⟩
      · exact ih _ (round_tracked cfg n0 st ht) a3.windowValid e he

theorem valid_fill_initial (cfg : Config T σ) (hswo : StrictWeakOrder cfg.cmp) (user : σ)
    (range : List T) : WindowValid cfg.cmp (fill_initial cfg (initState user) range) :=
  ⟨WindowWL.ordered_initfill hswo range, fun p c hc => by simp [fill_initial, initState] at hc⟩

/-- C1 (window validity). For a strict weak order `cmp` and a window worklist whose
`poll` removes least elements: at the start of the apply phase of every round each
entry of `currWL` is a live Context whose item is not after `winWL.getMin ()` nor after
any element of `winWL`, and each item the round commits is not after any element
`winWL` holds when the round ends nor after the minimum sampled at its start. The
window stays valid (no live item after a waiting one, `winWL` in order) at every
program point: after `fill_initial`, after the spill and the poll of `refill`, and after
every Context `applyOperator` handles with its push routing. -/
theorem window_validity (cfg : Config T σ) (hswo : StrictWeakOrder cfg.cmp) (fuel : Nat)
    (user : σ) (range : List T) :
    ∀ e ∈ programTrace cfg fuel user range,
      WindowValid cfg.cmp e.2
      ∧ (e.1 = Point.applyStart →
          (∀ p ∈ e.2.currWL, ∃ c, e.2.heap p = some c
            ∧ (∀ m, WindowWL.getMin e.2.winWL = some m → cfg.cmp m c.elem = false)
            ∧ ∀ w ∈ e.2.winWL, cfg.cmp w c.elem = false)
          ∧ ∀ x ∈ (applyOperator cfg e.2).committed.drop e.2.committed.length,
              (∀ w ∈ (applyOperator cfg e.2).winWL, cfg.cmp w x = false)
              ∧ ∀ m, WindowWL.getMin e.2.winWL = some m → cfg.cmp m x = false) := by
  intro e he
  unfold programTrace at he
  rcases List.mem_cons.mp he with rfl | he
  · exact ⟨valid_fill_initial cfg hswo user range, fun h => Point.noConfusion h⟩
  · exact execTrace_valid cfg hswo range.length fuel _ (tracked_fill_initial cfg user range)
      (valid_fill_initial cfg hswo user range) e he

/-! ## One Context in `applyOperator` -/

theorem routePush_opCalls (cfg : Config T σ) (m : Option T) (st : State T σ) (x : T) :
    (routePush cfg m st x).opCalls = st.opCalls := by
  unfold routePush; split <;> rfl

theorem routePush_fold_count (cfg : Config T σ) (m : Option T) (p : CtxtPtr) (xs : List T)
    (st : State T σ) (hp : p < st.nextPtr) :
    (xs.foldl (routePush cfg m) st).nextWL.count p = st.nextWL.count p := by
  have := foldl_inv (routePush cfg m)
    (fun a => p < a.nextPtr ∧ a.nextWL.count p = st.nextWL.count p) ?_ xs st ⟨hp, rfl⟩
  · exact this.2
  · rintro a x ⟨h1, h2⟩
    rcases routePush_nextWL_or cfg m a x with ⟨_, e2, e3, _, _⟩ | ⟨_, e2, e3, _, _⟩
    · rw [e2, e3]
      refine ⟨Nat.lt_succ_of_lt h1, ?_⟩
      rw [List.count_append, h2]
      have : List.count p [a.nextPtr] = 0 :=
        List.count_eq_zero.mpr (fun hm => by
          rw [List.mem_singleton] at hm
          rw [hm] at h1
          exact Nat.lt_irrefl _ h1)
      rw [this]; rfl
    · rw [e2, e3]; exact ⟨h1, h2⟩

theorem commitCtxt_effect (cfg : Config T σ) (m : Option T) (st : State T σ) (p : CtxtPtr)
    (c : Ctxt T) (buf : List T) (hp : p < st.nextPtr) :
    (commitCtxt cfg m st p c buf).numCommitted = st.numCommitted + 1
      ∧ (commitCtxt cfg m st p c buf).committed = st.committed ++ [c.elem]
      ∧ (commitCtxt cfg m st p c buf).opCalls = st.opCalls
      ∧ (commitCtxt cfg m st p c buf).heap p = none
      ∧ (commitCtxt cfg m st p c buf).nextWL.count p = st.nextWL.count p := by
  unfold commitCtxt
  simp only [destroyCtxt, if_true]
  split
  · refine ⟨?_, ?_, ?_, trivial, ?_⟩
    · exact foldl_keeps (routePush cfg m) (fun s => s.numCommitted)
        (fun a b => routePush_numCommitted cfg m a b) _ _
    · exact foldl_keeps (routePush cfg m) (fun s => s.committed)
        (fun a b => routePush_committed cfg m a b) _ _
    · exact foldl_keeps (routePush cfg m) (fun s => s.opCalls)
        (fun a b => routePush_opCalls cfg m a b) _ _
    · exact routePush_fold_count cfg m p buf _ hp
  · exact ⟨rfl, rfl, rfl, trivial, rfl⟩

/-- C5 (commit or re-queue in `applyOperator`). For a live Context `c` at `p`:
when `c` is not a source on the visit, `opFunc` is not invoked, `numCommitted` is
unchanged and `c` is appended once to `nextWL` after `cancelIteration` and `reset`;
when `opFunc` runs and `c` is not a source afterwards (a conflict was caught or `c`
lost a lock), likewise, with one invocation of `opFunc`; when `c` is still a source
after `opFunc`, `numCommitted` grows by one, the item is committed, the Context is
destroyed and does not enter `nextWL`. So `c` is committed exactly when it is still a
source after `opFunc`. -/
theorem applyOne_commit_iff_source (cfg : Config T σ) (m : Option T) (st : State T σ)
    (p : CtxtPtr) (c : Ctxt T) (hc : st.heap p = some c) (hp : p < st.nextPtr) :
    (c.source = false →
        (applyOne cfg m st p).opCalls = st.opCalls
        ∧ (applyOne cfg m st p).numCommitted = st.numCommitted
        ∧ (applyOne cfg m st p).committed = st.committed
        ∧ (applyOne cfg m st p).nextWL = st.nextWL ++ [p]
        ∧ (applyOne cfg m st p).heap p = some { elem := c.elem, source := true }
        ∧ (applyOne cfg m st p).user = cfg.cancelIteration st.user p)
    ∧ (c.source = true →
        ((cfg.opFunc st.user p c.elem).conflict = true ∨ p ∈ (cfg.opFunc st.user p c.elem).losers) →
        (applyOne cfg m st p).opCalls = st.opCalls + 1
        ∧ (applyOne cfg m st p).numCommitted = st.numCommitted
        ∧ (applyOne cfg m st p).committed = st.committed
        ∧ (applyOne cfg m st p).nextWL = st.nextWL ++ [p]
        ∧ (applyOne cfg m st p).heap p = some { elem := c.elem, source := true }
        ∧ (applyOne cfg m st p).user
            = cfg.cancelIteration (cfg.opFunc st.user p c.elem).user p)
    ∧ (c.source = true → (cfg.opFunc st.user p c.elem).conflict = false →
        p ∉ (cfg.opFunc st.user p c.elem).losers →
        (applyOne cfg m st p).opCalls = st.opCalls + 1
        ∧ (applyOne cfg m st p).numCommitted = st.numCommitted + 1
        ∧ (applyOne cfg m st p).committed = st.committed ++ [c.elem]
        ∧ (applyOne cfg m st p).nextWL.count p = st.nextWL.count p
        ∧ (applyOne cfg m st p).heap p = none) := by
  refine ⟨fun hs => ?_, fun hs hconf => ?_, fun hs hconf hlos => ?_⟩
  · have hr : runOperator cfg st p c = (st, false, []) := by simp [runOperator, hs]
    simp [applyOne, hc, hr, abortCtxt, resetCtxt]
  · have hmem : p ∈ disabledBy p (cfg.opFunc st.user p c.elem).conflict
        (cfg.opFunc st.user p c.elem).losers := by
      unfold disabledBy
      rcases hconf with h | h
      · simp [h]
      · split
        · exact List.mem_cons_of_mem _ h
        · exact h
    have hsrc : isSrc (disableSrc (disabledBy p (cfg.opFunc st.user p c.elem).conflict
        (cfg.opFunc st.user p c.elem).losers) st.heap) p = false := by
      simp [isSrc, disableSrc, hmem, hc]
    simp [applyOne, hc, runOperator, hs, hsrc, abortCtxt, resetCtxt, disableSrc, hmem]
  · have hmem : p ∉ disabledBy p (cfg.opFunc st.user p c.elem).conflict
        (cfg.opFunc st.user p c.elem).losers := by
      simp [disabledBy, hconf, hlos]
    have hsrc : isSrc (disableSrc (disabledBy p (cfg.opFunc st.user p c.elem).conflict
        (cfg.opFunc st.user p c.elem).losers) st.heap) p = true := by
      simp [isSrc, disableSrc, hmem, hc, hs]
    have hr : runOperator cfg st p c
        = ({ st with
              user := (cfg.opFunc st.user p c.elem).user
              heap := disableSrc (disabledBy p (cfg.opFunc st.user p c.elem).conflict
                (cfg.opFunc st.user p c.elem).losers) st.heap
              opCalls := st.opCalls + 1 }, true, (cfg.opFunc st.user p c.elem).pushBuffer) := by
      simp [runOperator, hs, hsrc]
    have he := commitCtxt_effect cfg m
      { st with
          user := (cfg.opFunc st.user p c.elem).user
          heap := disableSrc (disabledBy p (cfg.opFunc st.user p c.elem).conflict
            (cfg.opFunc st.user p c.elem).losers) st.heap
          opCalls := st.opCalls + 1 } p c (cfg.opFunc st.user p c.elem).pushBuffer hp
    have ha : applyOne cfg m st p = commitCtxt cfg m
        { st with
          user := (cfg.opFunc st.user p c.elem).user
          heap := disableSrc (disabledBy p (cfg.opFunc st.user p c.elem).conflict
            (cfg.opFunc st.user p c.elem).losers) st.heap
          opCalls := st.opCalls + 1 } p c (cfg.opFunc st.user p c.elem).pushBuffer := by
      simp [applyOne, hc, hr]
    rw [ha]
    exact ⟨he.2.2.1, he.1, he.2.1, he.2.2.2.2, he.2.2.2.1⟩

/-- C6 as amended (routing of pushed items). A pushed item `x` becomes a new
Context at the end of `nextWL` exactly when `minElem` does not exist or
`cmp (minElem, x)` is false; it is given to `winWL.push` exactly when `minElem`
exists and `cmp (minElem, x)` is true. `minElem` is `winWL.getMin ()` before the
loop when the operator may push and `winWL` is not empty, and does not exist
otherwise. -/
theorem routePush_routing (cfg : Config T σ) (m : Option T) (st : State T σ) (x : T) :
    ((m = none ∨ ∃ mm, m = some mm ∧ cfg.cmp mm x = false) →
        (routePush cfg m st x).nextWL = st.nextWL ++ [st.nextPtr]
        ∧ (routePush cfg m st x).heap st.nextPtr = some { elem := x, source := true }
        ∧ (routePush cfg m st x).winWL = st.winWL)
    ∧ ((∃ mm, m = some mm ∧ cfg.cmp mm x = true) →
        (routePush cfg m st x).winWL = WindowWL.push cfg.cmp x st.winWL
        ∧ (routePush cfg m st x).nextWL = st.nextWL
        ∧ (routePush cfg m st x).heap = st.heap)
    ∧ (getMinElem cfg st
        = if cfg.NeedsPush && !st.winWL.isEmpty then WindowWL.getMin st.winWL else none) := by
  refine ⟨fun h => ?_, fun h => ?_, ?_⟩
  · have ha : goesToNextWL cfg m x = true := by
      rcases h with h | ⟨mm, h, hx⟩
      · simp [goesToNextWL, h]
      · simp [goesToNextWL, h, hx]
    simp [routePush, ha, MakeContext]
  · obtain ⟨mm, h, hx⟩ := h
    have ha : goesToNextWL cfg m x = false := by simp [goesToNextWL, h, hx]
    simp [routePush, ha]
  · unfold getMinElem
    cases cfg.NeedsPush <;> cases hw : st.winWL <;> simp [WindowWL.empty]

/-- C6 counterexample. In scenario S4 on the range `[10]` the window worklist is empty
in the apply phase of the first round, so `minElem` does not exist; the pushed item 9
becomes a new Context of `nextWL` and is not given to `winWL.push`. -/
theorem routePush_without_minElem :
    getMinElem cfgS4 applyStartS4 = none
    ∧ (routePush cfgS4 (getMinElem cfgS4 applyStartS4) applyStartS4 9).nextWL
        = applyStartS4.nextWL ++ [applyStartS4.nextPtr]
    ∧ (routePush cfgS4 (getMinElem cfgS4 applyStartS4) applyStartS4 9).winWL
        ≠ WindowWL.push cfgS4.cmp 9 applyStartS4.winWL
    ∧ (applyOperator cfgS4 applyStartS4).committed = [10]
    ∧ (applyOperator cfgS4 applyStartS4).nextWL = [1]
    ∧ (applyOperator cfgS4 applyStartS4).winWL = [] := by
  decide

/-! ## The window size computed by `refill` -/

theorem toSizeT_of_lt {n : Nat} (h : n < 2 ^ 64) : toSizeT n = n := Nat.mod_eq_of_lt h

theorem refillClamp_eq_max (cfg : Config T σ) (w : Nat) :
    refillClamp cfg w = max w (MIN_WIN_SIZE cfg) := by
  unfold refillClamp
  split <;> omega

/-- The first refill when the product `CHUNK_SIZE * activeThreads` fits `unsigned`:
with `prevWindowSize == 0` the window size before the clamp is
`max (initSize, 16 * MIN_WIN_SIZE)` when the operator may push and
`min (initSize / 500, 16 * MIN_WIN_SIZE)` otherwise, with
`MIN_WIN_SIZE = CHUNK_SIZE * activeThreads`, whatever `windowSize` was before. -/
theorem refillRule_first (cfg : Config T σ) (st : State T σ) (currCommits : Nat)
    (hfit : cfg.CHUNK_SIZE * cfg.activeThreads < 2 ^ 32) :
    MIN_WIN_SIZE cfg = cfg.CHUNK_SIZE * cfg.activeThreads
    ∧ refillRule cfg st currCommits 0
        = (if cfg.NeedsPush then max st.initSize (16 * (cfg.CHUNK_SIZE * cfg.activeThreads))
            else min (st.initSize / 500) (16 * (cfg.CHUNK_SIZE * cfg.activeThreads)))
    ∧ ∀ w, refillRule cfg { st with windowSize := w } currCommits 0
        = refillRule cfg st currCommits 0 := by
  have hmin : MIN_WIN_SIZE cfg = cfg.CHUNK_SIZE * cfg.activeThreads := by
    unfold MIN_WIN_SIZE
    rw [Nat.mod_eq_of_lt hfit]
    exact toSizeT_of_lt (by omega)
  have h16 : THREAD_MULT_FACTOR * (cfg.CHUNK_SIZE * cfg.activeThreads) < 2 ^ 64 := by
    unfold THREAD_MULT_FACTOR
    omega
  refine ⟨hmin, ?_, fun w => rfl⟩
  unfold refillRule
  rw [hmin, toSizeT_of_lt h16]
  simp [THREAD_MULT_FACTOR, INIT_MAX_ROUNDS]

theorem refillRule_first_witness :
    cfgS4.CHUNK_SIZE * cfgS4.activeThreads < 2 ^ 32
    ∧ refillRule cfgS4 (fill_initial cfgS4 (initState ()) [10]) 0 0 = 16 :=
  ⟨by decide, by
    have h := (refillRule_first cfgS4 (fill_initial cfgS4 (initState ()) [10]) 0
      (by decide)).2.1
    rw [h]
    decide⟩

/-- A doubling of `windowSize` is exact as long as the result fits `size_t`. -/
theorem refillRule_double_of_lt (cfg : Config T σ) (st : State T σ) (c w : Nat) (hw : 0 < w)
    (hge : cfg.commitRatioGE c w = true) (hfit : st.windowSize < 2 ^ 63) :
    refillRule cfg st c w = 2 * st.windowSize := by
  unfold refillRule
  rw [if_neg (by omega), if_pos hge, Nat.mul_comm]
  apply toSizeT_of_lt
  omega

set_option maxRecDepth 100000 in
/-- C8 at the failing input. Scenario S4 on the range `[60]`: after 60 rounds that
committed everything they attempted `windowSize` is `2 ^ 63`; the refill of round 61
sees one commit out of one attempt, takes the doubling branch, and the value it
computes before the clamp is 0, not `2 ^ 64`; the clamp makes it `MIN_WIN_SIZE = 1`. -/
theorem windowSize_doubling_wraps :
    round60S4.windowSize = 2 ^ 63
    ∧ round60S4.currWL.length = 1
    ∧ round60S4.numCommitted - round60S4.prevCommits = 1
    ∧ cfgS4.commitRatioGE 1 1 = true
    ∧ refillRule cfgS4 (prepareRoundHead round60S4) 1 1 = 0
    ∧ refillRule cfgS4 (prepareRoundHead round60S4) 1 1 ≠ 2 * round60S4.windowSize
    ∧ (prepareRound cfgS4 round60S4).windowSize = 1 := by
  decide

/-- The clamp when the product `CHUNK_SIZE * activeThreads` fits `unsigned`: after
`refill`, on every branch, `windowSize` is the maximum of the value of the first-refill
or adaptive rule and `MIN_WIN_SIZE`; this is the value `windowSize` has when
`winWL.poll` is called, it is the target size handed to `poll`, and it is at least
`MIN_WIN_SIZE = CHUNK_SIZE * activeThreads`. -/
theorem refill_clamp (cfg : Config T σ) (st : State T σ) (currCommits prevWindowSize : Nat)
    (hfit : cfg.CHUNK_SIZE * cfg.activeThreads < 2 ^ 32) :
    MIN_WIN_SIZE cfg = cfg.CHUNK_SIZE * cfg.activeThreads
    ∧ (refill cfg st currCommits prevWindowSize).windowSize
        = max (refillRule cfg st currCommits prevWindowSize) (cfg.CHUNK_SIZE * cfg.activeThreads)
    ∧ (refillBeforePoll cfg st currCommits prevWindowSize).windowSize
        = max (refillRule cfg st currCommits prevWindowSize) (cfg.CHUNK_SIZE * cfg.activeThreads)
    ∧ refill cfg st currCommits prevWindowSize
        = WindowWL.poll cfg (refillBeforePoll cfg st currCommits prevWindowSize)
            (max (refillRule cfg st currCommits prevWindowSize)
              (cfg.CHUNK_SIZE * cfg.activeThreads))
            (refillBeforePoll cfg st currCommits prevWindowSize).currWL.length
    ∧ cfg.CHUNK_SIZE * cfg.activeThreads
        ≤ (refillBeforePoll cfg st currCommits prevWindowSize).windowSize := by
  have hmin : MIN_WIN_SIZE cfg = cfg.CHUNK_SIZE * cfg.activeThreads := by
    unfold MIN_WIN_SIZE
    rw [Nat.mod_eq_of_lt hfit]
    exact toSizeT_of_lt (by omega)
  have hb := refillBeforePoll_windowSize cfg st currCommits prevWindowSize
  rw [refillClamp_eq_max, hmin] at hb
  refine ⟨hmin, ?_, hb, ?_, ?_⟩
  · unfold refill
    rw [poll_windowSize, hb]
  · rw [refill_eq_poll, refillClamp_eq_max, hmin]
  · rw [hb]; exact Nat.le_max_right _ _

theorem refill_clamp_witness :
    cfgS4.CHUNK_SIZE * cfgS4.activeThreads < 2 ^ 32
    ∧ (refill cfgS4 (prepareRoundHead (fill_initial cfgS4 (initState ()) [10])) 0 0).windowSize
        = 16 :=
  ⟨by decide, by
    have h := (refill_clamp cfgS4 (prepareRoundHead (fill_initial cfgS4 (initState ()) [10])) 0 0
      (by decide)).2.1
    rw [h]
    decide⟩

/-! ## Scenario S4: the hypotheses hold -/

theorem strictWeakOrder_cfgS4 : StrictWeakOrder cfgS4.cmp where
  irrefl := fun a => by simp [cfgS4]
  trans := fun a b c => by simp only [cfgS4, decide_eq_true_eq]; omega
  incomp_trans := fun a b c => by simp only [cfgS4, decide_eq_false_iff_not]; omega

theorem pushesOnlyIfNeedsPush_cfgS4 : PushesOnlyIfNeedsPush cfgS4 :=
  fun h => absurd h (by decide)

theorem pollProgress_cfgS4 : PollProgress cfgS4 :=
  fun _ _ _ _ h => Nat.sub_pos_of_lt h

theorem s4_returns : for_each_ordered_2p_win cfgS4 20 () [10] = some finalS4 := by
  have h : (for_each_ordered_2p_win cfgS4 20 () [10]).isSome = true := by decide
  unfold finalS4
  cases hr : for_each_ordered_2p_win cfgS4 20 () [10] with
  | none => rw [hr] at h; exact absurd h (by simp)
  | some s => rfl

theorem no_lost_items_witness :
    PushesOnlyIfNeedsPush cfgS4
    ∧ (programTrace cfgS4 20 () [10]).all (fun e =>
        decide (e.2.committed.length + e.2.winWL.length + (liveCtxts e.2).card
          = [10].length + e.2.pushed)) = true :=
  ⟨pushesOnlyIfNeedsPush_cfgS4, by
    rw [List.all_eq_true]
    intro e he
    exact decide_eq_true (no_lost_items cfgS4 pushesOnlyIfNeedsPush_cfgS4 20 () [10] e he).1⟩

theorem execute_stable_exit_witness :
    PollProgress cfgS4 ∧ 0 < MIN_WIN_SIZE cfgS4
    ∧ for_each_ordered_2p_win cfgS4 20 () [10] = some finalS4
    ∧ finalS4.rounds = 12
    ∧ finalS4.winWL = [] ∧ finalS4.currWL = [] ∧ finalS4.nextWL = [] :=
  ⟨pollProgress_cfgS4, by decide, s4_returns, by decide,
    ((execute_stable_exit cfgS4 pollProgress_cfgS4 (by decide) 20 () [10] finalS4).2
      s4_returns).1,
    ((execute_stable_exit cfgS4 pollProgress_cfgS4 (by decide) 20 () [10] finalS4).2
      s4_returns).2.1,
    ((execute_stable_exit cfgS4 pollProgress_cfgS4 (by decide) 20 () [10] finalS4).2
      s4_returns).2.2.1⟩

theorem applyOne_commit_iff_source_witness :
    applyStartS4.heap 0 = some { elem := 10, source := true }
    ∧ 0 < applyStartS4.nextPtr
    ∧ (applyOne cfgS4 none applyStartS4 0).numCommitted = applyStartS4.numCommitted + 1
    ∧ (applyOne cfgS4 none applyStartS4 0).heap 0 = none :=
  ⟨rfl, by decide,
    ((applyOne_commit_iff_source cfgS4 none applyStartS4 0 { elem := 10, source := true } rfl
      (by decide)).2.2 rfl rfl (by decide)).2.1,
    ((applyOne_commit_iff_source cfgS4 none applyStartS4 0 { elem := 10, source := true } rfl
      (by decide)).2.2 rfl rfl (by decide)).2.2.2.2⟩

theorem routePush_routing_witness :
    (routePush cfgS4 (some 5) applyStartS4 7).nextWL = applyStartS4.nextWL ++ [applyStartS4.nextPtr]
    ∧ (routePush cfgS4 none applyStartS4 7).nextWL = applyStartS4.nextWL ++ [applyStartS4.nextPtr]
    ∧ (routePush cfgS4 (some 5) applyStartS4 3).winWL
        = WindowWL.push cfgS4.cmp 3 applyStartS4.winWL :=
  ⟨((routePush_routing cfgS4 (some 5) applyStartS4 7).1 (Or.inr ⟨5, rfl, by decide⟩)).1,
    ((routePush_routing cfgS4 none applyStartS4 7).1 (Or.inl rfl)).1,
    ((routePush_routing cfgS4 (some 5) applyStartS4 3).2.1 ⟨5, rfl, by decide⟩).1⟩

/-! ## The trace follows the run -/

theorem applyTrace_getLast (cfg : Config T σ) (m : Option T) (p : CtxtPtr) (ps : List CtxtPtr)
    (st : State T σ) :
    (applyTrace cfg m (p :: ps) st).getLast? = some ((p :: ps).foldl (applyOne cfg m) st) := by
  induction ps generalizing p st with
  | nil => simp [applyTrace]
  | cons q qs ih =>
    have := ih q (applyOne cfg m st p)
    simp only [applyTrace, List.foldl_cons] at this ⊢
    rw [List.getLast?_cons_cons]
    exact this

theorem execTrace_returns (cfg : Config T σ) (fuel : Nat) (st s : State T σ)
    (h : execute_stable cfg fuel st = some s) : (Point.prepared, s) ∈ execTrace cfg fuel st := by
  induction fuel generalizing st with
  | zero => simp [execute_stable] at h
  | succ fuel ih =>
    unfold execute_stable at h
    unfold execTrace
    simp only [] at h ⊢
    split at h
    · rename_i he
      simp only [Option.some.injEq] at h
      rw [if_pos he, h]
      exact List.mem_cons_of_mem _ (List.mem_singleton.mpr rfl)
    · rename_i he
      simp only [he, Bool.false_eq_true, if_false]
      have := ih _ h
      simp only [List.mem_cons, List.mem_append]
      exact Or.inr (Or.inr (Or.inr (Or.inr this)))

/-! ## The counters across a round -/

theorem poll_numCommitted (cfg : Config T σ) (st : State T σ) (k o : Nat) :
    (WindowWL.poll cfg st k o).numCommitted = st.numCommitted := by
  unfold WindowWL.poll
  exact foldl_keeps pollOne (fun s => s.numCommitted) (fun _ _ => rfl) _ _

theorem spillAll_numCommitted (cfg : Config T σ) (st : State T σ) :
    (spillAll cfg st).numCommitted = st.numCommitted := by
  show (st.currWL.reverse.foldl (spillOne cfg) st).numCommitted = st.numCommitted
  refine foldl_keeps (spillOne cfg) (fun s => s.numCommitted) ?_ _ _
  intro a b; simp only [spillOne]; split <;> rfl

theorem refillSpill_numCommitted (cfg : Config T σ) (st : State T σ) :
    (refillSpill cfg st).numCommitted = st.numCommitted := by
  unfold refillSpill
  split
  · split
    · exact spillAll_numCommitted cfg st
    · split
      · exact spillAll_numCommitted cfg st
      · rfl
  · rfl

theorem refill_numCommitted (cfg : Config T σ) (st : State T σ) (c w : Nat) :
    (refill cfg st c w).numCommitted = st.numCommitted := by
  unfold refill
  rw [poll_numCommitted]
  unfold refillBeforePoll
  rw [refillSpill_numCommitted]

theorem poll_total (cfg : Config T σ) (st : State T σ) (k o : Nat) :
    (WindowWL.poll cfg st k o).total = st.total := by
  unfold WindowWL.poll
  exact foldl_keeps pollOne (fun s => s.total) (fun _ _ => rfl) _ _

theorem spillAll_total (cfg : Config T σ) (st : State T σ) :
    (spillAll cfg st).total = st.total := by
  show (st.currWL.reverse.foldl (spillOne cfg) st).total = st.total
  refine foldl_keeps (spillOne cfg) (fun s => s.total) ?_ _ _
  intro a b; simp only [spillOne]; split <;> rfl

theorem refillSpill_total (cfg : Config T σ) (st : State T σ) :
    (refillSpill cfg st).total = st.total := by
  unfold refillSpill
  split
  · split
    · exact spillAll_total cfg st
    · split
      · exact spillAll_total cfg st
      · rfl
  · rfl

theorem refill_total (cfg : Config T σ) (st : State T σ) (c w : Nat) :
    (refill cfg st c w).total = st.total := by
  unfold refill
  rw [poll_total]
  unfold refillBeforePoll
  rw [refillSpill_total]

theorem poll_prevCommits (cfg : Config T σ) (st : State T σ) (k o : Nat) :
    (WindowWL.poll cfg st k o).prevCommits = st.prevCommits := by
  unfold WindowWL.poll
  exact foldl_keeps pollOne (fun s => s.prevCommits) (fun _ _ => rfl) _ _

theorem spillAll_prevCommits (cfg : Config T σ) (st : State T σ) :
    (spillAll cfg st).prevCommits = st.prevCommits := by
  show (st.currWL.reverse.foldl (spillOne cfg) st).prevCommits = st.prevCommits
  refine foldl_keeps (spillOne cfg) (fun s => s.prevCommits) ?_ _ _
  intro a b; simp only [spillOne]; split <;> rfl

theorem refillSpill_prevCommits (cfg : Config T σ) (st : State T σ) :
    (refillSpill cfg st).prevCommits = st.prevCommits := by
  unfold refillSpill
  split
  · split
    · exact spillAll_prevCommits cfg st
    · split
      · exact spillAll_prevCommits cfg st
      · rfl
  · rfl

theorem refill_prevCommits (cfg : Config T σ) (st : State T σ) (c w : Nat) :
    (refill cfg st c w).prevCommits = st.prevCommits := by
  unfold refill
  rw [poll_prevCommits]
  unfold refillBeforePoll
  rw [refillSpill_prevCommits]

theorem expandNhood_numCommitted (cfg : Config T σ) (st : State T σ) :
    (expandNhood cfg st).numCommitted = st.numCommitted := by
  refine foldl_keeps (expandOne cfg) (fun s => s.numCommitted) ?_ _ _
  intro a b; simp only [expandOne]; split <;> rfl

theorem expandNhood_prevCommits (cfg : Config T σ) (st : State T σ) :
    (expandNhood cfg st).prevCommits = st.prevCommits := by
  refine foldl_keeps (expandOne cfg) (fun s => s.prevCommits) ?_ _ _
  intro a b; simp only [expandOne]; split <;> rfl

theorem routePush_total (cfg : Config T σ) (m : Option T) (st : State T σ) (x : T) :
    (routePush cfg m st x).total = st.total := by
  unfold routePush; split <;> rfl

theorem runOperator_total (cfg : Config T σ) (st : State T σ) (p : CtxtPtr) (c : Ctxt T) :
    (runOperator cfg st p c).1.total = st.total := by
  unfold runOperator; split <;> rfl

theorem commitCtxt_total (cfg : Config T σ) (m : Option T) (st : State T σ) (p : CtxtPtr)
    (c : Ctxt T) (buf : List T) : (commitCtxt cfg m st p c buf).total = st.total := by
  unfold commitCtxt
  split
  · exact foldl_keeps (routePush cfg m) (fun s => s.total)
      (fun a b => routePush_total cfg m a b) _ _
  · rfl

theorem applyOne_total (cfg : Config T σ) (m : Option T) (st : State T σ) (p : CtxtPtr) :
    (applyOne cfg m st p).total = st.total := by
  unfold applyOne
  split
  · simp only []
    split
    · rw [commitCtxt_total, runOperator_total]
    · show (runOperator cfg st p _).1.total = st.total
      rw [runOperator_total]
  · rfl

theorem applyOperator_total (cfg : Config T σ) (st : State T σ) :
    (applyOperator cfg st).total = st.total :=
  foldl_keeps (applyOne cfg _) (fun s => s.total) (fun a b => applyOne_total cfg _ a b) _ _

theorem routePush_prevCommits (cfg : Config T σ) (m : Option T) (st : State T σ) (x : T) :
    (routePush cfg m st x).prevCommits = st.prevCommits := by
  unfold routePush; split <;> rfl

theorem runOperator_prevCommits (cfg : Config T σ) (st : State T σ) (p : CtxtPtr) (c : Ctxt T) :
    (runOperator cfg st p c).1.prevCommits = st.prevCommits := by
  unfold runOperator; split <;> rfl

theorem commitCtxt_prevCommits (cfg : Config T σ) (m : Option T) (st : State T σ) (p : CtxtPtr)
    (c : Ctxt T) (buf : List T) : (commitCtxt cfg m st p c buf).prevCommits = st.prevCommits := by
  unfold commitCtxt
  split
  · exact foldl_keeps (routePush cfg m) (fun s => s.prevCommits)
      (fun a b => routePush_prevCommits cfg m a b) _ _
  · rfl

theorem applyOne_prevCommits (cfg : Config T σ) (m : Option T) (st : State T σ) (p : CtxtPtr) :
    (applyOne cfg m st p).prevCommits = st.prevCommits := by
  unfold applyOne
  split
  · simp only []
    split
    · rw [commitCtxt_prevCommits, runOperator_prevCommits]
    · show (runOperator cfg st p _).1.prevCommits = st.prevCommits
      rw [runOperator_prevCommits]
  · rfl

theorem applyOperator_prevCommits (cfg : Config T σ) (st : State T σ) :
    (applyOperator cfg st).prevCommits = st.prevCommits :=
  foldl_keeps (applyOne cfg _) (fun s => s.prevCommits) (fun a b => applyOne_prevCommits cfg _ a b) _ _

theorem prepareRound_numCommitted (cfg : Config T σ) (st : State T σ) :
    (prepareRound cfg st).numCommitted = st.numCommitted := by
  unfold prepareRound
  rw [refill_numCommitted]
  rfl

theorem prepareRound_total (cfg : Config T σ) (st : State T σ) :
    (prepareRound cfg st).total = st.total := by
  unfold prepareRound
  rw [refill_total]
  rfl

theorem prepareRound_prevCommits (cfg : Config T σ) (st : State T σ) :
    (prepareRound cfg st).prevCommits = st.prevCommits + (st.numCommitted - st.prevCommits) := by
  unfold prepareRound
  rw [refill_prevCommits]
  rfl

theorem runOperator_numCommitted (cfg : Config T σ) (st : State T σ) (p : CtxtPtr) (c : Ctxt T) :
    (runOperator cfg st p c).1.numCommitted = st.numCommitted := by
  unfold runOperator; split <;> rfl

theorem commitCtxt_numCommitted (cfg : Config T σ) (m : Option T) (st : State T σ) (p : CtxtPtr)
    (c : Ctxt T) (buf : List T) :
    (commitCtxt cfg m st p c buf).numCommitted = st.numCommitted + 1 := by
  unfold commitCtxt
  split
  · exact foldl_keeps (routePush cfg m) (fun s => s.numCommitted)
      (fun a b => routePush_numCommitted cfg m a b) _ _
  · rfl

/-- One Context adds at most one commit, and never takes one away. -/
theorem applyOne_numCommitted_le (cfg : Config T σ) (m : Option T) (st : State T σ)
    (p : CtxtPtr) :
    st.numCommitted ≤ (applyOne cfg m st p).numCommitted
      ∧ (applyOne cfg m st p).numCommitted ≤ st.numCommitted + 1 := by
  unfold applyOne
  split
  · simp only []
    split
    · rw [commitCtxt_numCommitted, runOperator_numCommitted]
      exact ⟨Nat.le_succ _, Nat.le_refl _⟩
    · show st.numCommitted ≤ (runOperator cfg st p _).1.numCommitted
        ∧ (runOperator cfg st p _).1.numCommitted ≤ st.numCommitted + 1
      rw [runOperator_numCommitted]
      exact ⟨Nat.le_refl _, Nat.le_succ _⟩
  · exact ⟨Nat.le_refl _, Nat.le_succ _⟩

theorem applyLoop_numCommitted_le (cfg : Config T σ) (m : Option T) (ps : List CtxtPtr)
    (st : State T σ) :
    st.numCommitted ≤ (ps.foldl (applyOne cfg m) st).numCommitted
      ∧ (ps.foldl (applyOne cfg m) st).numCommitted ≤ st.numCommitted + ps.length := by
  induction ps generalizing st with
  | nil => exact ⟨Nat.le_refl _, Nat.le_refl _⟩
  | cons p ps ih =>
    have h1 := applyOne_numCommitted_le cfg m st p
    have h2 := ih (applyOne cfg m st p)
    simp only [List.foldl_cons, List.length_cons]
    omega

theorem applyOperator_numCommitted_le (cfg : Config T σ) (st : State T σ) :
    st.numCommitted ≤ (applyOperator cfg st).numCommitted
      ∧ (applyOperator cfg st).numCommitted ≤ st.numCommitted + st.currWL.length :=
  applyLoop_numCommitted_le cfg _ st.currWL st

theorem applyOperator_currWL (cfg : Config T σ) (st : State T σ) :
    (applyOperator cfg st).currWL = st.currWL :=
  applyLoop_currWL cfg _ st.currWL st

/-- Every live Context of the worklist adds one to `total`. -/
theorem expandLoop_total (cfg : Config T σ) (ps : List CtxtPtr) (st : State T σ)
    (hl : ∀ p ∈ ps, ∃ c, st.heap p = some c) :
    (ps.foldl (expandOne cfg) st).total = st.total + ps.length := by
  induction ps generalizing st with
  | nil => rfl
  | cons p ps ih =>
    obtain ⟨c, hc⟩ := hl p (List.mem_cons_self p ps)
    have hs : (expandOne cfg st p).total = st.total + 1 := by simp [expandOne, hc]
    have hh : ∀ q ∈ ps, ∃ d, (expandOne cfg st p).heap q = some d := by
      intro q hq
      have := hl q (List.mem_cons_of_mem p hq)
      simp only [expandOne, hc]
      exact (disableSrc_isSome st.heap _ q).mpr this
    simp only [List.foldl_cons, List.length_cons]
    rw [ih _ hh, hs]
    omega

theorem expandNhood_total (cfg : Config T σ) (n0 : Nat) (st : State T σ)
    (h : Tracked cfg n0 st st.currWL) :
    (expandNhood cfg st).total = st.total + st.currWL.length :=
  expandLoop_total cfg st.currWL st (fun p hp => (h.heap.live p).mp hp)

/-! ## The unstable executor keeps the Contexts tracked -/

theorem expandOneUnstable_tracked (cfg : Config T σ)
    (nhFunc : σ → CtxtPtr → T → List T → NhResult σ) (items : List T) (n0 : Nat)
    (L : List CtxtPtr) (st : State T σ) (p : CtxtPtr) (h : Tracked cfg n0 st L) :
    Tracked cfg n0 (expandOneUnstable nhFunc items st p) L := by
  unfold expandOneUnstable
  split
  · exact ⟨h.heap.disable _, h.count, h.commits⟩
  · exact h

theorem expandNhoodUnstable_tracked (cfg : Config T σ)
    (nhFunc : σ → CtxtPtr → T → List T → NhResult σ) (n0 : Nat) (L : List CtxtPtr)
    (st : State T σ) (h : Tracked cfg n0 st L) :
    Tracked cfg n0 (expandNhoodUnstable nhFunc st) L :=
  foldl_inv (expandOneUnstable nhFunc (currItems st)) (fun a => Tracked cfg n0 a L)
    (fun a b ha => expandOneUnstable_tracked cfg nhFunc _ n0 L a b ha) _ _ h

theorem expandNhoodUnstable_currWL (nhFunc : σ → CtxtPtr → T → List T → NhResult σ)
    (st : State T σ) : (expandNhoodUnstable nhFunc st).currWL = st.currWL := by
  refine foldl_keeps (expandOneUnstable nhFunc _) (fun s => s.currWL) ?_ _ _
  intro a b; simp only [expandOneUnstable]; split <;> rfl

theorem expandNhoodUnstable_nextWL (nhFunc : σ → CtxtPtr → T → List T → NhResult σ)
    (st : State T σ) : (expandNhoodUnstable nhFunc st).nextWL = st.nextWL := by
  refine foldl_keeps (expandOneUnstable nhFunc _) (fun s => s.nextWL) ?_ _ _
  intro a b; simp only [expandOneUnstable]; split <;> rfl

theorem expandNhoodUnstable_numCommitted (nhFunc : σ → CtxtPtr → T → List T → NhResult σ)
    (st : State T σ) : (expandNhoodUnstable nhFunc st).numCommitted = st.numCommitted := by
  refine foldl_keeps (expandOneUnstable nhFunc _) (fun s => s.numCommitted) ?_ _ _
  intro a b; simp only [expandOneUnstable]; split <;> rfl

theorem expandLoopUnstable_total (nhFunc : σ → CtxtPtr → T → List T → NhResult σ)
    (items : List T) (ps : List CtxtPtr) (st : State T σ)
    (hl : ∀ p ∈ ps, ∃ c, st.heap p = some c) :
    (ps.foldl (expandOneUnstable nhFunc items) st).total = st.total + ps.length := by
  induction ps generalizing st with
  | nil => rfl
  | cons p ps ih =>
    obtain ⟨c, hc⟩ := hl p (List.mem_cons_self p ps)
    have hs : (expandOneUnstable nhFunc items st p).total = st.total + 1 := by
      simp [expandOneUnstable, hc]
    have hh : ∀ q ∈ ps, ∃ d, (expandOneUnstable nhFunc items st p).heap q = some d := by
      intro q hq
      have := hl q (List.mem_cons_of_mem p hq)
      simp only [expandOneUnstable, hc]
      exact (disableSrc_isSome st.heap _ q).mpr this
    simp only [List.foldl_cons, List.length_cons]
    rw [ih _ hh, hs]
    omega

theorem expandNhoodUnstable_total (cfg : Config T σ)
    (nhFunc : σ → CtxtPtr → T → List T → NhResult σ) (n0 : Nat) (st : State T σ)
    (h : Tracked cfg n0 st st.currWL) :
    (expandNhoodUnstable nhFunc st).total = st.total + st.currWL.length :=
  expandLoopUnstable_total nhFunc _ st.currWL st (fun p hp => (h.heap.live p).mp hp)

theorem serialOne_eq (serialLoop : σ → T → σ) (st : State T σ) (p : CtxtPtr) :
    ∃ u, serialOne serialLoop st p = { st with user := u } := by
  unfold serialOne
  split
  · split
    · exact ⟨_, rfl⟩
    · exact ⟨st.user, rfl⟩
  · exact ⟨st.user, rfl⟩

theorem serialOne_tracked (cfg : Config T σ) (serialLoop : σ → T → σ) (n0 : Nat)
    (L : List CtxtPtr) (st : State T σ) (p : CtxtPtr) (h : Tracked cfg n0 st L) :
    Tracked cfg n0 (serialOne serialLoop st p) L := by
  obtain ⟨u, hu⟩ := serialOne_eq serialLoop st p
  rw [hu]
  exact ⟨h.heap, h.count, h.commits⟩

theorem serialSweep_tracked (cfg : Config T σ) (serialLoop : σ → T → σ) (n0 : Nat)
    (L : List CtxtPtr) (st : State T σ) (h : Tracked cfg n0 st L) :
    Tracked cfg n0 (serialSweep serialLoop st) L :=
  foldl_inv (serialOne serialLoop) (fun a => Tracked cfg n0 a L)
    (fun a b ha => serialOne_tracked cfg serialLoop n0 L a b ha) _ _ h

theorem serialSweep_currWL (serialLoop : σ → T → σ) (st : State T σ) :
    (serialSweep serialLoop st).currWL = st.currWL := by
  refine foldl_keeps (serialOne serialLoop) (fun s => s.currWL) ?_ _ _
  intro a b; obtain ⟨u, hu⟩ := serialOne_eq serialLoop a b; rw [hu]

theorem serialSweep_nextWL (serialLoop : σ → T → σ) (st : State T σ) :
    (serialSweep serialLoop st).nextWL = st.nextWL := by
  refine foldl_keeps (serialOne serialLoop) (fun s => s.nextWL) ?_ _ _
  intro a b; obtain ⟨u, hu⟩ := serialOne_eq serialLoop a b; rw [hu]

theorem serialSweep_numCommitted (serialLoop : σ → T → σ) (st : State T σ) :
    (serialSweep serialLoop st).numCommitted = st.numCommitted := by
  refine foldl_keeps (serialOne serialLoop) (fun s => s.numCommitted) ?_ _ _
  intro a b; obtain ⟨u, hu⟩ := serialOne_eq serialLoop a b; rw [hu]

theorem serialSweep_total (serialLoop : σ → T → σ) (st : State T σ) :
    (serialSweep serialLoop st).total = st.total := by
  refine foldl_keeps (serialOne serialLoop) (fun s => s.total) ?_ _ _
  intro a b; obtain ⟨u, hu⟩ := serialOne_eq serialLoop a b; rw [hu]

theorem unstableBody_tracked (cfg : Config T σ)
    (nhFunc : σ → CtxtPtr → T → List T → NhResult σ) (serialLoop : σ → T → σ) (n0 : Nat)
    (st : State T σ) (h : Tracked cfg n0 st st.currWL) (hn : st.nextWL = []) :
    Tracked cfg n0 (unstableBody cfg nhFunc serialLoop st)
      (unstableBody cfg nhFunc serialLoop st).nextWL := by
  apply applyOperator_tracked
  · rw [serialSweep_currWL, expandNhoodUnstable_currWL]
    exact serialSweep_tracked cfg serialLoop n0 _ _
      (expandNhoodUnstable_tracked cfg nhFunc n0 _ _ h)
  · rw [serialSweep_nextWL, expandNhoodUnstable_nextWL, hn]

theorem unstableHead_tracked (cfg : Config T σ)
    (nhFunc : σ → CtxtPtr → T → List T → NhResult σ) (serialLoop : σ → T → σ) (n0 : Nat)
    (n : Nat) (st : State T σ) (h : Tracked cfg n0 st st.nextWL) :
    Tracked cfg n0 (unstableHead cfg nhFunc serialLoop n st)
      (unstableHead cfg nhFunc serialLoop n st).nextWL := by
  induction n with
  | zero => exact h
  | succ n ih =>
    exact unstableBody_tracked cfg nhFunc serialLoop n0 _
      (prepareRound_tracked cfg n0 _ ih) (prepareRound_nextWL cfg _)

/-- One round of the unstable executor: `total` grows by the size of `currWL`,
`numCommitted` by at most as much. -/
theorem unstableBody_counters (cfg : Config T σ)
    (nhFunc : σ → CtxtPtr → T → List T → NhResult σ) (serialLoop : σ → T → σ) (n0 : Nat)
    (st : State T σ) (h : Tracked cfg n0 st st.currWL) :
    (unstableBody cfg nhFunc serialLoop st).total = st.total + st.currWL.length
      ∧ (expandNhoodUnstable nhFunc st).total = st.total + st.currWL.length
      ∧ (unstableBody cfg nhFunc serialLoop st).numCommitted
          ≤ st.numCommitted + st.currWL.length := by
  have ht := expandNhoodUnstable_total cfg nhFunc n0 st h
  have ha := applyOperator_numCommitted_le cfg
    (serialSweep serialLoop (expandNhoodUnstable nhFunc st))
  rw [serialSweep_numCommitted, expandNhoodUnstable_numCommitted, serialSweep_currWL,
    expandNhoodUnstable_currWL] at ha
  refine ⟨?_, ht, ha.2⟩
  unfold unstableBody
  rw [applyOperator_total, serialSweep_total, ht]

/-! ## The heads of the loop of the stable executor -/

theorem loopHead_succ (cfg : Config T σ) (n : Nat) (st : State T σ) :
    loopHead cfg n (applyOperator cfg (expandNhood cfg (prepareRound cfg st)))
      = loopHead cfg (n + 1) st := by
  cases n <;> rfl

theorem afterPrepare_eq (cfg : Config T σ) (n : Nat) (st : State T σ) :
    afterPrepare cfg n st = prepareRound cfg (loopHead cfg n st) := by
  induction n generalizing st with
  | zero => rfl
  | succ n ih =>
    show afterPrepare cfg n _ = _
    rw [ih, loopHead_succ]

theorem loopHead_tracked (cfg : Config T σ) (n0 : Nat) (n : Nat) (st : State T σ)
    (h : Tracked cfg n0 st st.nextWL) :
    Tracked cfg n0 (loopHead cfg n st) (loopHead cfg n st).nextWL := by
  cases n with
  | zero => exact h
  | succ n =>
    have := afterPrepare_tracked cfg n0 n st h
    apply applyOperator_tracked
    · rw [expandNhood_currWL]
      exact expandNhood_tracked cfg n0 _ _ this.1
    · rw [expandNhood_nextWL, this.2]

/-- One round of the stable executor: `total` grows by the size of `currWL`,
`numCommitted` by at most as much and never shrinks. -/
theorem stableRound_counters (cfg : Config T σ) (n0 : Nat) (st : State T σ)
    (h : Tracked cfg n0 st st.currWL) :
    (applyOperator cfg (expandNhood cfg st)).total = st.total + st.currWL.length
      ∧ (expandNhood cfg st).total = st.total + st.currWL.length
      ∧ st.numCommitted ≤ (applyOperator cfg (expandNhood cfg st)).numCommitted
      ∧ (applyOperator cfg (expandNhood cfg st)).numCommitted
          ≤ st.numCommitted + st.currWL.length := by
  have ht := expandNhood_total cfg n0 st h
  have ha := applyOperator_numCommitted_le cfg (expandNhood cfg st)
  rw [expandNhood_numCommitted, expandNhood_currWL] at ha
  refine ⟨?_, ht, ha.1, ha.2⟩
  rw [applyOperator_total, ht]

theorem loopHead_step_counters (cfg : Config T σ) (n0 : Nat) (n : Nat) (st : State T σ)
    (h : Tracked cfg n0 st st.nextWL) :
    (loopHead cfg (n + 1) st).total
        = (loopHead cfg n st).total + (afterPrepare cfg n st).currWL.length
      ∧ (expandNhood cfg (afterPrepare cfg n st)).total
        = (loopHead cfg n st).total + (afterPrepare cfg n st).currWL.length
      ∧ (loopHead cfg n st).numCommitted ≤ (loopHead cfg (n + 1) st).numCommitted
      ∧ (loopHead cfg (n + 1) st).numCommitted
        ≤ (loopHead cfg n st).numCommitted + (afterPrepare cfg n st).currWL.length := by
  have ht := (afterPrepare_tracked cfg n0 n st h).1
  have hc := stableRound_counters cfg n0 (afterPrepare cfg n st) ht
  have e1 : (afterPrepare cfg n st).total = (loopHead cfg n st).total := by
    rw [afterPrepare_eq, prepareRound_total]
  have e2 : (afterPrepare cfg n st).numCommitted = (loopHead cfg n st).numCommitted := by
    rw [afterPrepare_eq, prepareRound_numCommitted]
  rw [e1, e2] at hc
  exact hc

theorem loopHead_commits_le_total (cfg : Config T σ) (n0 : Nat) (n : Nat) (st : State T σ)
    (h : Tracked cfg n0 st st.nextWL) (hle : st.numCommitted ≤ st.total) :
    (loopHead cfg n st).numCommitted ≤ (loopHead cfg n st).total := by
  induction n with
  | zero => exact hle
  | succ n ih =>
    have := loopHead_step_counters cfg n0 n st h
    omega

theorem unstableHead_commits_le_total (cfg : Config T σ)
    (nhFunc : σ → CtxtPtr → T → List T → NhResult σ) (serialLoop : σ → T → σ) (n0 : Nat)
    (n : Nat) (st : State T σ) (h : Tracked cfg n0 st st.nextWL)
    (hle : st.numCommitted ≤ st.total) :
    (unstableHead cfg nhFunc serialLoop n st).numCommitted
      ≤ (unstableHead cfg nhFunc serialLoop n st).total := by
  induction n with
  | zero => exact hle
  | succ n ih =>
    have ht := prepareRound_tracked cfg n0 _ (unstableHead_tracked cfg nhFunc serialLoop n0 n st h)
    have hc := unstableBody_counters cfg nhFunc serialLoop n0 _ ht
    rw [prepareRound_total, prepareRound_numCommitted] at hc
    show (unstableBody cfg nhFunc serialLoop _).numCommitted
      ≤ (unstableBody cfg nhFunc serialLoop _).total
    omega

theorem ratio_le_one {c t : Nat} (h : c ≤ t) (ht : 0 < t) : (c : ℚ) / (t : ℚ) ≤ 1 := by
  rw [div_le_one (by exact_mod_cast ht)]
  exact_mod_cast h

/-- C13 (commits never exceed attempts). At the head of the loop after any number of
rounds, for the stable and for the unstable executor, `numCommitted <= total`: a round
adds exactly the size of its `currWL` to `total` in `expandNhood` and at most that much
to `numCommitted` in `applyOperator`; the same holds for the state after
`prepareRound` (the state the executor returns), so the efficiency `commits / total` of
the report is at most 1 whenever there was an attempt. -/
theorem commits_le_total (cfg : Config T σ) (nhFunc : σ → CtxtPtr → T → List T → NhResult σ)
    (serialLoop : σ → T → σ) (user : σ) (range : List T) (n : Nat) :
    ((loopHead cfg n (fill_initial cfg (initState user) range)).numCommitted
        ≤ (loopHead cfg n (fill_initial cfg (initState user) range)).total
      ∧ (expandNhood cfg (afterPrepare cfg n (fill_initial cfg (initState user) range))).total
        = (loopHead cfg n (fill_initial cfg (initState user) range)).total
          + (afterPrepare cfg n (fill_initial cfg (initState user) range)).currWL.length
      ∧ (loopHead cfg (n + 1) (fill_initial cfg (initState user) range)).total
        = (loopHead cfg n (fill_initial cfg (initState user) range)).total
          + (afterPrepare cfg n (fill_initial cfg (initState user) range)).currWL.length
      ∧ (loopHead cfg (n + 1) (fill_initial cfg (initState user) range)).numCommitted
        ≤ (loopHead cfg n (fill_initial cfg (initState user) range)).numCommitted
          + (afterPrepare cfg n (fill_initial cfg (initState user) range)).currWL.length
      ∧ (afterPrepare cfg n (fill_initial cfg (initState user) range)).numCommitted
        ≤ (afterPrepare cfg n (fill_initial cfg (initState user) range)).total
      ∧ (0 < (afterPrepare cfg n (fill_initial cfg (initState user) range)).total →
          ((afterPrepare cfg n (fill_initial cfg (initState user) range)).numCommitted : ℚ)
            / ((afterPrepare cfg n (fill_initial cfg (initState user) range)).total : ℚ) ≤ 1))
    ∧ ((unstableHead cfg nhFunc serialLoop n (fill_initial cfg (initState user) range)).numCommitted
        ≤ (unstableHead cfg nhFunc serialLoop n (fill_initial cfg (initState user) range)).total
      ∧ (expandNhoodUnstable nhFunc (prepareRound cfg
            (unstableHead cfg nhFunc serialLoop n (fill_initial cfg (initState user) range)))).total
        = (unstableHead cfg nhFunc serialLoop n (fill_initial cfg (initState user) range)).total
          + (prepareRound cfg (unstableHead cfg nhFunc serialLoop n
              (fill_initial cfg (initState user) range))).currWL.length
      ∧ (unstableHead cfg nhFunc serialLoop (n + 1)
            (fill_initial cfg (initState user) range)).total
        = (unstableHead cfg nhFunc serialLoop n (fill_initial cfg (initState user) range)).total
          + (prepareRound cfg (unstableHead cfg nhFunc serialLoop n
              (fill_initial cfg (initState user) range))).currWL.length
      ∧ (unstableHead cfg nhFunc serialLoop (n + 1)
            (fill_initial cfg (initState user) range)).numCommitted
        ≤ (unstableHead cfg nhFunc serialLoop n
              (fill_initial cfg (initState user) range)).numCommitted
          + (prepareRound cfg (unstableHead cfg nhFunc serialLoop n
              (fill_initial cfg (initState user) range))).currWL.length
      ∧ (0 < (unstableHead cfg nhFunc serialLoop n
              (fill_initial cfg (initState user) range)).total →
          ((unstableHead cfg nhFunc serialLoop n
              (fill_initial cfg (initState user) range)).numCommitted : ℚ)
            / ((unstableHead cfg nhFunc serialLoop n
              (fill_initial cfg (initState user) range)).total : ℚ) ≤ 1)) := by
  have hI := tracked_fill_initial cfg user range
  have h0 : (fill_initial cfg (initState user) range).numCommitted
      ≤ (fill_initial cfg (initState user) range).total := Nat.le_refl _
  have hs := loopHead_step_counters cfg range.length n _ hI
  have hl := loopHead_commits_le_total cfg range.length n _ hI h0
  have hu := unstableHead_commits_le_total cfg nhFunc serialLoop range.length n _ hI h0
  have hut := prepareRound_tracked cfg range.length _
    (unstableHead_tracked cfg nhFunc serialLoop range.length n _ hI)
  have huc := unstableBody_counters cfg nhFunc serialLoop range.length _ hut
  rw [prepareRound_total, prepareRound_numCommitted] at huc
  have hp : (afterPrepare cfg n (fill_initial cfg (initState user) range)).numCommitted
      ≤ (afterPrepare cfg n (fill_initial cfg (initState user) range)).total := by
    rw [afterPrepare_eq, prepareRound_total, prepareRound_numCommitted]
    exact hl
  exact ⟨⟨hl, hs.2.1, hs.1, hs.2.2.2, hp, fun ht => ratio_le_one hp ht⟩,
    ⟨hu, huc.2.1, huc.1, huc.2.2, fun ht => ratio_le_one hu ht⟩⟩

/-! ## The arguments `prepareRound` hands to `refill` -/

theorem loopHead_prevCommits (cfg : Config T σ) (n0 : Nat) (n : Nat) (st : State T σ)
    (h : Tracked cfg n0 st st.nextWL) (h0 : st.prevCommits ≤ st.numCommitted) :
    (loopHead cfg n st).prevCommits ≤ (loopHead cfg n st).numCommitted
      ∧ (afterPrepare cfg n st).prevCommits = (afterPrepare cfg n st).numCommitted
      ∧ (loopHead cfg (n + 1) st).prevCommits = (loopHead cfg n st).numCommitted := by
  induction n with
  | zero =>
    refine ⟨h0, ?_, ?_⟩
    · show (prepareRound cfg st).prevCommits = (prepareRound cfg st).numCommitted
      rw [prepareRound_prevCommits, prepareRound_numCommitted]
      omega
    · show (applyOperator cfg (expandNhood cfg (prepareRound cfg st))).prevCommits = _
      rw [applyOperator_prevCommits, expandNhood_prevCommits, prepareRound_prevCommits]
      show st.prevCommits + (st.numCommitted - st.prevCommits) = st.numCommitted
      omega
  | succ n ih =>
    have hs := loopHead_step_counters cfg n0 n st h
    have hle : (loopHead cfg (n + 1) st).prevCommits ≤ (loopHead cfg (n + 1) st).numCommitted := by
      rw [ih.2.2]; exact hs.2.2.1
    refine ⟨hle, ?_, ?_⟩
    · rw [afterPrepare_eq, prepareRound_prevCommits, prepareRound_numCommitted]
      omega
    · show (applyOperator cfg (expandNhood cfg (afterPrepare cfg (n + 1) st))).prevCommits = _
      rw [applyOperator_prevCommits, expandNhood_prevCommits, afterPrepare_eq,
        prepareRound_prevCommits]
      omega

theorem prevWindowSizeOf_loopHead (cfg : Config T σ) (n : Nat) (st : State T σ) :
    prevWindowSizeOf (loopHead cfg (n + 1) st) = (afterPrepare cfg n st).currWL.length := by
  show (applyOperator cfg (expandNhood cfg (afterPrepare cfg n st))).currWL.length = _
  rw [applyOperator_currWL, expandNhood_currWL]

theorem prepareRound_eq_refill (cfg : Config T σ) (st : State T σ) :
    prepareRound cfg st
      = refill cfg (prepareRoundHead st) (currCommitsOf st) (prevWindowSizeOf st) := rfl

set_option maxRecDepth 100000 in
/-- C19 counterexample. Scenario S2 on the range 1..100: the first round attempts 64
Contexts, commits one and re-queues 63, no item is pushed; the second `prepareRound`
hands `prevWindowSize = 64` to `refill`, not the 63 items carried over into `nextWL`. -/
theorem prevWindowSize_not_carried_over :
    round1S2.nextWL.length = 63
    ∧ round1S2.pushed = 0
    ∧ round1S2.numCommitted = 1
    ∧ prevWindowSizeOf round1S2 = 64
    ∧ prepareRound cfgS2 round1S2
        = refill cfgS2 (prepareRoundHead round1S2) (currCommitsOf round1S2)
            (prevWindowSizeOf round1S2) :=
  ⟨by decide, by decide, by decide, by decide, prepareRound_eq_refill cfgS2 round1S2⟩

/-- C19 as amended. In every `prepareRound` the `prevWindowSize` handed to `refill` is
the size of the worklist of the round just finished, that is the number of Contexts
that round attempted (its `currWL` after `prepareRound`), and 0 in the first round. -/
theorem prevWindowSize_is_attempts (cfg : Config T σ) (user : σ) (range : List T) (n : Nat) :
    prevWindowSizeOf (fill_initial cfg (initState user) range) = 0
    ∧ prevWindowSizeOf (loopHead cfg (n + 1) (fill_initial cfg (initState user) range))
        = (afterPrepare cfg n (fill_initial cfg (initState user) range)).currWL.length
    ∧ (expandNhood cfg (afterPrepare cfg n (fill_initial cfg (initState user) range))).total
        = (afterPrepare cfg n (fill_initial cfg (initState user) range)).total
          + prevWindowSizeOf (loopHead cfg (n + 1) (fill_initial cfg (initState user) range))
    ∧ afterPrepare cfg (n + 1) (fill_initial cfg (initState user) range)
        = refill cfg
            (prepareRoundHead (loopHead cfg (n + 1) (fill_initial cfg (initState user) range)))
            (currCommitsOf (loopHead cfg (n + 1) (fill_initial cfg (initState user) range)))
            (prevWindowSizeOf (loopHead cfg (n + 1) (fill_initial cfg (initState user) range))) := by
  refine ⟨rfl, prevWindowSizeOf_loopHead cfg n _, ?_, ?_⟩
  · rw [prevWindowSizeOf_loopHead]
    exact expandNhood_total cfg range.length _
      (afterPrepare_tracked cfg range.length n _ (tracked_fill_initial cfg user range)).1
  · rw [afterPrepare_eq]
    exact prepareRound_eq_refill cfg _

/-- C20 (the commit ratio). The `currCommits` handed to `refill` in the round after
round `n + 1` is the number of commits of that round, `prevWindowSize` is the number of
Contexts it attempted (the size of its `currWL`); so `currCommits <= prevWindowSize`,
and when the round attempted something the ratio lies between 0 and 1. After each
`prepareRound`, `prevCommits` equals `numCommitted`. -/
theorem commit_ratio_of_round (cfg : Config T σ) (user : σ) (range : List T) (n : Nat) :
    (afterPrepare cfg n (fill_initial cfg (initState user) range)).prevCommits
        = (afterPrepare cfg n (fill_initial cfg (initState user) range)).numCommitted
    ∧ (afterPrepare cfg n (fill_initial cfg (initState user) range)).numCommitted
        ≤ (loopHead cfg (n + 1) (fill_initial cfg (initState user) range)).numCommitted
    ∧ currCommitsOf (loopHead cfg (n + 1) (fill_initial cfg (initState user) range))
        = (loopHead cfg (n + 1) (fill_initial cfg (initState user) range)).numCommitted
          - (afterPrepare cfg n (fill_initial cfg (initState user) range)).numCommitted
    ∧ prevWindowSizeOf (loopHead cfg (n + 1) (fill_initial cfg (initState user) range))
        = (afterPrepare cfg n (fill_initial cfg (initState user) range)).currWL.length
    ∧ currCommitsOf (loopHead cfg (n + 1) (fill_initial cfg (initState user) range))
        ≤ prevWindowSizeOf (loopHead cfg (n + 1) (fill_initial cfg (initState user) range))
    ∧ ((afterPrepare cfg n (fill_initial cfg (initState user) range)).currWL ≠ [] →
        0 < prevWindowSizeOf (loopHead cfg (n + 1) (fill_initial cfg (initState user) range))
        ∧ (0 : ℚ) ≤ (currCommitsOf (loopHead cfg (n + 1)
              (fill_initial cfg (initState user) range)) : ℚ)
            / (prevWindowSizeOf (loopHead cfg (n + 1)
              (fill_initial cfg (initState user) range)) : ℚ)
        ∧ (currCommitsOf (loopHead cfg (n + 1)
              (fill_initial cfg (initState user) range)) : ℚ)
            / (prevWindowSizeOf (loopHead cfg (n + 1)
              (fill_initial cfg (initState user) range)) : ℚ) ≤ 1) := by
  have hI := tracked_fill_initial cfg user range
  have hp := loopHead_prevCommits cfg range.length n _ hI (Nat.le_refl 0)
  have hs := loopHead_step_counters cfg range.length n _ hI
  have hw := prevWindowSizeOf_loopHead cfg n (fill_initial cfg (initState user) range)
  have en : (afterPrepare cfg n (fill_initial cfg (initState user) range)).numCommitted
      = (loopHead cfg n (fill_initial cfg (initState user) range)).numCommitted := by
    rw [afterPrepare_eq, prepareRound_numCommitted]
  have hc : currCommitsOf (loopHead cfg (n + 1) (fill_initial cfg (initState user) range))
      = (loopHead cfg (n + 1) (fill_initial cfg (initState user) range)).numCommitted
        - (afterPrepare cfg n (fill_initial cfg (initState user) range)).numCommitted := by
    unfold currCommitsOf
    rw [hp.2.2, en]
  have hle : currCommitsOf (loopHead cfg (n + 1) (fill_initial cfg (initState user) range))
      ≤ prevWindowSizeOf (loopHead cfg (n + 1) (fill_initial cfg (initState user) range)) := by
    rw [hc, hw, en]
    have := hs.2.2.2
    omega
  refine ⟨hp.2.1, by rw [en]; exact hs.2.2.1, hc, hw, hle, fun hne => ?_⟩
  have hpos : 0 < prevWindowSizeOf
      (loopHead cfg (n + 1) (fill_initial cfg (initState user) range)) := by
    rw [hw]
    exact List.length_pos.mpr hne
  exact ⟨hpos, div_nonneg (Nat.cast_nonneg _) (Nat.cast_nonneg _), ratio_le_one hle hpos⟩

/-! ## The effect of `spillAll` -/

theorem WindowWL.perm_push (cmp : T → T → Bool) (x : T) (w : List T) :
    (WindowWL.push cmp x w).Perm (x :: w) := by
  induction w with
  | nil => exact List.Perm.refl _
  | cons y ys ih =>
    unfold WindowWL.push
    split
    · exact List.Perm.refl _
    · exact (List.Perm.cons y ih).trans (List.Perm.swap x y ys)

theorem spillOne_fold_effect (cfg : Config T σ) (ps : List CtxtPtr) (st : State T σ)
    (hlive : ∀ p ∈ ps, ∃ c, st.heap p = some c) (hnodup : ps.Nodup) :
    (∀ p ∈ ps, (ps.foldl (spillOne cfg) st).heap p = none)
    ∧ (∀ p, p ∉ ps → (ps.foldl (spillOne cfg) st).heap p = st.heap p)
    ∧ (ps.foldl (spillOne cfg) st).winWL.Perm
        (st.winWL ++ ps.filterMap (fun p => (st.heap p).map (fun c => c.elem))) := by
  induction ps generalizing st with
  | nil => simp
  | cons p ps ih =>
    obtain ⟨c, hc⟩ := hlive p (List.mem_cons_self p ps)
    have hnp : p ∉ ps := (List.nodup_cons.mp hnodup).1
    have hs : spillOne cfg st p
        = { st with winWL := WindowWL.push cfg.cmp c.elem st.winWL,
                    heap := destroyCtxt p st.heap } := by
      simp [spillOne, hc]
    have hheap : ∀ q, q ≠ p → (spillOne cfg st p).heap q = st.heap q := by
      intro q hq
      rw [hs]
      simp [destroyCtxt, hq]
    have hlive' : ∀ q ∈ ps, ∃ d, (spillOne cfg st p).heap q = some d := by
      intro q hq
      rw [hheap q (fun h => hnp (h ▸ hq))]
      exact hlive q (List.mem_cons_of_mem p hq)
    obtain ⟨i1, i2, i3⟩ := ih (spillOne cfg st p) hlive' (List.nodup_cons.mp hnodup).2
    simp only [List.foldl_cons]
    refine ⟨?_, ?_, ?_⟩
    · intro q hq
      rcases List.mem_cons.mp hq with rfl | hq
      · rw [i2 q hnp, hs]
        simp [destroyCtxt]
      · exact i1 q hq
    · intro q hq
      have hq1 : q ≠ p := fun h => hq (h ▸ List.mem_cons_self p ps)
      have hq2 : q ∉ ps := fun h => hq (List.mem_cons_of_mem p h)
      rw [i2 q hq2, hheap q hq1]
    · have hfm : ps.filterMap (fun q => ((spillOne cfg st p).heap q).map (fun c => c.elem))
          = ps.filterMap (fun q => (st.heap q).map (fun c => c.elem)) := by
        apply List.filterMap_congr
        intro q hq
        rw [hheap q (fun h => hnp (h ▸ hq))]
      rw [hfm] at i3
      have hw : (spillOne cfg st p).winWL = WindowWL.push cfg.cmp c.elem st.winWL := by
        rw [hs]
      rw [hw] at i3
      refine i3.trans ?_
      simp only [List.filterMap_cons, hc, Option.map_some']
      exact ((WindowWL.perm_push cfg.cmp c.elem st.winWL).append_right _).trans
        (List.perm_middle.symm)

/-- C18 (effect of `spillAll`). When the worklist holds live Contexts, each once:
after `spillAll (wl)` the worklist is empty, every Context that was in it is destroyed
(no other Context is touched), `winWL` holds its previous elements and the items of
those Contexts, each as often as before, and when the worklist was not empty `winWL`
is not empty (the closing assertion). -/
theorem spillAll_effect (cfg : Config T σ) (st : State T σ)
    (hlive : ∀ p ∈ st.currWL, ∃ c, st.heap p = some c) (hnodup : st.currWL.Nodup) :
    (spillAll cfg st).currWL = []
    ∧ (∀ p ∈ st.currWL, (spillAll cfg st).heap p = none)
    ∧ (∀ p, p ∉ st.currWL → (spillAll cfg st).heap p = st.heap p)
    ∧ (spillAll cfg st).winWL.Perm (st.winWL ++ currItems st)
    ∧ (spillAll cfg st).winWL.length = st.winWL.length + st.currWL.length
    ∧ (st.currWL ≠ [] → WindowWL.empty (spillAll cfg st).winWL = false) := by
  obtain ⟨h1, h2, h3⟩ := spillOne_fold_effect cfg st.currWL.reverse st
    (fun p hp => hlive p (List.mem_reverse.mp hp)) (List.nodup_reverse.mpr hnodup)
  have hperm : (spillAll cfg st).winWL.Perm (st.winWL ++ currItems st) := by
    refine h3.trans (List.Perm.append_left _ ?_)
    unfold currItems
    exact (List.reverse_perm st.currWL).filterMap _
  have hitems : (currItems st).length = st.currWL.length := by
    unfold currItems
    have : ∀ l : List CtxtPtr, (∀ p ∈ l, ∃ c, st.heap p = some c) →
        (l.filterMap (fun p => (st.heap p).map (fun c => c.elem))).length = l.length := by
      intro l
      induction l with
      | nil => intro _; rfl
      | cons a l ih =>
        intro hl
        obtain ⟨c, hc⟩ := hl a (List.mem_cons_self a l)
        simp only [List.filterMap_cons, hc, Option.map_some', List.length_cons]
        rw [ih (fun p hp => hl p (List.mem_cons_of_mem a hp))]
    exact this st.currWL hlive
  have hlen : (spillAll cfg st).winWL.length = st.winWL.length + st.currWL.length := by
    rw [hperm.length_eq, List.length_append, hitems]
  refine ⟨rfl, fun p hp => h1 p (List.mem_reverse.mpr hp),
    fun p hp => h2 p (fun h => hp (List.mem_reverse.mp h)), hperm, hlen, fun hne => ?_⟩
  have hpos : 0 < st.currWL.length := List.length_pos.mpr hne
  cases hw : (spillAll cfg st).winWL with
  | nil => rw [hw] at hlen; simp at hlen; omega
  | cons a l => rfl

theorem spillAll_effect_witness :
    refillInputS4.currWL = [1]
    ∧ refillInputS4.winWL = []
    ∧ (spillAll cfgS4 refillInputS4).currWL = []
    ∧ (spillAll cfgS4 refillInputS4).heap 1 = none
    ∧ (spillAll cfgS4 refillInputS4).winWL.Perm ([] ++ [9]) := by
  have hl : ∀ p ∈ refillInputS4.currWL, ∃ c, refillInputS4.heap p = some c := by
    intro p hp
    have hc : refillInputS4.currWL = [1] := by decide
    rw [hc, List.mem_singleton] at hp
    subst hp
    exact ⟨{ elem := 9, source := true }, rfl⟩
  have h := spillAll_effect cfgS4 refillInputS4 hl (by decide)
  exact ⟨by decide, by decide, h.1, h.2.1 1 (by decide), h.2.2.2.1⟩

/-! ## The spill decision and the adaptive law of `refill` -/

set_option maxRecDepth 100000 in
/-- C12 counterexample. The run of `cfgBurst` (an operator that does not push) on the
range 1..7: the fourth `refill` finds `winWL` empty and three Contexts carried over,
more than the new `windowSize = 1`, and spills nothing. -/
theorem no_spill_without_push :
    cfgBurst.NeedsPush = false
    ∧ (prepareRoundHead round3Burst).winWL = []
    ∧ (prepareRoundHead round3Burst).currWL.length = 3
    ∧ (refillBeforePoll cfgBurst (prepareRoundHead round3Burst) (currCommitsOf round3Burst)
        (prevWindowSizeOf round3Burst)).windowSize = 1
    ∧ (refillBeforePoll cfgBurst (prepareRoundHead round3Burst) (currCommitsOf round3Burst)
        (prevWindowSizeOf round3Burst)).currWL.length = 3
    ∧ (refillBeforePoll cfgBurst (prepareRoundHead round3Burst) (currCommitsOf round3Burst)
        (prevWindowSizeOf round3Burst)).winWL = [] := by
  decide

/-- C12 as amended. `refill` spills the whole worklist exactly when the operator may
push and either `winWL` is empty and the worklist holds more than `windowSize`
Contexts, or the worklist holds more than `8 * windowSize` Contexts, with `windowSize`
the freshly computed, clamped value (whose eightfold is taken to fit `size_t`); in
every other case the worklist, `winWL` and the Contexts are left as they are. -/
theorem refill_spill_condition (cfg : Config T σ) (st : State T σ)
    (currCommits prevWindowSize : Nat)
    (hfit : WIN_OVER_SIZE_FACTOR
      * refillClamp cfg (refillRule cfg st currCommits prevWindowSize) < 2 ^ 64) :
    ((cfg.NeedsPush = true
        ∧ ((st.winWL = []
            ∧ refillClamp cfg (refillRule cfg st currCommits prevWindowSize) < st.currWL.length)
          ∨ 8 * refillClamp cfg (refillRule cfg st currCommits prevWindowSize)
              < st.currWL.length)) →
      refillBeforePoll cfg st currCommits prevWindowSize
        = spillAll cfg
            { st with windowSize := refillClamp cfg (refillRule cfg st currCommits prevWindowSize) })
    ∧ (¬ (cfg.NeedsPush = true
        ∧ ((st.winWL = []
            ∧ refillClamp cfg (refillRule cfg st currCommits prevWindowSize) < st.currWL.length)
          ∨ 8 * refillClamp cfg (refillRule cfg st currCommits prevWindowSize)
              < st.currWL.length)) →
      refillBeforePoll cfg st currCommits prevWindowSize
        = { st with windowSize := refillClamp cfg (refillRule cfg st currCommits prevWindowSize) }) := by
  have h8 : toSizeT (WIN_OVER_SIZE_FACTOR
      * refillClamp cfg (refillRule cfg st currCommits prevWindowSize))
      = 8 * refillClamp cfg (refillRule cfg st currCommits prevWindowSize) :=
    toSizeT_of_lt hfit
  have hempty : ∀ w : List T, WindowWL.empty w = true ↔ w = [] := by
    intro w; cases w <;> simp [WindowWL.empty]
  constructor
  · rintro ⟨hnp, hor⟩
    unfold refillBeforePoll refillSpill
    simp only [hnp, if_true, h8]
    rcases hor with ⟨hw, hlt⟩ | hlt
    · rw [if_pos (by simp [(hempty _).mpr hw, hlt])]
    · split <;> rfl
  · intro hneg
    unfold refillBeforePoll refillSpill
    cases hnp : cfg.NeedsPush with
    | false => simp
    | true =>
      simp only [if_true, h8]
      have h1 : ¬ (st.winWL = []
          ∧ refillClamp cfg (refillRule cfg st currCommits prevWindowSize) < st.currWL.length) :=
        fun h => hneg ⟨hnp, Or.inl h⟩
      have h2 : ¬ (8 * refillClamp cfg (refillRule cfg st currCommits prevWindowSize)
          < st.currWL.length) := fun h => hneg ⟨hnp, Or.inr h⟩
      rw [if_neg, if_neg h2]
      intro hc
      simp only [Bool.and_eq_true, decide_eq_true_eq] at hc
      exact h1 ⟨(hempty _).mp hc.1, hc.2⟩

theorem refill_spill_condition_witness :
    WIN_OVER_SIZE_FACTOR * refillClamp cfgS4 (refillRule cfgS4 refillInputS4 1 1) < 2 ^ 64
    ∧ refillClamp cfgS4 (refillRule cfgS4 refillInputS4 1 1) = 32
    ∧ refillBeforePoll cfgS4 refillInputS4 1 1 = { refillInputS4 with windowSize := 32 } := by
  have hw : refillClamp cfgS4 (refillRule cfgS4 refillInputS4 1 1) = 32 := by decide
  have h := (refill_spill_condition cfgS4 refillInputS4 1 1 (by decide)).2 (by decide)
  rw [hw] at h
  exact ⟨by decide, hw, h⟩

theorem refill_windowSize_shrink (cfg : Config T σ) (st : State T σ) (c p : Nat) (hp : p ≠ 0)
    (hlt : cfg.commitRatioGE c p = false) :
    (refill cfg st c p).windowSize
      = max (toSizeT (cfg.shrinkWindow st.windowSize c p)) (MIN_WIN_SIZE cfg) := by
  unfold refill
  rw [poll_windowSize, refillBeforePoll_windowSize, refillClamp_eq_max]
  unfold refillRule
  rw [if_neg hp, hlt]
  simp

/-! ## The run of the unstable executor -/

theorem unstableHead_shift (cfg : Config T σ)
    (nhFunc : σ → CtxtPtr → T → List T → NhResult σ) (serialLoop : σ → T → σ) (n : Nat)
    (st : State T σ) :
    unstableHead cfg nhFunc serialLoop n (unstableBody cfg nhFunc serialLoop (prepareRound cfg st))
      = unstableHead cfg nhFunc serialLoop (n + 1) st := by
  induction n with
  | zero => rfl
  | succ n ih =>
    show unstableBody cfg nhFunc serialLoop (prepareRound cfg
      (unstableHead cfg nhFunc serialLoop n _)) = _
    rw [ih]
    rfl

/-- What `execute_unstable` returns is the state after `prepareRound` at the head of
the loop after some number of rounds. -/
theorem execute_unstable_returns (cfg : Config T σ)
    (nhFunc : σ → CtxtPtr → T → List T → NhResult σ) (serialLoop : σ → T → σ) (fuel : Nat)
    (st s : State T σ) (h : execute_unstable cfg nhFunc serialLoop fuel st = some s) :
    ∃ n, n < fuel ∧ s = prepareRound cfg (unstableHead cfg nhFunc serialLoop n st)
      ∧ s.currWL = [] := by
  induction fuel generalizing st with
  | zero => simp [execute_unstable] at h
  | succ fuel ih =>
    unfold execute_unstable at h
    simp only [] at h
    split at h
    · rename_i he
      simp only [Option.some.injEq] at h
      refine ⟨0, Nat.succ_pos _, h.symm, ?_⟩
      rw [← h]
      exact List.isEmpty_iff.mp he
    · obtain ⟨n, hn, hs, hc⟩ := ih _ h
      refine ⟨n + 1, Nat.succ_lt_succ hn, ?_, hc⟩
      rw [hs, unstableHead_shift]

end KDGtwoPhase

namespace DistGraphCartesianCut

/-! ## `factorizeHosts` -/

theorem factorizeLoop_spec (n : Nat) (c : Nat) (hc : 1 ≤ c) :
    ∃ d, factorizeLoop n c = some d ∧ 1 ≤ d ∧ d ≤ c ∧ d ∣ n
      ∧ ∀ e, d < e → e ≤ c → ¬ e ∣ n := by
  induction c with
  | zero => omega
  | succ c ih =>
    unfold factorizeLoop
    by_cases hm : n % (c + 1) = 0
    · rw [if_neg (by simpa using hm)]
      exact ⟨c + 1, rfl, hc, Nat.le_refl _, Nat.dvd_of_mod_eq_zero hm, fun e h1 h2 => by omega⟩
    · rw [if_pos hm]
      have hc1 : 1 ≤ c := by
        rcases Nat.eq_zero_or_pos c with h0 | h0
        · subst h0; exact absurd (Nat.mod_one n) hm
        · exact h0
      obtain ⟨d, h1, h2, h3, h4, h5⟩ := ih hc1
      refine ⟨d, h1, h2, Nat.le_succ_of_le h3, h4, fun e he1 he2 hdiv => ?_⟩
      rcases Nat.lt_or_ge c e with h | h
      · have : e = c + 1 := by omega
        subst this
        exact hm (Nat.mod_eq_zero_of_dvd hdiv)
      · exact h5 e he1 h hdiv

theorem floorSqrtBelow_spec (n : Nat) (b : Nat) :
    floorSqrtBelow n b ≤ b ∧ floorSqrtBelow n b * floorSqrtBelow n b ≤ n
      ∧ ∀ k, k ≤ b → k * k ≤ n → k ≤ floorSqrtBelow n b := by
  induction b with
  | zero => exact ⟨Nat.le_refl _, Nat.zero_le _, fun k hk _ => hk⟩
  | succ b ih =>
    unfold floorSqrtBelow
    split
    · rename_i hle
      exact ⟨Nat.le_refl _, hle, fun k hk _ => hk⟩
    · rename_i hnle
      refine ⟨Nat.le_succ_of_le ih.1, ih.2.1, fun k hk hkk => ?_⟩
      rcases Nat.lt_or_ge b k with hlt | hge
      · have : k = b + 1 := by omega
        subst this
        exact absurd hkk hnle
      · exact ih.2.2 k hge hkk

/-- The truncated root is the integer square root. -/
theorem floorSqrt_eq_sqrt (n : Nat) : floorSqrt n = Nat.sqrt n := by
  have hs := floorSqrtBelow_spec n n
  apply Nat.le_antisymm
  · exact Nat.le_sqrt.mpr hs.2.1
  · exact hs.2.2 _ (Nat.sqrt_le_self n) (Nat.sqrt_le n)

theorem columnsBeforeSwap_spec (numHosts : Nat) (h : 1 ≤ numHosts) :
    ∃ c, columnsBeforeSwap numHosts = some c ∧ 1 ≤ c ∧ c ≤ Nat.sqrt numHosts ∧ c ∣ numHosts
      ∧ ∀ e, e ∣ numHosts → e ≤ Nat.sqrt numHosts → e ≤ c := by
  have hs : floorSqrt numHosts = Nat.sqrt numHosts := floorSqrt_eq_sqrt numHosts
  unfold columnsBeforeSwap
  rw [hs]
  obtain ⟨d, h1, h2, h3, h4, h5⟩ :=
    factorizeLoop_spec numHosts (Nat.sqrt numHosts) (Nat.sqrt_pos.mpr h)
  refine ⟨d, h1, h2, h3, h4, fun e he1 he2 => ?_⟩
  rcases Nat.lt_or_ge d e with hlt | hge
  · exact absurd he1 (h5 e hlt he2)
  · exact hge

/-- C14 (`factorizeHosts` factorizes the host count). For every `numHosts >= 1` and
both values of `moreColumnHosts` the loop ends and leaves
`numRowHosts * numColumnHosts == numHosts` with both factors at least 1. -/
theorem factorizeHosts_factorizes (moreColumnHosts : Bool) (numHosts : Nat)
    (h : 1 ≤ numHosts) :
    ∃ r c, factorizeHosts moreColumnHosts numHosts = some (r, c)
      ∧ r * c = numHosts ∧ 1 ≤ r ∧ 1 ≤ c := by
  obtain ⟨d, h1, h2, h3, h4, _⟩ := columnsBeforeSwap_spec numHosts h
  have hmul : numHosts / d * d = numHosts := Nat.div_mul_cancel h4
  have hq : 1 ≤ numHosts / d := by
    rcases Nat.eq_zero_or_pos (numHosts / d) with h0 | h0
    · rw [h0] at hmul; omega
    · exact h0
  unfold factorizeHosts
  rw [h1]
  cases moreColumnHosts with
  | false => exact ⟨numHosts / d, d, rfl, hmul, hq, h2⟩
  | true => exact ⟨d, numHosts / d, rfl, by rw [Nat.mul_comm]; exact hmul, h2, hq⟩

theorem factorizeHosts_factorizes_witness :
    1 ≤ 12 ∧ factorizeHosts false 12 = some (4, 3) ∧ factorizeHosts true 12 = some (3, 4)
    ∧ ∃ r c, factorizeHosts true 12 = some (r, c) ∧ r * c = 12 ∧ 1 ≤ r ∧ 1 ≤ c :=
  ⟨by decide, by decide, by decide, factorizeHosts_factorizes true 12 (by decide)⟩

/-- C15 (`factorizeHosts` minimizes the difference of the factors). For every
`numHosts >= 1`, `numColumnHosts` before the swap is the largest divisor of `numHosts`
not above the integer square root of `numHosts`; hence
`numRowHosts >= numColumnHosts` (the assertion of line 68), and
`numRowHosts - numColumnHosts <= |a - b|` for every pair with `a * b == numHosts`. -/
theorem factorizeHosts_minimizes (numHosts : Nat) (h : 1 ≤ numHosts) :
    ∃ c, columnsBeforeSwap numHosts = some c
      ∧ factorizeHosts false numHosts = some (numHosts / c, c)
      ∧ c ∣ numHosts ∧ c ≤ Nat.sqrt numHosts
      ∧ (∀ e, e ∣ numHosts → e ≤ Nat.sqrt numHosts → e ≤ c)
      ∧ c ≤ numHosts / c
      ∧ ∀ a b : Nat, a * b = numHosts →
          numHosts / c - c ≤ Int.natAbs ((a : Int) - (b : Int)) := by
  obtain ⟨d, h1, h2, h3, h4, h5⟩ := columnsBeforeSwap_spec numHosts h
  have hdd : d * d ≤ numHosts := Nat.le_sqrt.mp h3
  have hle : d ≤ numHosts / d := (Nat.le_div_iff_mul_le (by omega)).mpr hdd
  have key : ∀ a b, a * b = numHosts → a ≤ b → numHosts / d - d ≤ b - a := by
    intro a b hab hle'
    have ha : 1 ≤ a := by
      rcases Nat.eq_zero_or_pos a with h0 | h0
      · subst h0; simp at hab; omega
      · exact h0
    have haa : a * a ≤ numHosts := by
      rw [← hab]; exact Nat.mul_le_mul_left a hle'
    have had : a ≤ d := h5 a ⟨b, hab.symm⟩ (Nat.le_sqrt.mpr haa)
    have hb : b = numHosts / a := by
      rw [← hab, Nat.mul_div_cancel_left b ha]
    have hbd : numHosts / d ≤ b := by
      rw [hb]; exact Nat.div_le_div_left had ha
    omega
  refine ⟨d, h1, by unfold factorizeHosts; rw [h1]; rfl, h4, h3, h5, hle, fun a b hab => ?_⟩
  rcases Nat.le_total a b with hle' | hle'
  · have := key a b hab hle'
    omega
  · have := key b a (by rw [Nat.mul_comm]; exact hab) hle'
    omega

theorem factorizeHosts_minimizes_witness :
    1 ≤ 12 ∧ columnsBeforeSwap 12 = some 3
    ∧ ∃ c, columnsBeforeSwap 12 = some c
      ∧ factorizeHosts false 12 = some (12 / c, c)
      ∧ c ∣ 12 ∧ c ≤ Nat.sqrt 12
      ∧ (∀ e, e ∣ 12 → e ≤ Nat.sqrt 12 → e ≤ c)
      ∧ c ≤ 12 / c
      ∧ ∀ a b : Nat, a * b = 12 → 12 / c - c ≤ Int.natAbs ((a : Int) - (b : Int)) :=
  ⟨by decide, by decide, factorizeHosts_minimizes 12 (by decide)⟩

/-! ## Communication partners -/

theorem bne_swap (a b : Nat) : (a != b) = (b != a) := by
  by_cases h : a = b
  · rw [h]
  · have h1 : (a != b) = true := by simpa using h
    have h2 : (b != a) = true := by simpa using Ne.symm h
    rw [h1, h2]

theorem isNotCommunicationPartner_symm (numColumnHosts : Nat) (transposed : Bool) (x y : Nat)
    (syncType : SyncType) (writeLocation : WriteLocation) (readLocation : ReadLocation) :
    isNotCommunicationPartner numColumnHosts transposed x y syncType writeLocation readLocation
      = isNotCommunicationPartner numColumnHosts transposed y x syncType writeLocation
          readLocation := by
  have hr : (gridRowID numColumnHosts x != gridRowID numColumnHosts y)
      = (gridRowID numColumnHosts y != gridRowID numColumnHosts x) := bne_swap _ _
  have hc : (gridColumnID numColumnHosts x != gridColumnID numColumnHosts y)
      = (gridColumnID numColumnHosts y != gridColumnID numColumnHosts x) := bne_swap _ _
  unfold isNotCommunicationPartner
  cases transposed <;> cases syncType <;> cases writeLocation <;> cases readLocation <;>
    simp only [hr, hc, Bool.false_eq_true, if_false, if_true]

/-- C16 (send/receive agreement). For two hosts `X` and `Y` of one grid and every
`syncType`, `writeLocation`, `readLocation` and `transposed` flag,
`isNotCommunicationPartner` on `X` for `Y` equals `isNotCommunicationPartner` on `Y` for
`X`; and when the mirror (master) list of `X` for `Y` is non-empty exactly when the
master (mirror) list of `Y` for `X` is, `nothingToSend (Y)` on `X` equals
`nothingToRecv (X)` on `Y`. -/
theorem nothingToSend_iff_nothingToRecv (numColumnHosts : Nat) (transposed : Bool)
    (X Y : HostView) (syncType : SyncType) (writeLocation : WriteLocation)
    (readLocation : ReadLocation)
    (hmirror : (X.mirrorNodes Y.id).length > 0 ↔ (Y.masterNodes X.id).length > 0)
    (hmaster : (X.masterNodes Y.id).length > 0 ↔ (Y.mirrorNodes X.id).length > 0) :
    isNotCommunicationPartner numColumnHosts transposed X.id Y.id syncType writeLocation
        readLocation
      = isNotCommunicationPartner numColumnHosts transposed Y.id X.id syncType writeLocation
          readLocation
    ∧ nothingToSend numColumnHosts transposed X Y.id syncType writeLocation readLocation
      = nothingToRecv numColumnHosts transposed Y X.id syncType writeLocation readLocation := by
  have hs := isNotCommunicationPartner_symm numColumnHosts transposed X.id Y.id syncType
    writeLocation readLocation
  refine ⟨hs, ?_⟩
  unfold nothingToSend nothingToRecv
  cases syncType with
  | syncReduce =>
    simp only [if_true]
    by_cases h : (X.mirrorNodes Y.id).length > 0
    · rw [if_pos h, if_pos (hmirror.mp h), hs]
    · rw [if_neg h, if_neg (fun h' => h (hmirror.mpr h'))]
  | syncBroadcast =>
    have hne : ¬ (SyncType.syncBroadcast = SyncType.syncReduce) := by decide
    simp only [hne, if_false]
    by_cases h : (X.masterNodes Y.id).length > 0
    · rw [if_pos h, if_pos (hmaster.mp h), hs]
    · rw [if_neg h, if_neg (fun h' => h (hmaster.mpr h'))]

theorem nothingToSend_iff_nothingToRecv_witness :
    nothingToSend 2 false (hostViewExample 0) 1 SyncType.syncReduce WriteLocation.writeSource
        ReadLocation.readAny = false
    ∧ nothingToSend 2 false (hostViewExample 0) 1 SyncType.syncReduce WriteLocation.writeSource
        ReadLocation.readAny
      = nothingToRecv 2 false (hostViewExample 1) 0 SyncType.syncReduce
          WriteLocation.writeSource ReadLocation.readAny :=
  ⟨by decide,
    (nothingToSend_iff_nothingToRecv 2 false (hostViewExample 0) (hostViewExample 1)
      SyncType.syncReduce WriteLocation.writeSource ReadLocation.readAny
      (by decide) (by decide)).2⟩

/-! ## `finalizeNodeMapping`: the maps between local and global ids -/

theorem finalizeStep_spec (l2g : List Nat) (n i : Nat) (s : NodeMaps × List Nat)
    (hl : s.1.localToGlobalVector = l2g) (hlen : l2g.length = n) (hps : s.2.length = n)
    (hi : 1 ≤ i) (hin : i < n) (hnd : l2g.Nodup)
    (hmap : ∀ q v, s.1.globalToLocalMap q = some v ↔ v < i ∧ l2g[v]? = some q) :
    ∃ s1, finalizeStep s i = some s1 ∧ s1.1.localToGlobalVector = l2g ∧ s1.2.length = n
      ∧ ∀ q v, s1.1.globalToLocalMap q = some v ↔ v < i + 1 ∧ l2g[v]? = some q := by
  have h1 : i < s.2.length := by omega
  have h2 : i - 1 < s.2.length := by omega
  have h3 : i < s.1.localToGlobalVector.length := by rw [hl]; omega
  have e1 : s.2[i]? = some s.2[i] := List.getElem?_eq_getElem h1
  have e2 : s.2[i - 1]? = some s.2[i - 1] := List.getElem?_eq_getElem h2
  have e3 : s.1.localToGlobalVector[i]? = some s.1.localToGlobalVector[i] :=
    List.getElem?_eq_getElem h3
  have hg : l2g[i]? = some s.1.localToGlobalVector[i] := by rw [← hl]; exact e3
  have hstep : finalizeStep s i = some
      (NodeMaps.mk s.1.localToGlobalVector
        (mapAssign s.1.globalToLocalMap s.1.localToGlobalVector[i] i) s.1.numNodes
        s.1.numEdges, s.2.set i ((s.2[i] + s.2[i - 1]) % 2 ^ 64)) := by
    unfold finalizeStep
    rw [e1, e2, e3]
  refine ⟨_, hstep, hl, by simp [hps], fun q v => ?_⟩
  simp only [mapAssign]
  constructor
  · intro h
    split at h
    · rename_i hq
      simp only [Option.some.injEq] at h
      subst h
      subst hq
      exact ⟨Nat.lt_succ_self _, hg⟩
    · obtain ⟨hv, hq⟩ := (hmap q v).mp h
      exact ⟨Nat.lt_succ_of_lt hv, hq⟩
  · rintro ⟨hv, hq⟩
    rcases Nat.lt_or_ge v i with hlt | hge
    · have hne : q ≠ s.1.localToGlobalVector[i] := by
        intro he
        have : l2g[v]? = l2g[i]? := by rw [hq, hg, he]
        have := List.getElem?_inj (by omega) hnd this
        omega
      rw [if_neg hne]
      exact (hmap q v).mpr ⟨hlt, hq⟩
    · have hvi : v = i := by omega
      subst hvi
      rw [hg] at hq
      simp only [Option.some.injEq] at hq
      rw [if_pos hq.symm]

theorem finalizeLoop_spec (l2g : List Nat) (n : Nat) (k i : Nat) (s : NodeMaps × List Nat)
    (hl : s.1.localToGlobalVector = l2g) (hlen : l2g.length = n) (hps : s.2.length = n)
    (hi : 1 ≤ i) (hk : i + k = n) (hnd : l2g.Nodup)
    (hmap : ∀ q v, s.1.globalToLocalMap q = some v ↔ v < i ∧ l2g[v]? = some q) :
    ∃ s1, finalizeLoop k i s = some s1 ∧ s1.1.localToGlobalVector = l2g ∧ s1.2.length = n
      ∧ ∀ q v, s1.1.globalToLocalMap q = some v ↔ v < n ∧ l2g[v]? = some q := by
  induction k generalizing i s with
  | zero =>
    have : i = n := by omega
    subst this
    exact ⟨s, rfl, hl, hps, hmap⟩
  | succ k ih =>
    obtain ⟨s1, h1, h2, h3, h4⟩ :=
      finalizeStep_spec l2g n i s hl hlen hps hi (by omega) hnd hmap
    obtain ⟨s2, g1, g2, g3, g4⟩ := ih (i + 1) s1 h2 h3 (by omega) (by omega) h4
    refine ⟨s2, ?_, g2, g3, g4⟩
    unfold finalizeLoop
    rw [h1]
    exact g1

/-- C17 (round trip of local and global ids). When `finalizeNodeMapping` runs on an
empty map and a `localToGlobalVector` of `numNodes` pairwise distinct global ids (and a
prefix vector of that size), it returns, and afterwards `G2L (L2G (lid)) == lid` for
every `lid < numNodes` and `L2G (G2L (gid)) == gid` for every `gid` the map holds. -/
theorem finalizeNodeMapping_roundtrip (g : NodeMaps) (prefixSumOfEdges : List Nat)
    (hempty : ∀ q, g.globalToLocalMap q = none)
    (hsize : g.localToGlobalVector.length = g.numNodes)
    (hps : prefixSumOfEdges.length = g.numNodes)
    (hnd : g.localToGlobalVector.Nodup) :
    ∃ s, finalizeNodeMapping g prefixSumOfEdges = some s
      ∧ s.1.localToGlobalVector = g.localToGlobalVector
      ∧ (∀ lid, lid < g.numNodes → ∃ gid, L2G s.1 lid = some gid ∧ G2L s.1 gid = some lid)
      ∧ (∀ gid lid, G2L s.1 gid = some lid → lid < g.numNodes ∧ L2G s.1 lid = some gid) := by
  unfold finalizeNodeMapping
  by_cases h0 : g.numNodes = 0
  · rw [if_pos h0]
    refine ⟨(g, prefixSumOfEdges), rfl, rfl, fun lid hl => by omega, fun gid lid h => ?_⟩
    simp only [G2L, hempty] at h
    exact absurd h (by simp)
  · rw [if_neg h0]
    have hpos : 0 < g.localToGlobalVector.length := by omega
    have e0 : g.localToGlobalVector[0]? = some g.localToGlobalVector[0] :=
      List.getElem?_eq_getElem hpos
    rw [e0]
    obtain ⟨s1, h1, h2, h3, h4⟩ := finalizeLoop_spec g.localToGlobalVector g.numNodes
      (g.numNodes - 1) 1
      ({ g with globalToLocalMap := mapAssign g.globalToLocalMap g.localToGlobalVector[0] 0 },
        prefixSumOfEdges)
      rfl hsize hps (Nat.le_refl 1) (by omega) hnd (by
        intro q v
        simp only [mapAssign]
        constructor
        · intro h
          split at h
          · rename_i hq
            simp only [Option.some.injEq] at h
            subst h
            subst hq
            exact ⟨Nat.one_pos, e0⟩
          · rw [hempty] at h
            exact absurd h (by simp)
        · rintro ⟨hv, hq⟩
          have hv0 : v = 0 := by omega
          subst hv0
          rw [e0] at hq
          simp only [Option.some.injEq] at hq
          rw [if_pos hq.symm])
    simp only [h1]
    have hlt1 : s1.2.length - 1 < s1.2.length := by omega
    have hlast : s1.2.getLast? = some s1.2[s1.2.length - 1] := by
      rw [List.getLast?_eq_getElem?]
      exact List.getElem?_eq_getElem hlt1
    rw [hlast]
    refine ⟨(NodeMaps.mk s1.1.localToGlobalVector s1.1.globalToLocalMap s1.1.numNodes
      s1.2[s1.2.length - 1], s1.2), rfl, h2, fun lid hl => ?_, fun gid lid h => ?_⟩
    · have hlt : lid < g.localToGlobalVector.length := by omega
      refine ⟨g.localToGlobalVector[lid], ?_, ?_⟩
      · simp only [L2G, h2]
        exact List.getElem?_eq_getElem hlt
      · simp only [G2L]
        exact (h4 _ _).mpr ⟨hl, List.getElem?_eq_getElem hlt⟩
    · simp only [G2L] at h
      obtain ⟨hv, hq⟩ := (h4 gid lid).mp h
      exact ⟨hv, by simp only [L2G, h2]; exact hq⟩

theorem finalizeNodeMapping_roundtrip_witness :
    (∀ q, nodeMapsExample.globalToLocalMap q = none)
    ∧ nodeMapsExample.localToGlobalVector.Nodup
    ∧ (finalizeNodeMapping nodeMapsExample [2, 3, 4]).map
        (fun s => ([0, 1, 2].map (L2G s.1), [10, 4, 7, 5].map (G2L s.1)))
        = some ([some 10, some 4, some 7], [some 0, some 1, some 2, none])
    ∧ ∃ s, finalizeNodeMapping nodeMapsExample [2, 3, 4] = some s
      ∧ s.1.localToGlobalVector = nodeMapsExample.localToGlobalVector
      ∧ (∀ lid, lid < nodeMapsExample.numNodes →
          ∃ gid, L2G s.1 lid = some gid ∧ G2L s.1 gid = some lid)
      ∧ (∀ gid lid, G2L s.1 gid = some lid →
          lid < nodeMapsExample.numNodes ∧ L2G s.1 lid = some gid) :=
  ⟨fun _ => rfl, by decide, by decide,
    finalizeNodeMapping_roundtrip nodeMapsExample [2, 3, 4] (fun _ => rfl) rfl rfl (by decide)⟩

/-! ## `is_vertex_cut` -/

theorem columnsBeforeSwap_eq_one_iff (numHosts : Nat) (h : 1 ≤ numHosts) (c : Nat)
    (hc : columnsBeforeSwap numHosts = some c) :
    c = 1 ↔ (numHosts = 1 ∨ Nat.Prime numHosts) := by
  obtain ⟨d, h1, h2, h3, h4, h5⟩ := columnsBeforeSwap_spec numHosts h
  rw [hc] at h1
  have hcd : c = d := Option.some.inj h1
  subst hcd
  constructor
  · intro hc1
    by_cases hn : numHosts = 1
    · exact Or.inl hn
    · right
      by_contra hnp
      have hpos : 0 < numHosts := h
      have hsq := Nat.minFac_sq_le_self hpos hnp
      have hdiv := Nat.minFac_dvd numHosts
      have h2le : 2 ≤ Nat.minFac numHosts := (Nat.minFac_prime hn).two_le
      have hle : Nat.minFac numHosts ≤ Nat.sqrt numHosts := by
        rw [Nat.le_sqrt, ← Nat.pow_two]
        exact hsq
      have := h5 _ hdiv hle
      omega
  · rintro (hn | hp)
    · subst hn
      have : Nat.sqrt 1 = 1 := by decide
      omega
    · rcases (Nat.dvd_prime hp).mp h4 with h1' | hn
      · exact h1'
      · have hlt : Nat.sqrt numHosts < numHosts := Nat.sqrt_lt_self hp.one_lt
        omega

/-- C27 (`is_vertex_cut` after `factorizeHosts`). For `numHosts >= 1`: without
`moreColumnHosts`, `is_vertex_cut ()` returns true exactly when `numHosts` is
composite, that is false exactly when `numHosts` is 1 or a prime; with
`moreColumnHosts` it returns false exactly when `numHosts == 1`. -/
theorem is_vertex_cut_iff_composite (numHosts : Nat) (h : 1 ≤ numHosts) :
    (∃ b, vertexCutOfHosts false numHosts = some b
      ∧ (b = true ↔ (1 < numHosts ∧ ¬ Nat.Prime numHosts))
      ∧ (b = false ↔ (numHosts = 1 ∨ Nat.Prime numHosts)))
    ∧ (∃ b, vertexCutOfHosts true numHosts = some b ∧ (b = false ↔ numHosts = 1)) := by
  obtain ⟨d, h1, h2, h3, h4, h5⟩ := columnsBeforeSwap_spec numHosts h
  have hiff := columnsBeforeSwap_eq_one_iff numHosts h d h1
  have hmul : numHosts / d * d = numHosts := Nat.div_mul_cancel h4
  have hdd : d * d ≤ numHosts := Nat.le_sqrt.mp h3
  have hle : d ≤ numHosts / d := (Nat.le_div_iff_mul_le (by omega)).mpr hdd
  have hfalse : numHosts / d = 1 ∨ d = 1 ↔ (numHosts = 1 ∨ Nat.Prime numHosts) := by
    rw [← hiff]
    constructor
    · rintro (hq | hd)
      · omega
      · exact hd
    · exact Or.inr
  have hone : numHosts / d = 1 ∧ d = 1 ↔ numHosts = 1 := by
    constructor
    · rintro ⟨hq, hd⟩
      rw [hq, hd] at hmul
      omega
    · intro hn
      subst hn
      have : Nat.sqrt 1 = 1 := by decide
      have hd1 : d = 1 := by omega
      subst hd1
      exact ⟨rfl, rfl⟩
  refine ⟨⟨is_vertex_cut false (numHosts / d) d, ?_, ?_, ?_⟩,
    ⟨is_vertex_cut true d (numHosts / d), ?_, ?_⟩⟩
  · unfold vertexCutOfHosts factorizeHosts
    rw [h1]
    rfl
  · unfold is_vertex_cut
    by_cases hc : numHosts / d = 1 ∨ d = 1
    · have hnp := hfalse.mp hc
      simp only [Bool.false_eq_true, if_false, if_pos hc, false_iff, not_and, not_not]
      intro hlt
      rcases hnp with h1' | hp
      · omega
      · exact hp
    · have hnp := fun hx => hc (hfalse.mpr hx)
      simp only [Bool.false_eq_true, if_false, if_neg hc, true_iff]
      refine ⟨?_, fun hp => hnp (Or.inr hp)⟩
      rcases Nat.lt_or_ge 1 numHosts with hlt | hge
      · exact hlt
      · exact absurd (Or.inl (by omega)) hnp
  · unfold is_vertex_cut
    by_cases hc : numHosts / d = 1 ∨ d = 1
    · simp only [Bool.false_eq_true, if_false, if_pos hc, true_iff]
      exact hfalse.mp hc
    · simp only [Bool.false_eq_true, if_false, if_neg hc, Bool.true_eq_false, false_iff]
      exact fun hx => hc (hfalse.mpr hx)
  · unfold vertexCutOfHosts factorizeHosts
    rw [h1]
    rfl
  · unfold is_vertex_cut
    have hone' : d = 1 ∧ numHosts / d = 1 ↔ numHosts = 1 := by
      rw [and_comm]
      exact hone
    by_cases hc : d = 1 ∧ numHosts / d = 1
    · simp only [if_true, if_pos hc, true_iff]
      exact hone'.mp hc
    · simp only [if_true, if_neg hc, Bool.true_eq_false, false_iff]
      exact fun hx => hc (hone'.mpr hx)

theorem is_vertex_cut_iff_composite_witness :
    vertexCutOfHosts false 12 = some true ∧ vertexCutOfHosts false 7 = some false
    ∧ vertexCutOfHosts false 1 = some false ∧ vertexCutOfHosts true 7 = some true
    ∧ vertexCutOfHosts true 1 = some false
    ∧ (∃ b, vertexCutOfHosts false 7 = some b
        ∧ (b = true ↔ (1 < 7 ∧ ¬ Nat.Prime 7)) ∧ (b = false ↔ (7 = 1 ∨ Nat.Prime 7)))
    ∧ (∃ b, vertexCutOfHosts true 7 = some b ∧ (b = false ↔ 7 = 1)) :=
  ⟨by decide, by decide, by decide, by decide, by decide,
    (is_vertex_cut_iff_composite 7 (by decide)).1, (is_vertex_cut_iff_composite 7 (by decide)).2⟩

/-! ## `finalizeNodeMapping`: the prefix sums of the edge counts -/

theorem finalizeStep_prefix (d : List Nat) (n i : Nat) (s : NodeMaps × List Nat)
    (hl : n ≤ s.1.localToGlobalVector.length) (hd : d.length = n) (hps : s.2.length = n)
    (hi : 1 ≤ i) (hin : i < n) (hsum : d.sum < 2 ^ 64)
    (hpre : ∀ j, j < i → s.2[j]? = some (d.take (j + 1)).sum)
    (hrest : ∀ j, i ≤ j → s.2[j]? = d[j]?) :
    ∃ s1, finalizeStep s i = some s1
      ∧ s1.1.localToGlobalVector = s.1.localToGlobalVector
      ∧ s1.1.numNodes = s.1.numNodes ∧ s1.2.length = n
      ∧ (∀ j, j < i + 1 → s1.2[j]? = some (d.take (j + 1)).sum)
      ∧ (∀ j, i + 1 ≤ j → s1.2[j]? = d[j]?) := by
  have h1 : i < s.2.length := by omega
  have h3 : i < s.1.localToGlobalVector.length := by omega
  have hid : i < d.length := by omega
  have e1 : s.2[i]? = some d[i] := by
    rw [hrest i (Nat.le_refl i)]
    exact List.getElem?_eq_getElem hid
  have e2 : s.2[i - 1]? = some (d.take i).sum := by
    have := hpre (i - 1) (by omega)
    rw [this]
    congr 3
    omega
  have e3 : s.1.localToGlobalVector[i]? = some s.1.localToGlobalVector[i] :=
    List.getElem?_eq_getElem h3
  have htake : (d.take (i + 1)).sum = (d.take i).sum + d[i] := by
    rw [List.take_succ, List.getElem?_eq_getElem hid, List.sum_append]
    simp
  have hle : (d.take (i + 1)).sum ≤ d.sum := by
    conv_rhs => rw [← List.take_append_drop (i + 1) d]
    rw [List.sum_append]
    exact Nat.le_add_right _ _
  have hstep : finalizeStep s i = some
      (NodeMaps.mk s.1.localToGlobalVector
        (mapAssign s.1.globalToLocalMap s.1.localToGlobalVector[i] i) s.1.numNodes
        s.1.numEdges, s.2.set i ((d[i] + (d.take i).sum) % 2 ^ 64)) := by
    unfold finalizeStep
    rw [e1, e2, e3]
  refine ⟨_, hstep, rfl, rfl, by simp [hps], fun j hj => ?_, fun j hj => ?_⟩
  · rcases Nat.lt_or_ge j i with hlt | hge
    · rw [List.getElem?_set_ne (by omega)]
      exact hpre j hlt
    · have hji : j = i := by omega
      subst hji
      rw [List.getElem?_set_self h1, htake, Nat.add_comm, Nat.mod_eq_of_lt (by omega)]
  · rw [List.getElem?_set_ne (by omega)]
    exact hrest j (by omega)

theorem finalizeLoop_prefix (d : List Nat) (n : Nat) (k i : Nat) (s : NodeMaps × List Nat)
    (hl : n ≤ s.1.localToGlobalVector.length) (hd : d.length = n) (hps : s.2.length = n)
    (hi : 1 ≤ i) (hk : i + k = n) (hsum : d.sum < 2 ^ 64)
    (hpre : ∀ j, j < i → s.2[j]? = some (d.take (j + 1)).sum)
    (hrest : ∀ j, i ≤ j → s.2[j]? = d[j]?) :
    ∃ s1, finalizeLoop k i s = some s1
      ∧ s1.1.localToGlobalVector = s.1.localToGlobalVector
      ∧ s1.1.numNodes = s.1.numNodes ∧ s1.2.length = n
      ∧ ∀ j, j < n → s1.2[j]? = some (d.take (j + 1)).sum := by
  induction k generalizing i s with
  | zero =>
    have : i = n := by omega
    subst this
    exact ⟨s, rfl, rfl, rfl, hps, hpre⟩
  | succ k ih =>
    obtain ⟨s1, h1, h2, h3, h4, h5, h6⟩ :=
      finalizeStep_prefix d n i s hl hd hps hi (by omega) hsum hpre hrest
    obtain ⟨s2, g1, g2, g3, g4, g5⟩ :=
      ih (i + 1) s1 (by rw [h2]; exact hl) h4 (by omega) (by omega) h5 h6
    refine ⟨s2, ?_, g2.trans h2, g3.trans h3, g4, g5⟩
    unfold finalizeLoop
    rw [h1]
    exact g1

/-- C24 (the final prefix sum of edges). For `numNodes == 0`, `finalizeNodeMapping`
changes nothing. For `numNodes >= 1`, a vector `d` of `numNodes` edge counts whose sum
fits `uint64_t`, and a `localToGlobalVector` of `numNodes` entries (the two assertions
of the function): it returns, afterwards `prefixSumOfEdges[i] == d[0] + ... + d[i]` for
every `i < numNodes`, and `numEdges` is the sum of all `d[i]`. -/
theorem finalizeNodeMapping_prefixSum (g : NodeMaps) (d : List Nat) :
    (g.numNodes = 0 → finalizeNodeMapping g d = some (g, d))
    ∧ (1 ≤ g.numNodes → d.length = g.numNodes →
        g.localToGlobalVector.length = g.numNodes → d.sum < 2 ^ 64 →
        ∃ s, finalizeNodeMapping g d = some s
          ∧ s.2.length = g.numNodes
          ∧ (∀ i, i < g.numNodes → s.2[i]? = some (d.take (i + 1)).sum)
          ∧ s.1.numEdges = d.sum) := by
  refine ⟨fun h0 => by unfold finalizeNodeMapping; rw [if_pos h0], fun h1 hd hsize hsum => ?_⟩
  unfold finalizeNodeMapping
  rw [if_neg (by omega)]
  have hpos : 0 < g.localToGlobalVector.length := by omega
  have e0 : g.localToGlobalVector[0]? = some g.localToGlobalVector[0] :=
    List.getElem?_eq_getElem hpos
  rw [e0]
  have hd0 : 0 < d.length := by omega
  obtain ⟨s1, k1, k2, k3, k4, k5⟩ := finalizeLoop_prefix d g.numNodes (g.numNodes - 1) 1
    ({ g with globalToLocalMap := mapAssign g.globalToLocalMap g.localToGlobalVector[0] 0 }, d)
    (by simp only []; omega) hd hd (Nat.le_refl 1) (by omega) hsum
    (fun j hj => by
      have hj0 : j = 0 := by omega
      subst hj0
      simp only []
      rw [List.getElem?_eq_getElem hd0]
      cases d with
      | nil => simp at hd0
      | cons a t => simp)
    (fun j _ => rfl)
  simp only [k1]
  have hlt1 : s1.2.length - 1 < s1.2.length := by omega
  have hlast : s1.2.getLast? = some (d.take (g.numNodes - 1 + 1)).sum := by
    rw [List.getLast?_eq_getElem?, k4]
    exact k5 (g.numNodes - 1) (by omega)
  rw [hlast]
  refine ⟨(NodeMaps.mk s1.1.localToGlobalVector s1.1.globalToLocalMap s1.1.numNodes
    (d.take (g.numNodes - 1 + 1)).sum, s1.2), rfl, k4, k5, ?_⟩
  simp only []
  rw [List.take_of_length_le (by omega)]

theorem finalizeNodeMapping_prefixSum_witness :
    (finalizeNodeMapping nodeMapsExample [2, 3, 4]).map (fun s => (s.2, s.1.numEdges))
        = some ([2, 5, 9], 9)
    ∧ ∃ s, finalizeNodeMapping nodeMapsExample [2, 3, 4] = some s
          ∧ s.2.length = nodeMapsExample.numNodes
          ∧ (∀ i, i < nodeMapsExample.numNodes →
              s.2[i]? = some (([2, 3, 4] : List Nat).take (i + 1)).sum)
          ∧ s.1.numEdges = ([2, 3, 4] : List Nat).sum :=
  ⟨by decide,
    (finalizeNodeMapping_prefixSum nodeMapsExample [2, 3, 4]).2 (by decide) rfl rfl (by decide)⟩

/-! ## `getColumnIndexOfNode` -/

theorem sub64_eq (a b : Nat) (hba : b ≤ a) (ha : a < 2 ^ 64) : sub64 a b = a - b := by
  unfold sub64
  have h : a + 2 ^ 64 - b = (a - b) + 2 ^ 64 := by omega
  rw [h, Nat.add_mod_right, Nat.mod_eq_of_lt (by omega)]

theorem getElem?_lt_length {l : List (Nat × Nat)} {h : Nat} {r : Nat × Nat}
    (hr : l[h]? = some r) : h < l.length := by
  rcases Nat.lt_or_ge h l.length with hlt | hge
  · exact hlt
  · rw [List.getElem?_eq_none hge] at hr
    exact absurd hr (by simp)

theorem RangesPartition.get {numHosts : Nat} {gid2host : List (Nat × Nat)} {n : Nat}
    (hp : RangesPartition numHosts gid2host n) (h : Nat) (hh : h < numHosts) :
    ∃ r, gid2host[h]? = some r :=
  ⟨_, List.getElem?_eq_getElem (by rw [hp.size]; exact hh)⟩

theorem RangesPartition.end_le_start {numHosts : Nat} {gid2host : List (Nat × Nat)} {n : Nat}
    (hp : RangesPartition numHosts gid2host n) (d i : Nat) (ri rj : Nat × Nat)
    (hi : gid2host[i]? = some ri) (hj : gid2host[i + d + 1]? = some rj) : ri.2 ≤ rj.1 := by
  induction d generalizing rj with
  | zero => exact Nat.le_of_eq (hp.consecutive i ri rj hi hj).symm
  | succ d ih =>
    have hlt := getElem?_lt_length hj
    obtain ⟨rm, hm⟩ := hp.get (i + d + 1) (by rw [← hp.size]; omega)
    have h1 := ih rm hm
    have h2 := hp.ascending _ _ hm
    have h3 := hp.consecutive (i + d + 1) rm rj hm hj
    omega

theorem RangesPartition.lt_of_lt {numHosts : Nat} {gid2host : List (Nat × Nat)} {n : Nat}
    (hp : RangesPartition numHosts gid2host n) (i j : Nat) (ri rj : Nat × Nat) (hij : i < j)
    (hi : gid2host[i]? = some ri) (hj : gid2host[j]? = some rj) : ri.2 ≤ rj.1 := by
  have hj1 : j = i + (j - i - 1) + 1 := by omega
  rw [hj1] at hj
  exact hp.end_le_start _ i ri rj hi hj

theorem RangesPartition.end_le {numHosts : Nat} {gid2host : List (Nat × Nat)} {n : Nat}
    (hp : RangesPartition numHosts gid2host n) (i : Nat) (r : Nat × Nat)
    (hi : gid2host[i]? = some r) : r.2 ≤ n := by
  have hlt := getElem?_lt_length hi
  rw [hp.size] at hlt
  obtain ⟨rl, hl⟩ := hp.get (numHosts - 1) (by have := hp.hosts; omega)
  have hlast := hp.last rl hl
  rcases Nat.lt_or_ge i (numHosts - 1) with h1 | h1
  · have h2 := hp.lt_of_lt i (numHosts - 1) r rl h1 hi hl
    have h3 := hp.ascending _ _ hl
    omega
  · have : i = numHosts - 1 := by omega
    subst this
    rw [hi] at hl
    have := Option.some.inj hl
    subst this
    exact Nat.le_of_eq hlast

theorem ownedInColumn_of_block {numHosts : Nat} {gid2host : List (Nat × Nat)} {n : Nat}
    (hp : RangesPartition numHosts gid2host n) (numColumnHosts c h : Nat) (r : Nat × Nat)
    (g : Nat) (hr : gid2host[h]? = some r) (h1 : r.1 ≤ g) (h2 : g < r.2) :
    ownedInColumn numColumnHosts numHosts gid2host c g
      = decide (gridColumnID numColumnHosts h = c) := by
  rw [Bool.eq_iff_iff]
  unfold ownedInColumn
  rw [List.any_eq_true]
  simp only [Bool.and_eq_true, decide_eq_true_eq, List.mem_range]
  constructor
  · rintro ⟨k, hk, hown, hcol⟩
    unfold ownedBy at hown
    cases hrk : gid2host[k]? with
    | none => rw [hrk] at hown; exact absurd hown (by simp)
    | some rk =>
      rw [hrk] at hown
      simp only [Bool.and_eq_true, decide_eq_true_eq] at hown
      have hkh : k = h := by
        rcases Nat.lt_trichotomy k h with hlt | heq | hgt
        · have := hp.lt_of_lt k h rk r hlt hrk hr
          omega
        · exact heq
        · have := hp.lt_of_lt h k r rk hgt hr hrk
          omega
      rw [← hkh]
      exact hcol
  · intro hcol
    refine ⟨h, ?_, ?_, hcol⟩
    · rw [← hp.size]; exact getElem?_lt_length hr
    · unfold ownedBy
      rw [hr]
      simp only [Bool.and_eq_true, decide_eq_true_eq]
      exact ⟨h1, h2⟩

theorem ownedInColumnCount_block {numHosts : Nat} {gid2host : List (Nat × Nat)} {n : Nat}
    (hp : RangesPartition numHosts gid2host n) (numColumnHosts c h : Nat) (r : Nat × Nat)
    (a b : Nat) (hr : gid2host[h]? = some r) (ha : r.1 ≤ a) (hb : b ≤ r.2) :
    ownedInColumnCount numColumnHosts numHosts gid2host c a b
      = if gridColumnID numColumnHosts h = c then b - a else 0 := by
  unfold ownedInColumnCount
  have hmem : ∀ g ∈ List.range' a (b - a),
      ownedInColumn numColumnHosts numHosts gid2host c g
        = decide (gridColumnID numColumnHosts h = c) := by
    intro g hg
    rw [List.mem_range'_1] at hg
    exact ownedInColumn_of_block hp numColumnHosts c h r g hr (by omega) (by omega)
  by_cases hc : gridColumnID numColumnHosts h = c
  · rw [if_pos hc, List.filter_eq_self.mpr, List.length_range']
    intro g hg
    rw [hmem g hg]
    exact decide_eq_true hc
  · rw [if_neg hc, List.filter_eq_nil_iff.mpr]
    · rfl
    · intro g hg
      rw [hmem g hg]
      simp [hc]

theorem ownedInColumnCount_split (numColumnHosts numHosts : Nat) (gid2host : List (Nat × Nat))
    (c a b e : Nat) (hab : a ≤ b) (hbe : b ≤ e) :
    ownedInColumnCount numColumnHosts numHosts gid2host c a e
      = ownedInColumnCount numColumnHosts numHosts gid2host c a b
        + ownedInColumnCount numColumnHosts numHosts gid2host c b e := by
  unfold ownedInColumnCount
  have h1 : e - a = (e - b) + (b - a) := by omega
  have h3 : a + (b - a) = b := by omega
  have h2 : List.range' a (e - a) = List.range' a (b - a) ++ List.range' b (e - b) := by
    rw [h1, ← List.range'_append_1, h3]
  rw [h2, List.filter_append, List.length_append]

theorem getHostIDLoop_spec {numHosts : Nat} {gid2host : List (Nat × Nat)} {n : Nat}
    (hp : RangesPartition numHosts gid2host n) (gid : Nat) (hgid : gid < n) (k h : Nat)
    (hk : h + k = numHosts)
    (hbelow : ∀ (j : Nat) (r : Nat × Nat), j < h → gid2host[j]? = some r → r.2 ≤ gid) :
    ∃ hostID r, getHostIDLoop gid2host gid k h = some hostID ∧ hostID < numHosts
      ∧ gid2host[hostID]? = some r ∧ r.1 ≤ gid ∧ gid < r.2 := by
  induction k generalizing h with
  | zero =>
    exfalso
    have hh := hp.hosts
    obtain ⟨rl, hl⟩ := hp.get (numHosts - 1) (by omega)
    have h1 := hp.last rl hl
    have h2 := hbelow (numHosts - 1) rl (by omega) hl
    omega
  | succ k ih =>
    obtain ⟨r, hr⟩ := hp.get h (by omega)
    have hstart : r.1 ≤ gid := by
      rcases Nat.eq_zero_or_pos h with h0 | h0
      · subst h0
        rw [hp.first r hr]
        exact Nat.zero_le _
      · obtain ⟨rp, hrp⟩ := hp.get (h - 1) (by omega)
        have h1 := hbelow (h - 1) rp (by omega) hrp
        have hr1 : gid2host[h - 1 + 1]? = some r := by
          rw [Nat.sub_add_cancel h0]; exact hr
        have h2 := hp.consecutive (h - 1) rp r hrp hr1
        omega
    unfold getHostIDLoop
    rw [hr]
    by_cases hlt : gid < r.2
    · simp only [hstart, hlt, and_self, if_true]
      exact ⟨h, r, rfl, by omega, hr, hstart, hlt⟩
    · have hneg : ¬ (r.1 ≤ gid ∧ gid < r.2) := fun hx => hlt hx.2
      simp only [if_neg hneg]
      refine ih (h + 1) (by omega) (fun j rj hj hrj => ?_)
      rcases Nat.lt_or_ge j h with h1 | h1
      · exact hbelow j rj h1 hrj
      · have hjh : j = h := by omega
        subst hjh
        rw [hr] at hrj
        have := Option.some.inj hrj
        subst this
        omega

theorem columnIndexLoop_spec {numHosts : Nat} {gid2host : List (Nat × Nat)} {n : Nat}
    (hp : RangesPartition numHosts gid2host n) (numColumnHosts gid hostID : Nat)
    (rH : Nat × Nat) (hgid : gid < 2 ^ 64) (hH : gid2host[hostID]? = some rH)
    (hH1 : rH.1 ≤ gid) (hH2 : gid < rH.2) (d h acc : Nat) (r : Nat × Nat)
    (hd : h + d = hostID) (hr : gid2host[h]? = some r) (hacc : acc < 2 ^ 32) :
    columnIndexLoop numColumnHosts gid2host gid (gridColumnID numColumnHosts hostID)
        (d + 1) h acc
      = some ((acc + ownedInColumnCount numColumnHosts numHosts gid2host
          (gridColumnID numColumnHosts hostID) r.1 gid) % 2 ^ 32) := by
  induction d generalizing h acc r with
  | zero =>
    have hh : h = hostID := by omega
    subst hh
    rw [hH] at hr
    have := Option.some.inj hr
    subst this
    unfold columnIndexLoop
    rw [if_pos rfl, hH]
    simp only [if_pos hH2]
    rw [sub64_eq gid rH.1 hH1 hgid,
      ownedInColumnCount_block hp numColumnHosts _ h rH rH.1 gid hH (Nat.le_refl _)
        (Nat.le_of_lt hH2), if_pos rfl]
  | succ d ih =>
    have hlt : h < hostID := by omega
    have hle : r.2 ≤ rH.1 := hp.lt_of_lt h hostID r rH hlt hr hH
    have hasc := hp.ascending h r hr
    have hHlt := getElem?_lt_length hH
    obtain ⟨r1, hr1⟩ := hp.get (h + 1) (by rw [← hp.size]; omega)
    have hcons := hp.consecutive h r r1 hr hr1
    have hsplit := ownedInColumnCount_split numColumnHosts numHosts gid2host
      (gridColumnID numColumnHosts hostID) r.1 r.2 gid hasc (by omega)
    have hblock := ownedInColumnCount_block hp numColumnHosts
      (gridColumnID numColumnHosts hostID) h r r.1 r.2 hr (Nat.le_refl _) (Nat.le_refl _)
    unfold columnIndexLoop
    by_cases hc : gridColumnID numColumnHosts h = gridColumnID numColumnHosts hostID
    · rw [if_pos hc, hr]
      have hnlt : ¬ gid < r.2 := by omega
      simp only [if_neg hnlt]
      rw [ih (h + 1) _ r1 (by omega) hr1 (Nat.mod_lt _ (by decide)), hcons,
        sub64_eq r.2 r.1 hasc (by omega), hsplit, hblock, if_pos hc, Nat.mod_add_mod,
        Nat.add_assoc]
    · rw [if_neg hc, ih (h + 1) acc r1 (by omega) hr1 hacc, hcons, hsplit, hblock, if_neg hc,
        Nat.zero_add]

theorem columnBlockLoop_spec {numHosts : Nat} {gid2host : List (Nat × Nat)} {n : Nat}
    (hp : RangesPartition numHosts gid2host n) (numColumnHosts c : Nat) (hn : n < 2 ^ 64)
    (d h size : Nat) (r : Nat × Nat)
    (hd : h + d + 1 = numHosts) (hr : gid2host[h]? = some r) (hsize : size < 2 ^ 64) :
    columnBlockLoop numColumnHosts gid2host c (d + 1) h size
      = some ((size + ownedInColumnCount numColumnHosts numHosts gid2host c r.1 n)
          % 2 ^ 64) := by
  have hasc := hp.ascending h r hr
  have hend := hp.end_le h r hr
  induction d generalizing h size r with
  | zero =>
    have hh : h = numHosts - 1 := by omega
    have hlast : r.2 = n := by
      rw [hh] at hr
      exact hp.last r hr
    have hblock := ownedInColumnCount_block hp numColumnHosts c h r r.1 r.2 hr
      (Nat.le_refl _) (Nat.le_refl _)
    rw [hlast] at hblock
    unfold columnBlockLoop
    by_cases hc : gridColumnID numColumnHosts h = c
    · rw [if_pos hc, hr]
      simp only [columnBlockLoop]
      rw [sub64_eq r.2 r.1 hasc (by omega), hblock, if_pos hc, hlast]
    · rw [if_neg hc]
      simp only [columnBlockLoop]
      rw [hblock, if_neg hc, Nat.add_zero, Nat.mod_eq_of_lt hsize]
  | succ d ih =>
    obtain ⟨r1, hr1⟩ := hp.get (h + 1) (by omega)
    have hcons := hp.consecutive h r r1 hr hr1
    have hasc1 := hp.ascending (h + 1) r1 hr1
    have hend1 := hp.end_le (h + 1) r1 hr1
    have hsplit := ownedInColumnCount_split numColumnHosts numHosts gid2host c r.1 r.2 n
      hasc hend
    have hblock := ownedInColumnCount_block hp numColumnHosts c h r r.1 r.2 hr
      (Nat.le_refl _) (Nat.le_refl _)
    unfold columnBlockLoop
    by_cases hc : gridColumnID numColumnHosts h = c
    · rw [if_pos hc, hr]
      simp only []
      rw [ih (h + 1) _ r1 (by omega) hr1 (Nat.mod_lt _ (by decide)) hasc1 hend1, hcons,
        sub64_eq r.2 r.1 hasc (by omega), hsplit, hblock, if_pos hc, Nat.mod_add_mod,
        Nat.add_assoc]
    · rw [if_neg hc, ih (h + 1) size r1 (by omega) hr1 hsize hasc1 hend1, hcons, hsplit,
        hblock, if_neg hc, Nat.zero_add]

theorem ownedInColumnCount_le (numColumnHosts numHosts : Nat) (gid2host : List (Nat × Nat))
    (c a b : Nat) : ownedInColumnCount numColumnHosts numHosts gid2host c a b ≤ b - a := by
  unfold ownedInColumnCount
  exact (List.length_filter_le _ _).trans (Nat.le_of_eq (List.length_range' _ _ _))

/-- The value of `getColumnIndexOfNode`, whatever the size of the graph: the number of
smaller global ids in the column, reduced to `uint32_t`; and this number is below the
block size of the column. -/
theorem getColumnIndexOfNode_mod (numColumnHosts numHosts : Nat)
    (gid2host : List (Nat × Nat)) (numGlobalNodes gid : Nat)
    (hp : RangesPartition numHosts gid2host numGlobalNodes)
    (hn : numGlobalNodes < 2 ^ 64) (hgid : gid < numGlobalNodes) :
    ∃ hostID size, getHostID numHosts gid2host gid = some hostID
      ∧ hostID < numHosts ∧ ownedBy gid2host hostID gid = true
      ∧ getColumnIndexOfNode numColumnHosts numHosts gid2host gid
          = some (columnRank numColumnHosts numHosts gid2host
              (gridColumnID numColumnHosts hostID) gid % 2 ^ 32)
      ∧ columnBlockSize numColumnHosts numHosts gid2host
          (gridColumnID numColumnHosts hostID) = some size
      ∧ columnRank numColumnHosts numHosts gid2host
          (gridColumnID numColumnHosts hostID) gid < size := by
  obtain ⟨hostID, rH, h1, h2, h3, h4, h5⟩ :=
    getHostIDLoop_spec hp gid hgid numHosts 0 (Nat.zero_add _)
      (fun j r hj _ => absurd hj (Nat.not_lt_zero j))
  have hh := hp.hosts
  obtain ⟨r0, hr0⟩ := hp.get 0 (by omega)
  have hfirst := hp.first r0 hr0
  have hidx := columnIndexLoop_spec hp numColumnHosts gid hostID rH (by omega) h3 h4 h5
    hostID 0 0 r0 (Nat.zero_add _) hr0 (by decide)
  have hblk := columnBlockLoop_spec hp numColumnHosts (gridColumnID numColumnHosts hostID) hn
    (numHosts - 1) 0 0 r0 (by omega) hr0 (by decide)
  rw [hfirst, Nat.zero_add] at hidx hblk
  rw [Nat.sub_add_cancel hh] at hblk
  have hle := ownedInColumnCount_le numColumnHosts numHosts gid2host
    (gridColumnID numColumnHosts hostID) 0 numGlobalNodes
  rw [Nat.mod_eq_of_lt (by omega)] at hblk
  have hend := hp.end_le hostID rH h3
  have hs1 := ownedInColumnCount_split numColumnHosts numHosts gid2host
    (gridColumnID numColumnHosts hostID) 0 gid numGlobalNodes (Nat.zero_le _) (by omega)
  have hs2 := ownedInColumnCount_split numColumnHosts numHosts gid2host
    (gridColumnID numColumnHosts hostID) gid (gid + 1) numGlobalNodes (by omega) (by omega)
  have hone := ownedInColumnCount_block hp numColumnHosts (gridColumnID numColumnHosts hostID)
    hostID rH gid (gid + 1) h3 h4 (by omega)
  rw [if_pos rfl] at hone
  refine ⟨hostID, _, h1, h2, ?_, ?_, hblk, ?_⟩
  · unfold ownedBy
    rw [h3]
    simp only [Bool.and_eq_true, decide_eq_true_eq]
    exact ⟨h4, h5⟩
  · unfold getColumnIndexOfNode
    have h1' : getHostID numHosts gid2host gid = some hostID := h1
    rw [h1']
    exact hidx
  · unfold columnRank
    omega

/-- The index of a node within its column when it fits 32 bits. When `gid2host` lists
consecutive ascending half-open ranges that partition `[0, numGlobalNodes)`, for every
`gid < numGlobalNodes` whose count fits the `uint32_t` result: `getColumnIndexOfNode`
returns the number of global ids smaller than `gid` that are owned by hosts of the grid
column of the host of `gid`, and this is smaller than the column block size that
`inOutMetadataInitialization` computes for that column. -/
theorem getColumnIndexOfNode_eq_rank (numColumnHosts numHosts : Nat)
    (gid2host : List (Nat × Nat)) (numGlobalNodes gid : Nat)
    (hp : RangesPartition numHosts gid2host numGlobalNodes)
    (hn : numGlobalNodes < 2 ^ 64) (hgid : gid < numGlobalNodes)
    (hfit : ∀ c, columnRank numColumnHosts numHosts gid2host c gid < 2 ^ 32) :
    ∃ hostID size, getHostID numHosts gid2host gid = some hostID
      ∧ hostID < numHosts ∧ ownedBy gid2host hostID gid = true
      ∧ getColumnIndexOfNode numColumnHosts numHosts gid2host gid
          = some (columnRank numColumnHosts numHosts gid2host
              (gridColumnID numColumnHosts hostID) gid)
      ∧ columnBlockSize numColumnHosts numHosts gid2host
          (gridColumnID numColumnHosts hostID) = some size
      ∧ columnRank numColumnHosts numHosts gid2host
          (gridColumnID numColumnHosts hostID) gid < size := by
  obtain ⟨hostID, size, h1, h2, h3, h4, h5, h6⟩ :=
    getColumnIndexOfNode_mod numColumnHosts numHosts gid2host numGlobalNodes gid hp hn hgid
  rw [Nat.mod_eq_of_lt (hfit _)] at h4
  exact ⟨hostID, size, h1, h2, h3, h4, h5, h6⟩

theorem rangesPartition_example : RangesPartition 6 gid2hostExample 12 where
  hosts := by decide
  size := rfl
  first := fun r hr => by
    have h := Option.some.inj hr
    rw [← h]
    rfl
  ascending := fun h r hr => by
    have hlt : h < 6 := getElem?_lt_length hr
    interval_cases h <;>
      (have h1 := Option.some.inj hr; rw [← h1]; decide)
  consecutive := fun h r r1 hr hr1 => by
    have hlt : h + 1 < 6 := getElem?_lt_length hr1
    have hh : h < 5 := by omega
    interval_cases h <;>
      (have h1 := Option.some.inj hr; have h2 := Option.some.inj hr1; rw [← h1, ← h2]; rfl)
  last := fun r hr => by
    have h := Option.some.inj hr
    rw [← h]
    rfl

theorem getColumnIndexOfNode_eq_rank_witness :
    getHostID 6 gid2hostExample 9 = some 4
    ∧ getColumnIndexOfNode 2 6 gid2hostExample 9 = some 3
    ∧ columnRank 2 6 gid2hostExample 0 9 = 3
    ∧ columnBlockSize 2 6 gid2hostExample 0 = some 4
    ∧ ∃ hostID size, getHostID 6 gid2hostExample 9 = some hostID
      ∧ hostID < 6 ∧ ownedBy gid2hostExample hostID 9 = true
      ∧ getColumnIndexOfNode 2 6 gid2hostExample 9
          = some (columnRank 2 6 gid2hostExample (gridColumnID 2 hostID) 9)
      ∧ columnBlockSize 2 6 gid2hostExample (gridColumnID 2 hostID) = some size
      ∧ columnRank 2 6 gid2hostExample (gridColumnID 2 hostID) 9 < size :=
  ⟨by decide, by decide, by decide, by decide,
    getColumnIndexOfNode_eq_rank 2 6 gid2hostExample 12 9 rangesPartition_example
      (by decide) (by decide)
      (fun c => Nat.lt_of_le_of_lt (ownedInColumnCount_le 2 6 gid2hostExample c 0 9)
        (by decide))⟩

/-! ## The `uint32_t` accumulator of `getColumnIndexOfNode` -/

theorem rangesPartition_single (n : Nat) : RangesPartition 1 [((0 : Nat), n)] n where
  hosts := Nat.le_refl 1
  size := rfl
  first := fun r hr => by
    have h := Option.some.inj hr
    rw [← h]
    rfl
  ascending := fun h r hr => by
    have hlt : h < 1 := getElem?_lt_length hr
    have h0 : h = 0 := by omega
    subst h0
    have h1 := Option.some.inj hr
    rw [← h1]
    exact Nat.zero_le n
  consecutive := fun h r r1 _ hr1 => by
    have hlt : h + 1 < 1 := getElem?_lt_length hr1
    omega
  last := fun r hr => by
    have h := Option.some.inj hr
    rw [← h]
    rfl

/-- C23 at the failing input. One host owning the `2 ^ 33` global ids of the table
`[(0, 2 ^ 33)]` and the node `gid = 2 ^ 32 + 5`: all the `2 ^ 32 + 5` smaller ids are
owned in the column of that host, which is below the column block size `2 ^ 33`, but
`getColumnIndexOfNode` adds `gid - start` to its `uint32_t` accumulator and
returns 5. -/
theorem getColumnIndexOfNode_wraps :
    RangesPartition 1 [((0 : Nat), 2 ^ 33)] (2 ^ 33)
    ∧ getHostID 1 [((0 : Nat), 2 ^ 33)] (2 ^ 32 + 5) = some 0
    ∧ columnRank 1 1 [((0 : Nat), 2 ^ 33)] (gridColumnID 1 0) (2 ^ 32 + 5) = 2 ^ 32 + 5
    ∧ columnBlockSize 1 1 [((0 : Nat), 2 ^ 33)] (gridColumnID 1 0) = some (2 ^ 33)
    ∧ getColumnIndexOfNode 1 1 [((0 : Nat), 2 ^ 33)] (2 ^ 32 + 5) = some 5 := by
  refine ⟨rangesPartition_single _, by decide, ?_, by decide, by decide⟩
  have h := ownedInColumnCount_block (rangesPartition_single (2 ^ 33)) 1 (gridColumnID 1 0) 0
    ((0 : Nat), 2 ^ 33) 0 (2 ^ 32 + 5) rfl (Nat.le_refl 0) (by decide)
  rw [if_pos rfl] at h
  exact h

end DistGraphCartesianCut

namespace Galois.Graph

/-! ## `localStart` and `localEnd` -/

theorem blockSize_spec (num numNodes : Nat) (hnum : 1 ≤ num)
    (hfit : numNodes + num - 1 < 2 ^ 64) :
    blockSize num numNodes = some ((numNodes + num - 1) / num)
      ∧ numNodes ≤ (numNodes + num - 1) / num * num
      ∧ (numNodes + num - 1) / num * num < 2 ^ 64
      ∧ (1 ≤ numNodes → 1 ≤ (numNodes + num - 1) / num) := by
  have h1 := Nat.div_add_mod (numNodes + num - 1) num
  have h2 := Nat.mod_lt (numNodes + num - 1) (show 0 < num by omega)
  have h3 : num * ((numNodes + num - 1) / num) = (numNodes + num - 1) / num * num :=
    Nat.mul_comm _ _
  refine ⟨?_, by omega, by omega, fun hn => ?_⟩
  · unfold blockSize
    rw [if_neg (by omega), Nat.mod_eq_of_lt hfit]
  · exact (Nat.le_div_iff_mul_le (by omega)).mpr (by omega)

theorem inLocalRange_iff (id num numNodes x : Nat) (hnum : 1 ≤ num)
    (hfit : numNodes + num - 1 < 2 ^ 64) (hid : id < num) :
    inLocalRange id num numNodes x = true
      ↔ ((numNodes + num - 1) / num * id ≤ x
          ∧ x < (numNodes + num - 1) / num * (id + 1) ∧ x < numNodes) := by
  obtain ⟨hb, h1, h2, _⟩ := blockSize_spec num numNodes hnum hfit
  have hle1 : (numNodes + num - 1) / num * id ≤ (numNodes + num - 1) / num * num :=
    Nat.mul_le_mul_left _ (by omega)
  have hle2 : (numNodes + num - 1) / num * (id + 1) ≤ (numNodes + num - 1) / num * num :=
    Nat.mul_le_mul_left _ (by omega)
  unfold inLocalRange localStart localEnd
  rw [hb]
  simp only [Option.map_some', Nat.mod_eq_of_lt (Nat.lt_of_le_of_lt hle1 h2),
    Nat.mod_eq_of_lt (Nat.lt_of_le_of_lt hle2 h2), Bool.and_eq_true, decide_eq_true_eq,
    Nat.lt_min]

/-- C26 (`localStart` and `localEnd` partition the node range). For every `numNodes`
and every thread count `num >= 1` for which `numNodes + num - 1` fits `uint64_t`: each
`x < numNodes` satisfies `localStart (numNodes) <= x < localEnd (numNodes)` on exactly
one thread `id` in `[0, num)`, and `localEnd (numNodes) <= numNodes` on every thread. -/
theorem localRange_partition (num numNodes : Nat) (hnum : 1 ≤ num)
    (hfit : numNodes + num - 1 < 2 ^ 64) :
    (∀ x, x < numNodes →
      ∃ id, (id < num ∧ inLocalRange id num numNodes x = true)
        ∧ ∀ id1, id1 < num → inLocalRange id1 num numNodes x = true → id1 = id)
    ∧ (∀ id x, inLocalRange id num numNodes x = true ↔
        ∃ a b, localStart id num numNodes = some a ∧ localEnd id num numNodes = some b
          ∧ a ≤ x ∧ x < b)
    ∧ (∀ id, ∃ b, localEnd id num numNodes = some b ∧ b ≤ numNodes) := by
  obtain ⟨hb, h1, h2, h3⟩ := blockSize_spec num numNodes hnum hfit
  refine ⟨fun x hx => ?_, fun id x => ?_, fun id => ?_⟩
  · have hb1 : 1 ≤ (numNodes + num - 1) / num := h3 (by omega)
    have hbpos : 0 < (numNodes + num - 1) / num := hb1
    have hdm := Nat.div_add_mod x ((numNodes + num - 1) / num)
    have hml := Nat.mod_lt x hbpos
    have hidlt : x / ((numNodes + num - 1) / num) < num := by
      rw [Nat.div_lt_iff_lt_mul hbpos, Nat.mul_comm]
      exact Nat.lt_of_lt_of_le hx h1
    refine ⟨x / ((numNodes + num - 1) / num), ⟨hidlt, ?_⟩, fun id1 hid1 hin => ?_⟩
    · rw [inLocalRange_iff _ _ _ _ hnum hfit hidlt]
      refine ⟨?_, ?_, hx⟩
      · rw [Nat.mul_comm]; exact Nat.div_mul_le_self _ _
      · rw [Nat.mul_add, Nat.mul_one]
        omega
    · rw [inLocalRange_iff _ _ _ _ hnum hfit hid1] at hin
      obtain ⟨ha, hb', _⟩ := hin
      symm
      apply Nat.div_eq_of_lt_le
      · rw [Nat.mul_comm]; exact ha
      · rw [Nat.mul_comm]; exact hb'
  · unfold inLocalRange localStart localEnd
    rw [hb]
    simp only [Option.map_some', Bool.and_eq_true, decide_eq_true_eq]
    constructor
    · exact fun h => ⟨_, _, rfl, rfl, h.1, h.2⟩
    · rintro ⟨a, b, ha, hb', h1', h2'⟩
      rw [Option.some.inj ha, Option.some.inj hb']
      exact ⟨h1', h2'⟩
  · unfold localEnd
    rw [hb]
    exact ⟨_, rfl, Nat.min_le_right _ _⟩

theorem localRange_partition_witness :
    (List.range 4).map (fun id => (localStart id 4 10, localEnd id 4 10))
        = [(some 0, some 3), (some 3, some 6), (some 6, some 9), (some 9, some 10)]
    ∧ inLocalRange 2 4 10 7 = true
    ∧ (∀ x, x < 10 →
        ∃ id, (id < 4 ∧ inLocalRange id 4 10 x = true)
          ∧ ∀ id1, id1 < 4 → inLocalRange id1 4 10 x = true → id1 = id) :=
  ⟨by decide, by decide, (localRange_partition 4 10 (by decide) (by decide)).1⟩

end Galois.Graph

namespace KDGtwoPhase

variable {T σ : Type}

/-! ## The slots of the two worklists -/

set_option maxRecDepth 100000 in
/-- C21 counterexample. The run of `cfgBurst` on the range 1..7, after the
`applyOperator` of the third round: the round attempted the Contexts 3, 4, 5 and 6, the
last three aborted and were appended to `nextWL`, and `currWL` still holds its four
pointers; the pointers 4, 5 and 6 occur in a slot of each worklist. -/
theorem aborted_ctxt_in_both_worklists :
    round3Burst.currWL = [3, 4, 5, 6]
    ∧ round3Burst.nextWL = [4, 5, 6]
    ∧ (round3Burst.currWL ++ round3Burst.nextWL).count 4 = 2
    ∧ ¬ (round3Burst.currWL ++ round3Burst.nextWL).Nodup := by
  have h1 : round3Burst.currWL = [3, 4, 5, 6] := by decide
  have h2 : round3Burst.nextWL = [4, 5, 6] := by decide
  refine ⟨h1, h2, ?_, ?_⟩
  · rw [h1, h2]; decide
  · rw [h1, h2]; decide

/-- C21 as amended. After `refill` (that is after `prepareRound`) and after
`expandNhood`, `nextWL` is empty and no Context pointer occurs in more than one slot of
`currWL`, so none occurs in more than one slot of both worklists together. After
`applyOperator`, before the next `prepareRound`, no pointer occurs in more than one
slot of `nextWL` and none in more than one slot of `currWL`, and the pointers of
`nextWL` are exactly the live Contexts; the old slots of `currWL` stay until
`prepareRound` clears them. -/
theorem worklist_slots (cfg : Config T σ) (user : σ) (range : List T) (n : Nat) :
    ((afterPrepare cfg n (fill_initial cfg (initState user) range)).nextWL = []
      ∧ ((afterPrepare cfg n (fill_initial cfg (initState user) range)).currWL
          ++ (afterPrepare cfg n (fill_initial cfg (initState user) range)).nextWL).Nodup)
    ∧ ((expandNhood cfg (afterPrepare cfg n (fill_initial cfg (initState user) range))).nextWL
          = []
      ∧ ((expandNhood cfg (afterPrepare cfg n (fill_initial cfg (initState user) range))).currWL
          ++ (expandNhood cfg
              (afterPrepare cfg n (fill_initial cfg (initState user) range))).nextWL).Nodup)
    ∧ ((loopHead cfg (n + 1) (fill_initial cfg (initState user) range)).currWL.Nodup
      ∧ (loopHead cfg (n + 1) (fill_initial cfg (initState user) range)).nextWL.Nodup
      ∧ (loopHead cfg (n + 1) (fill_initial cfg (initState user) range)).currWL
          = (afterPrepare cfg n (fill_initial cfg (initState user) range)).currWL
      ∧ ∀ p, p ∈ (loopHead cfg (n + 1) (fill_initial cfg (initState user) range)).nextWL
          ↔ ∃ c, (loopHead cfg (n + 1) (fill_initial cfg (initState user) range)).heap p
              = some c) := by
  have hI := tracked_fill_initial cfg user range
  obtain ⟨hA, hAn⟩ := afterPrepare_tracked cfg range.length n _ hI
  have hL := loopHead_tracked cfg range.length (n + 1) _ hI
  have hcurr : (loopHead cfg (n + 1) (fill_initial cfg (initState user) range)).currWL
      = (afterPrepare cfg n (fill_initial cfg (initState user) range)).currWL := by
    show (applyOperator cfg (expandNhood cfg _)).currWL = _
    rw [applyOperator_currWL, expandNhood_currWL]
  refine ⟨⟨hAn, ?_⟩, ⟨?_, ?_⟩, ?_, hL.heap.nodup, hcurr, hL.heap.live⟩
  · rw [hAn, List.append_nil]
    exact hA.heap.nodup
  · rw [expandNhood_nextWL]
    exact hAn
  · rw [expandNhood_nextWL, expandNhood_currWL, hAn, List.append_nil]
    exact hA.heap.nodup
  · rw [hcurr]
    exact hA.heap.nodup

/-! ## The branches and the assertions of `refill` -/

theorem expandNhood_windowSize (cfg : Config T σ) (st : State T σ) :
    (expandNhood cfg st).windowSize = st.windowSize := by
  refine foldl_keeps (expandOne cfg) (fun s => s.windowSize) ?_ _ _
  intro a b; simp only [expandOne]; split <;> rfl

theorem routePush_windowSize (cfg : Config T σ) (m : Option T) (st : State T σ) (x : T) :
    (routePush cfg m st x).windowSize = st.windowSize := by
  unfold routePush; split <;> rfl

theorem runOperator_windowSize (cfg : Config T σ) (st : State T σ) (p : CtxtPtr) (c : Ctxt T) :
    (runOperator cfg st p c).1.windowSize = st.windowSize := by
  unfold runOperator; split <;> rfl

theorem commitCtxt_windowSize (cfg : Config T σ) (m : Option T) (st : State T σ) (p : CtxtPtr)
    (c : Ctxt T) (buf : List T) : (commitCtxt cfg m st p c buf).windowSize = st.windowSize := by
  unfold commitCtxt
  split
  · exact foldl_keeps (routePush cfg m) (fun s => s.windowSize)
      (fun a b => routePush_windowSize cfg m a b) _ _
  · rfl

theorem applyOne_windowSize (cfg : Config T σ) (m : Option T) (st : State T σ) (p : CtxtPtr) :
    (applyOne cfg m st p).windowSize = st.windowSize := by
  unfold applyOne
  split
  · simp only []
    split
    · rw [commitCtxt_windowSize, runOperator_windowSize]
    · show (runOperator cfg st p _).1.windowSize = st.windowSize
      rw [runOperator_windowSize]
  · rfl

theorem applyOperator_windowSize (cfg : Config T σ) (st : State T σ) :
    (applyOperator cfg st).windowSize = st.windowSize :=
  foldl_keeps (applyOne cfg _) (fun s => s.windowSize)
    (fun a b => applyOne_windowSize cfg _ a b) _ _

theorem prepareRound_windowSize (cfg : Config T σ) (st : State T σ) :
    (prepareRound cfg st).windowSize
      = refillClamp cfg
          (refillRule cfg (prepareRoundHead st) (currCommitsOf st) (prevWindowSizeOf st)) := by
  rw [prepareRound_eq_refill]
  unfold refill
  simp only []
  rw [poll_windowSize, refillBeforePoll_windowSize]

/-- C25 (the branches and the assertions of `refill`). In a run of `execute_stable`
with `MIN_WIN_SIZE > 0`: the first `prepareRound` calls `refill` with
`prevWindowSize == 0` and `currCommits == 0`; every later `prepareRound`, which is
reached only when the round before found `currWL` not empty, calls it with
`prevWindowSize != 0` and finds `windowSize > 0`; and in every round `windowSize > 0`
holds after the clamp. -/
theorem refill_branches (cfg : Config T σ) (user : σ) (range : List T) (n : Nat)
    (hmin : 0 < MIN_WIN_SIZE cfg) :
    (prevWindowSizeOf (fill_initial cfg (initState user) range) = 0
      ∧ currCommitsOf (fill_initial cfg (initState user) range) = 0)
    ∧ afterPrepare cfg n (fill_initial cfg (initState user) range)
        = refill cfg (prepareRoundHead (loopHead cfg n (fill_initial cfg (initState user) range)))
            (currCommitsOf (loopHead cfg n (fill_initial cfg (initState user) range)))
            (prevWindowSizeOf (loopHead cfg n (fill_initial cfg (initState user) range)))
    ∧ 0 < (refillBeforePoll cfg
            (prepareRoundHead (loopHead cfg n (fill_initial cfg (initState user) range)))
            (currCommitsOf (loopHead cfg n (fill_initial cfg (initState user) range)))
            (prevWindowSizeOf (loopHead cfg n (fill_initial cfg (initState user) range)))).windowSize
    ∧ 0 < (prepareRoundHead
            (loopHead cfg (n + 1) (fill_initial cfg (initState user) range))).windowSize
    ∧ ((afterPrepare cfg n (fill_initial cfg (initState user) range)).currWL ≠ [] →
        prevWindowSizeOf (loopHead cfg (n + 1) (fill_initial cfg (initState user) range)) ≠ 0) := by
  have hclamp : ∀ w, 0 < refillClamp cfg w := fun w => Nat.lt_of_lt_of_le hmin (le_refillClamp cfg w)
  refine ⟨⟨rfl, rfl⟩, ?_, ?_, ?_, fun hne => ?_⟩
  · rw [afterPrepare_eq]
    exact prepareRound_eq_refill cfg _
  · rw [refillBeforePoll_windowSize]
    exact hclamp _
  · show 0 < (applyOperator cfg (expandNhood cfg (afterPrepare cfg n _))).windowSize
    rw [applyOperator_windowSize, expandNhood_windowSize, afterPrepare_eq,
      prepareRound_windowSize]
    exact hclamp _
  · rw [prevWindowSizeOf_loopHead]
    intro h0
    exact hne (List.length_eq_zero.mp h0)

theorem refill_branches_witness :
    0 < MIN_WIN_SIZE cfgS4
    ∧ (afterPrepare cfgS4 0 (fill_initial cfgS4 (initState ()) [10])).currWL ≠ []
    ∧ prevWindowSizeOf (loopHead cfgS4 1 (fill_initial cfgS4 (initState ()) [10])) = 1
    ∧ (prevWindowSizeOf (fill_initial cfgS4 (initState ()) [10]) = 0
        ∧ currCommitsOf (fill_initial cfgS4 (initState ()) [10]) = 0)
    ∧ 0 < (prepareRoundHead
            (loopHead cfgS4 1 (fill_initial cfgS4 (initState ()) [10]))).windowSize :=
  ⟨by decide, by decide, by decide,
    (refill_branches cfgS4 () [10] 0 (by decide)).1,
    (refill_branches cfgS4 () [10] 0 (by decide)).2.2.2.1⟩

/-! ## The `unsigned` product in `MIN_WIN_SIZE` -/

set_option maxRecDepth 100000 in
/-- C7 at the failing input. An operator without pushes with `CHUNK_SIZE = 2 ^ 31` on
two threads and a range of 1000 items: the product of line 167 is `2 ^ 32`, which is 0
as an `unsigned`, so `MIN_WIN_SIZE` is 0 and the first refill computes
`min (1000 / 500, 16 * 0) = 0` before the clamp, where the rule with
`MIN_WIN_SIZE = CHUNK_SIZE * activeThreads` gives `min (2, 16 * 2 ^ 32) = 2`. -/
theorem firstRefill_unsigned_product_wraps :
    cfgWrap.CHUNK_SIZE * cfgWrap.activeThreads = 2 ^ 32
    ∧ MIN_WIN_SIZE cfgWrap = 0
    ∧ cfgWrap.NeedsPush = false
    ∧ wrapInput.initSize = 1000
    ∧ prevWindowSizeOf wrapInput = 0
    ∧ refillRule cfgWrap (prepareRoundHead wrapInput) (currCommitsOf wrapInput)
        (prevWindowSizeOf wrapInput) = 0
    ∧ min (wrapInput.initSize / 500) (16 * (cfgWrap.CHUNK_SIZE * cfgWrap.activeThreads)) = 2 := by
  decide

set_option maxRecDepth 100000 in
/-- C10 at the failing input. The same run as for C7: `MIN_WIN_SIZE` is 0 instead of
`2 ^ 32`, the clamp leaves the 0 of the first-refill rule, so `windowSize` is 0 when
`winWL.poll` is called (the assertion `windowSize > 0` of line 212 does not hold) and
it is below `CHUNK_SIZE * activeThreads`; nothing is polled. -/
theorem clamp_unsigned_product_wraps :
    cfgWrap.CHUNK_SIZE * cfgWrap.activeThreads = 2 ^ 32
    ∧ MIN_WIN_SIZE cfgWrap = 0
    ∧ (refillBeforePoll cfgWrap (prepareRoundHead wrapInput) (currCommitsOf wrapInput)
        (prevWindowSizeOf wrapInput)).windowSize = 0
    ∧ (prepareRound cfgWrap wrapInput).windowSize = 0
    ∧ (prepareRound cfgWrap wrapInput).windowSize
        ≠ max (refillRule cfgWrap (prepareRoundHead wrapInput) (currCommitsOf wrapInput)
            (prevWindowSizeOf wrapInput)) (cfgWrap.CHUNK_SIZE * cfgWrap.activeThreads)
    ∧ ¬ (cfgWrap.CHUNK_SIZE * cfgWrap.activeThreads ≤ (prepareRound cfgWrap wrapInput).windowSize)
    ∧ (prepareRound cfgWrap wrapInput).currWL = [] := by
  decide

/-! ## Window validity in a run that spills and routes pushes both ways -/

theorem applyStart_mem_execTrace (cfg : Config T σ) (n fuel : Nat) (st : State T σ)
    (hn : n < fuel) (hne : ∀ m, m ≤ n → (afterPrepare cfg m st).currWL ≠ []) :
    (Point.applyStart, expandNhood cfg (afterPrepare cfg n st)) ∈ execTrace cfg fuel st := by
  induction n generalizing fuel st with
  | zero =>
    obtain ⟨f, rfl⟩ : ∃ f, fuel = f + 1 := ⟨fuel - 1, by omega⟩
    have h0 : (prepareRound cfg st).currWL ≠ [] := hne 0 (Nat.le_refl 0)
    have he : (prepareRound cfg st).currWL.isEmpty = false := by
      cases hc : (prepareRound cfg st).currWL with
      | nil => exact absurd hc h0
      | cons a l => rfl
    unfold execTrace
    simp only [he, Bool.false_eq_true, if_false]
    exact List.mem_cons_of_mem _ (List.mem_cons_of_mem _ (List.mem_cons_self _ _))
  | succ n ih =>
    obtain ⟨f, rfl⟩ : ∃ f, fuel = f + 1 := ⟨fuel - 1, by omega⟩
    have h0 : (prepareRound cfg st).currWL ≠ [] := hne 0 (Nat.zero_le _)
    have he : (prepareRound cfg st).currWL.isEmpty = false := by
      cases hc : (prepareRound cfg st).currWL with
      | nil => exact absurd hc h0
      | cons a l => rfl
    have := ih f (applyOperator cfg (expandNhood cfg (prepareRound cfg st))) (by omega)
      (fun m hm => hne (m + 1) (by omega))
    unfold execTrace
    simp only [he, Bool.false_eq_true, if_false]
    simp only [List.mem_cons, List.mem_append]
    exact Or.inr (Or.inr (Or.inr (Or.inr this)))

theorem strictWeakOrder_cfgSpill : StrictWeakOrder cfgSpill.cmp where
  irrefl := fun a => by simp [cfgSpill]
  trans := fun a b c => by simp only [cfgSpill, decide_eq_true_eq]; omega
  incomp_trans := fun a b c => by simp only [cfgSpill, decide_eq_false_iff_not]; omega

set_option maxRecDepth 100000 in
theorem applyStartSpill_mem :
    (Point.applyStart, applyStartSpill) ∈ programTrace cfgSpill 40 none [2, 4, 6] := by
  unfold programTrace applyStartSpill
  refine List.mem_cons_of_mem _ (applyStart_mem_execTrace cfgSpill 2 40 _ (by decide) ?_)
  intro m hm
  have h3 : m < 3 := by omega
  interval_cases m <;> decide

set_option maxRecDepth 100000 in
theorem window_validity_witness :
    StrictWeakOrder cfgSpill.cmp
    ∧ (Point.applyStart, applyStartSpill) ∈ programTrace cfgSpill 40 none [2, 4, 6]
    ∧ applyStartSpill.winWL = [6, 13]
    ∧ currItems applyStartSpill = [4]
    ∧ getMinElem cfgSpill applyStartSpill = some 6
    ∧ (applyOperator cfgSpill applyStartSpill).committed = [2, 3, 4]
    ∧ (applyOperator cfgSpill applyStartSpill).winWL = [6, 13, 15]
    ∧ nextItems (applyOperator cfgSpill applyStartSpill) = [5]
    ∧ (WindowValid cfgSpill.cmp applyStartSpill
      ∧ (∀ p ∈ applyStartSpill.currWL, ∃ c, applyStartSpill.heap p = some c
          ∧ (∀ m, WindowWL.getMin applyStartSpill.winWL = some m →
              cfgSpill.cmp m c.elem = false)
          ∧ ∀ w ∈ applyStartSpill.winWL, cfgSpill.cmp w c.elem = false)
      ∧ ∀ x ∈ (applyOperator cfgSpill applyStartSpill).committed.drop
            applyStartSpill.committed.length,
          (∀ w ∈ (applyOperator cfgSpill applyStartSpill).winWL, cfgSpill.cmp w x = false)
          ∧ ∀ m, WindowWL.getMin applyStartSpill.winWL = some m → cfgSpill.cmp m x = false)
    ∧ ∀ e ∈ programTrace cfgSpill 40 none [2, 4, 6], WindowValid cfgSpill.cmp e.2 :=
  ⟨strictWeakOrder_cfgSpill, applyStartSpill_mem, by decide, by decide, by decide, by decide,
    by decide, by decide,
    ⟨(window_validity cfgSpill strictWeakOrder_cfgSpill 40 none [2, 4, 6] _
        applyStartSpill_mem).1,
      (window_validity cfgSpill strictWeakOrder_cfgSpill 40 none [2, 4, 6] _
        applyStartSpill_mem).2 rfl⟩,
    fun e he => (window_validity cfgSpill strictWeakOrder_cfgSpill 40 none [2, 4, 6] e he).1⟩

/-! ## The items balance -/

theorem itemsOf_congr {heap heap1 : CtxtPtr → Option (Ctxt T)} {L : List CtxtPtr}
    (h : ∀ q ∈ L, (heap1 q).map (fun c => c.elem) = (heap q).map (fun c => c.elem)) :
    itemsOf heap1 L = itemsOf heap L := by
  unfold itemsOf
  induction L with
  | nil => rfl
  | cons a L ih =>
    rw [List.filterMap_cons, List.filterMap_cons, h a (List.mem_cons_self a L),
      ih (fun q hq => h q (List.mem_cons_of_mem a hq))]

theorem itemsOf_append (heap : CtxtPtr → Option (Ctxt T)) (L1 L2 : List CtxtPtr) :
    itemsOf heap (L1 ++ L2) = itemsOf heap L1 ++ itemsOf heap L2 :=
  List.filterMap_append _ _ _

theorem itemsOf_cons_some {heap : CtxtPtr → Option (Ctxt T)} {p : CtxtPtr} {c : Ctxt T}
    (h : heap p = some c) (L : List CtxtPtr) :
    itemsOf heap (p :: L) = c.elem :: itemsOf heap L := by
  unfold itemsOf
  rw [List.filterMap_cons, h]
  rfl

theorem itemsOf_perm (heap : CtxtPtr → Option (Ctxt T)) {L1 L2 : List CtxtPtr}
    (h : L1.Perm L2) : (itemsOf heap L1).Perm (itemsOf heap L2) :=
  h.filterMap _

theorem itemsOf_alloc (heap : CtxtPtr → Option (Ctxt T)) (n : CtxtPtr) (c : Ctxt T)
    (L : List CtxtPtr) (hf : ∀ q ∈ L, q < n) :
    itemsOf (fun q => if q = n then some c else heap q) (L ++ [n]) = itemsOf heap L ++ [c.elem] := by
  rw [itemsOf_append]
  congr 1
  · apply itemsOf_congr
    intro q hq
    have hne : q ≠ n := Nat.ne_of_lt (hf q hq)
    simp only [hne, if_false]
  · unfold itemsOf
    simp

theorem itemsOf_destroy (heap : CtxtPtr → Option (Ctxt T)) (p : CtxtPtr) (L : List CtxtPtr)
    (hp : p ∉ L) : itemsOf (destroyCtxt p heap) L = itemsOf heap L := by
  apply itemsOf_congr
  intro q hq
  have hne : q ≠ p := fun h => hp (h ▸ hq)
  simp only [destroyCtxt, hne, if_false]

theorem disableSrc_elem (heap : CtxtPtr → Option (Ctxt T)) (ps : List CtxtPtr) (q : CtxtPtr) :
    (disableSrc ps heap q).map (fun c => c.elem) = (heap q).map (fun c => c.elem) := by
  unfold disableSrc
  split
  · cases heap q <;> rfl
  · rfl

theorem resetCtxt_elem (heap : CtxtPtr → Option (Ctxt T)) (p q : CtxtPtr) :
    (resetCtxt p heap q).map (fun c => c.elem) = (heap q).map (fun c => c.elem) := by
  unfold resetCtxt
  split
  · cases heap q <;> rfl
  · rfl

theorem WindowWL.perm_initfill (cmp : T → T → Bool) (range : List T) :
    (WindowWL.initfill cmp range).Perm range := by
  unfold WindowWL.initfill
  have key : ∀ (l w : List T), (l.foldl (fun w x => WindowWL.push cmp x w) w).Perm (w ++ l) := by
    intro l
    induction l with
    | nil => intro w; simp
    | cons x l ih =>
      intro w
      simp only [List.foldl_cons]
      refine (ih _).trans ?_
      refine ((WindowWL.perm_push cmp x w).append_right l).trans ?_
      simp only [List.cons_append]
      exact List.perm_middle.symm
  simpa using key range []

theorem itemsBalance_fill_initial (cfg : Config T σ) (user : σ) (range : List T) :
    ItemsBalance range (fill_initial cfg (initState user) range)
      (fill_initial cfg (initState user) range).nextWL where
  items := by
    simp only [fill_initial, initState, itemsOf, List.filterMap_nil, List.append_nil,
      List.nil_append]
    exact WindowWL.perm_initfill cfg.cmp range
  pushed := rfl

/-- The transfers of `poll` add the polled items to the Contexts of `currWL` and change
no other part of the balance. -/
theorem pollOne_fold_items (xs : List T) (st : State T σ)
    (hf : ∀ q ∈ st.currWL, q < st.nextPtr) :
    itemsOf (xs.foldl pollOne st).heap (xs.foldl pollOne st).currWL
        = itemsOf st.heap st.currWL ++ xs
      ∧ (xs.foldl pollOne st).winWL = st.winWL
      ∧ (xs.foldl pollOne st).committed = st.committed
      ∧ (xs.foldl pollOne st).pushedItems = st.pushedItems
      ∧ (xs.foldl pollOne st).pushed = st.pushed := by
  induction xs generalizing st with
  | nil => simp
  | cons x xs ih =>
    have hf1 : ∀ q ∈ (pollOne st x).currWL, q < (pollOne st x).nextPtr := by
      intro q hq
      simp only [pollOne, MakeContext, List.mem_append, List.mem_singleton] at hq ⊢
      rcases hq with hq | hq
      · exact Nat.lt_succ_of_lt (hf q hq)
      · rw [hq]; exact Nat.lt_succ_self _
    obtain ⟨h1, h2, h3, h4, h5⟩ := ih (pollOne st x) hf1
    have hi : itemsOf (pollOne st x).heap (pollOne st x).currWL
        = itemsOf st.heap st.currWL ++ [x] :=
      itemsOf_alloc st.heap st.nextPtr { elem := x, source := true } st.currWL hf
    simp only [List.foldl_cons]
    rw [h1, h2, h3, h4, h5, hi, List.append_assoc]
    exact ⟨rfl, rfl, rfl, rfl, rfl⟩

theorem poll_items (cfg : Config T σ) (range : List T) (st : State T σ) (k o : Nat)
    (hh : HeapInv st.heap st.nextPtr st.currWL) (hi : ItemsBalance range st st.currWL) :
    ItemsBalance range (WindowWL.poll cfg st k o) (WindowWL.poll cfg st k o).currWL := by
  unfold WindowWL.poll
  simp only []
  obtain ⟨h1, h2, h3, h4, h5⟩ := pollOne_fold_items
    (st.winWL.take (cfg.pollCount st.winWL k o))
    { st with winWL := st.winWL.drop (cfg.pollCount st.winWL k o) } hh.fresh
  refine ⟨?_, ?_⟩
  · rw [h1, h2, h3, h4]
    refine List.Perm.trans ?_ hi.items
    have ht := List.take_append_drop (cfg.pollCount st.winWL k o) st.winWL
    conv_rhs => rw [← ht]
    rw [← Multiset.coe_eq_coe]
    simp only [← Multiset.coe_add]
    abel
  · rw [h5, h4]
    exact hi.pushed

theorem spillOne_fold_frame (cfg : Config T σ) (ps : List CtxtPtr) (st : State T σ) :
    (ps.foldl (spillOne cfg) st).committed = st.committed
      ∧ (ps.foldl (spillOne cfg) st).pushedItems = st.pushedItems
      ∧ (ps.foldl (spillOne cfg) st).pushed = st.pushed :=
  ⟨foldl_keeps (spillOne cfg) (fun s => s.committed)
      (fun a b => by simp only [spillOne]; split <;> rfl) _ _,
    foldl_keeps (spillOne cfg) (fun s => s.pushedItems)
      (fun a b => by simp only [spillOne]; split <;> rfl) _ _,
    foldl_keeps (spillOne cfg) (fun s => s.pushed)
      (fun a b => by simp only [spillOne]; split <;> rfl) _ _⟩

theorem spillAll_items (cfg : Config T σ) (range : List T) (st : State T σ)
    (hh : HeapInv st.heap st.nextPtr st.currWL) (hi : ItemsBalance range st st.currWL) :
    ItemsBalance range (spillAll cfg st) (spillAll cfg st).currWL := by
  obtain ⟨_, _, h3⟩ := spillOne_fold_effect cfg st.currWL.reverse st
    (fun p hp => (hh.live p).mp (List.mem_reverse.mp hp)) (List.nodup_reverse.mpr hh.nodup)
  obtain ⟨f1, f2, f3⟩ := spillOne_fold_frame cfg st.currWL.reverse st
  have hrev : (st.currWL.reverse.filterMap (fun p => (st.heap p).map (fun c => c.elem))).Perm
      (itemsOf st.heap st.currWL) := (List.reverse_perm st.currWL).filterMap _
  refine ⟨?_, ?_⟩
  · show ((st.currWL.reverse.foldl (spillOne cfg) st).committed
        ++ (st.currWL.reverse.foldl (spillOne cfg) st).winWL ++ itemsOf _ []).Perm
      (range ++ (st.currWL.reverse.foldl (spillOne cfg) st).pushedItems)
    rw [f1, f2]
    refine List.Perm.trans ?_ hi.items
    have h4 := h3.trans (List.Perm.append_left _ hrev)
    simp only [itemsOf, List.filterMap_nil, List.append_nil]
    rw [List.append_assoc]
    exact List.Perm.append_left _ h4
  · show (st.currWL.reverse.foldl (spillOne cfg) st).pushed
      = (st.currWL.reverse.foldl (spillOne cfg) st).pushedItems.length
    rw [f2, f3]
    exact hi.pushed

theorem refillSpill_items (cfg : Config T σ) (range : List T) (st : State T σ)
    (hh : HeapInv st.heap st.nextPtr st.currWL) (hi : ItemsBalance range st st.currWL) :
    ItemsBalance range (refillSpill cfg st) (refillSpill cfg st).currWL := by
  unfold refillSpill
  split
  · split
    · exact spillAll_items cfg range st hh hi
    · split
      · exact spillAll_items cfg range st hh hi
      · exact hi
  · exact hi

theorem refill_items (cfg : Config T σ) (n0 : Nat) (range : List T) (st : State T σ)
    (c w : Nat) (ht : Tracked cfg n0 st st.currWL) (hi : ItemsBalance range st st.currWL) :
    ItemsBalance range (refill cfg st c w) (refill cfg st c w).currWL := by
  have ht1 : Tracked cfg n0 (refillBeforePoll cfg st c w) (refillBeforePoll cfg st c w).currWL :=
    refillBeforePoll_tracked cfg n0 st c w ht
  have hi1 : ItemsBalance range (refillBeforePoll cfg st c w)
      (refillBeforePoll cfg st c w).currWL := by
    unfold refillBeforePoll
    exact refillSpill_items cfg range _ ht.heap ⟨hi.items, hi.pushed⟩
  unfold refill
  exact poll_items cfg range _ _ _ ht1.heap hi1

theorem prepareRound_items (cfg : Config T σ) (n0 : Nat) (range : List T) (st : State T σ)
    (ht : Tracked cfg n0 st st.nextWL) (hi : ItemsBalance range st st.nextWL) :
    ItemsBalance range (prepareRound cfg st) (prepareRound cfg st).currWL := by
  unfold prepareRound
  exact refill_items cfg n0 range (prepareRoundHead st) _ _
    ⟨ht.heap, ht.count, ht.commits⟩ ⟨hi.items, hi.pushed⟩

theorem expandNhood_items (cfg : Config T σ) (range : List T) (L : List CtxtPtr)
    (st : State T σ) (hi : ItemsBalance range st L) :
    ItemsBalance range (expandNhood cfg st) L := by
  unfold expandNhood
  refine foldl_inv (expandOne cfg) (fun a => ItemsBalance range a L) ?_ _ _ hi
  intro a p ha
  unfold expandOne
  split
  · refine ⟨?_, ha.pushed⟩
    simp only []
    rw [itemsOf_congr (fun q _ => disableSrc_elem a.heap _ q)]
    exact ha.items
  · exact ha

theorem routePush_pushedItems (cfg : Config T σ) (m : Option T) (st : State T σ) (x : T) :
    (routePush cfg m st x).pushedItems = st.pushedItems := by
  unfold routePush; split <;> rfl

/-- The routing of a push buffer: each item becomes a Context of `nextWL` or an element
of `winWL`; the Contexts allocated before are not touched. -/
theorem routePush_fold_items (cfg : Config T σ) (m : Option T) (xs : List T)
    (L : List CtxtPtr) (st : State T σ) (hf : ∀ q ∈ L ++ st.nextWL, q < st.nextPtr)
    (hnd : (L ++ st.nextWL).Nodup) :
    (((xs.foldl (routePush cfg m) st).winWL
        ++ itemsOf (xs.foldl (routePush cfg m) st).heap
            (L ++ (xs.foldl (routePush cfg m) st).nextWL)).Perm
      (st.winWL ++ itemsOf st.heap (L ++ st.nextWL) ++ xs))
    ∧ (∀ q, q < st.nextPtr → (xs.foldl (routePush cfg m) st).heap q = st.heap q)
    ∧ (xs.foldl (routePush cfg m) st).committed = st.committed
    ∧ (xs.foldl (routePush cfg m) st).pushedItems = st.pushedItems
    ∧ (xs.foldl (routePush cfg m) st).pushed = st.pushed
    ∧ (L ++ (xs.foldl (routePush cfg m) st).nextWL).Nodup := by
  induction xs generalizing st with
  | nil => simpa using hnd
  | cons x xs ih =>
    simp only [List.foldl_cons]
    rcases routePush_nextWL_or cfg m st x with ⟨e1, e2, e3, e4, _⟩ | ⟨e1, e2, e3, e4, _⟩
    · have hf1 : ∀ q ∈ L ++ (routePush cfg m st x).nextWL, q < (routePush cfg m st x).nextPtr := by
        intro q hq
        rw [e2]
        rw [e3, ← List.append_assoc, List.mem_append, List.mem_singleton] at hq
        rcases hq with hq | hq
        · exact Nat.lt_succ_of_lt (hf q hq)
        · rw [hq]; exact Nat.lt_succ_self _
      have hnd1 : (L ++ (routePush cfg m st x).nextWL).Nodup := by
        rw [e3, ← List.append_assoc]
        refine List.Nodup.append hnd (List.nodup_singleton _) ?_
        intro q hq hq2
        rw [List.mem_singleton] at hq2
        have hlt := hf q hq
        rw [hq2] at hlt
        exact Nat.lt_irrefl _ hlt
      obtain ⟨h1, h2, h3, h4, h5, h6⟩ := ih (routePush cfg m st x) hf1 hnd1
      have hi : itemsOf (routePush cfg m st x).heap (L ++ (routePush cfg m st x).nextWL)
          = itemsOf st.heap (L ++ st.nextWL) ++ [x] := by
        rw [e1, e3, ← List.append_assoc]
        exact itemsOf_alloc st.heap st.nextPtr { elem := x, source := true } (L ++ st.nextWL) hf
      refine ⟨?_, fun q hq => ?_, ?_, ?_, ?_, h6⟩
      · refine h1.trans ?_
        rw [hi, e4]
        rw [← Multiset.coe_eq_coe]
        simp only [← Multiset.coe_add, ← Multiset.cons_coe, ← Multiset.singleton_add,
          Multiset.coe_nil, add_zero]
        abel
      · rw [h2 q (by rw [e2]; exact Nat.lt_succ_of_lt hq), e1]
        have hne : q ≠ st.nextPtr := Nat.ne_of_lt hq
        simp only [hne, if_false]
      · rw [h3, routePush_committed]
      · rw [h4, routePush_pushedItems]
      · rw [h5, routePush_pushed]
    · have hf1 : ∀ q ∈ L ++ (routePush cfg m st x).nextWL, q < (routePush cfg m st x).nextPtr := by
        intro q hq
        rw [e2]
        rw [e3] at hq
        exact hf q hq
      obtain ⟨h1, h2, h3, h4, h5, h6⟩ := ih (routePush cfg m st x) hf1 (by rw [e3]; exact hnd)
      refine ⟨?_, fun q hq => ?_, ?_, ?_, ?_, h6⟩
      · refine h1.trans ?_
        rw [e1, e3, e4]
        have hp := WindowWL.perm_push cfg.cmp x st.winWL
        rw [← Multiset.coe_eq_coe] at hp ⊢
        simp only [← Multiset.coe_add, ← Multiset.cons_coe, ← Multiset.singleton_add,
          Multiset.coe_nil, add_zero] at hp ⊢
        rw [hp]
        abel
      · rw [h2 q (by rw [e2]; exact hq), e1]
      · rw [h3, routePush_committed]
      · rw [h4, routePush_pushedItems]
      · rw [h5, routePush_pushed]

theorem commit_finish (range : List T) (p : CtxtPtr) (R : List CtxtPtr)
    (st st2 : State T σ) (c : Ctxt T) (buf : List T) (u : σ)
    (h1 : (st2.winWL ++ c.elem :: itemsOf st2.heap (R ++ st2.nextWL)).Perm
      (st.winWL ++ c.elem :: itemsOf st.heap (R ++ st.nextWL) ++ buf))
    (h3 : st2.committed = st.committed ++ [c.elem])
    (h4 : st2.pushedItems = st.pushedItems ++ buf)
    (h5 : st2.pushed = st.pushed + buf.length)
    (hnd : p ∉ R ++ st2.nextWL)
    (hitems : (st.committed ++ st.winWL ++ c.elem :: itemsOf st.heap (R ++ st.nextWL)).Perm
      (range ++ st.pushedItems))
    (hpu : st.pushed = st.pushedItems.length) :
    ItemsBalance range { st2 with user := u, heap := destroyCtxt p st2.heap }
      (R ++ st2.nextWL) where
  items := by
    show (st2.committed ++ st2.winWL ++ itemsOf (destroyCtxt p st2.heap) (R ++ st2.nextWL)).Perm
      (range ++ st2.pushedItems)
    rw [itemsOf_destroy _ p _ hnd, h3, h4]
    rw [← Multiset.coe_eq_coe] at h1 hitems ⊢
    simp only [← Multiset.coe_add, ← Multiset.cons_coe, ← Multiset.singleton_add,
      Multiset.coe_nil, add_zero] at h1 hitems ⊢
    have e1 : ∀ (A W2 I2 e : Multiset T),
        A + e + W2 + I2 = A + (W2 + (e + I2)) := fun A W2 I2 e => by abel
    have e2 : ∀ (A W X B : Multiset T), A + (W + X + B) = (A + W + X) + B :=
      fun A W X B => by abel
    rw [e1, h1, e2, hitems]
    abel
  pushed := by
    show st2.pushed = st2.pushedItems.length
    rw [h4, h5, List.length_append, hpu]

theorem commitCtxt_items (cfg : Config T σ) (m : Option T) (range : List T) (p : CtxtPtr)
    (R : List CtxtPtr) (st : State T σ) (c d : Ctxt T) (buf : List T)
    (hbuf : cfg.NeedsPush = false → buf = [])
    (hh : HeapInv st.heap st.nextPtr (p :: (R ++ st.nextWL)))
    (hd : st.heap p = some d) (hde : d.elem = c.elem)
    (hi : ItemsBalance range st (p :: (R ++ st.nextWL))) :
    ItemsBalance range (commitCtxt cfg m st p c buf)
      (R ++ (commitCtxt cfg m st p c buf).nextWL) := by
  have hitems := hi.items
  rw [itemsOf_cons_some hd, hde] at hitems
  have hnd := List.nodup_cons.mp hh.nodup
  unfold commitCtxt
  cases hnp : cfg.NeedsPush with
  | false =>
    have hb := hbuf hnp
    subst hb
    simp only [Bool.false_eq_true, if_false]
    exact commit_finish range p R st
      { st with numCommitted := st.numCommitted + 1, committed := st.committed ++ [c.elem],
                pushed := st.pushed + ([] : List T).length,
                pushedItems := st.pushedItems ++ [] }
      c [] _ (by simp) rfl rfl rfl hnd.1 hitems hi.pushed
  | true =>
    simp only [if_true]
    obtain ⟨h1, h2, h3, h4, h5, h6⟩ := routePush_fold_items cfg m buf (p :: R)
      { st with numCommitted := st.numCommitted + 1, committed := st.committed ++ [c.elem],
                pushed := st.pushed + buf.length,
                pushedItems := st.pushedItems ++ buf }
      (fun q hq => hh.fresh q hq) hh.nodup
    have hp2 := h2 p (hh.fresh p (List.mem_cons_self p _))
    have hnd2 := List.nodup_cons.mp h6
    simp only [List.cons_append] at h1
    rw [itemsOf_cons_some (hp2.trans hd), hde, itemsOf_cons_some hd, hde] at h1
    exact commit_finish range p R st _ c buf _ h1 h3 h4 h5 hnd2.1 hitems hi.pushed

theorem abortCtxt_items (cfg : Config T σ) (range : List T) (p : CtxtPtr)
    (R : List CtxtPtr) (st : State T σ) (hi : ItemsBalance range st (p :: (R ++ st.nextWL))) :
    ItemsBalance range (abortCtxt cfg st p) (R ++ (abortCtxt cfg st p).nextWL) := by
  unfold abortCtxt
  refine ⟨?_, hi.pushed⟩
  show (st.committed ++ st.winWL ++ itemsOf (resetCtxt p st.heap) (R ++ (st.nextWL ++ [p]))).Perm
    (range ++ st.pushedItems)
  rw [itemsOf_congr (fun q _ => resetCtxt_elem st.heap p q)]
  refine List.Perm.trans (List.Perm.append_left _ (itemsOf_perm st.heap ?_)) hi.items
  rw [← List.append_assoc]
  exact List.perm_append_singleton p (R ++ st.nextWL)

theorem runOperator_items (cfg : Config T σ) (range : List T) (L : List CtxtPtr)
    (st : State T σ) (p : CtxtPtr) (c : Ctxt T) (hi : ItemsBalance range st L) :
    ItemsBalance range (runOperator cfg st p c).1 L := by
  unfold runOperator
  split
  · refine ⟨?_, hi.pushed⟩
    simp only []
    rw [itemsOf_congr (fun q _ => disableSrc_elem st.heap _ q)]
    exact hi.items
  · exact hi

theorem applyOne_items (cfg : Config T σ) (hpush : PushesOnlyIfNeedsPush cfg) (m : Option T)
    (n0 : Nat) (range : List T) (p : CtxtPtr) (R : List CtxtPtr) (st : State T σ)
    (h : Tracked cfg n0 st (p :: (R ++ st.nextWL)))
    (hi : ItemsBalance range st (p :: (R ++ st.nextWL))) :
    ItemsBalance range (applyOne cfg m st p) (R ++ (applyOne cfg m st p).nextWL) := by
  obtain ⟨c, hc⟩ := (h.heap.live p).mp (List.mem_cons_self p _)
  have hr : Tracked cfg n0 (runOperator cfg st p c).1
      (p :: (R ++ (runOperator cfg st p c).1.nextWL)) := by
    rw [runOperator_nextWL]
    exact runOperator_tracked cfg n0 _ st p c h
  have hri : ItemsBalance range (runOperator cfg st p c).1
      (p :: (R ++ (runOperator cfg st p c).1.nextWL)) := by
    rw [runOperator_nextWL]
    exact runOperator_items cfg range _ st p c hi
  obtain ⟨d, hd, hde⟩ := runOperator_live cfg st p c hc
  unfold applyOne
  simp only [hc]
  split
  · exact commitCtxt_items cfg m range p R _ c d _
      (fun hnp => runOperator_buffer cfg hpush hnp st p c) hr.heap hd hde hri
  · exact abortCtxt_items cfg range p R _ hri

theorem applyLoop_items (cfg : Config T σ) (hpush : PushesOnlyIfNeedsPush cfg) (m : Option T)
    (n0 : Nat) (range : List T) (ps R : List CtxtPtr) (st : State T σ)
    (h : Tracked cfg n0 st ((ps ++ R) ++ st.nextWL))
    (hi : ItemsBalance range st ((ps ++ R) ++ st.nextWL)) :
    ItemsBalance range (ps.foldl (applyOne cfg m) st)
      (R ++ (ps.foldl (applyOne cfg m) st).nextWL) :=
  (foldl_rest (applyOne cfg m)
    (fun R a => Tracked cfg n0 a (R ++ a.nextWL) ∧ ItemsBalance range a (R ++ a.nextWL))
    (fun p R a ha => ⟨applyOne_tracked cfg m n0 p R a ha.1,
      applyOne_items cfg hpush m n0 range p R a ha.1 ha.2⟩) ps R st ⟨h, hi⟩).2

theorem applyOperator_items (cfg : Config T σ) (hpush : PushesOnlyIfNeedsPush cfg) (n0 : Nat)
    (range : List T) (st : State T σ) (h : Tracked cfg n0 st st.currWL) (hn : st.nextWL = [])
    (hi : ItemsBalance range st st.currWL) :
    ItemsBalance range (applyOperator cfg st) (applyOperator cfg st).nextWL := by
  have := applyLoop_items cfg hpush (getMinElem cfg st) n0 range st.currWL [] st
    (by rw [hn]; simpa using h) (by rw [hn]; simpa using hi)
  simpa using this

theorem afterPrepare_items (cfg : Config T σ) (hpush : PushesOnlyIfNeedsPush cfg) (n0 : Nat)
    (range : List T) (n : Nat) (st : State T σ) (h : Tracked cfg n0 st st.nextWL)
    (hi : ItemsBalance range st st.nextWL) :
    ItemsBalance range (afterPrepare cfg n st) (afterPrepare cfg n st).currWL := by
  induction n generalizing st with
  | zero => exact prepareRound_items cfg n0 range st h hi
  | succ n ih =>
    have t1 := prepareRound_tracked cfg n0 st h
    have t2 := expandNhood_tracked cfg n0 _ _ t1
    have i1 := prepareRound_items cfg n0 range st h hi
    have i2 := expandNhood_items cfg range _ _ i1
    have hn : (expandNhood cfg (prepareRound cfg st)).nextWL = [] := by
      rw [expandNhood_nextWL, prepareRound_nextWL]
    have hcw : (expandNhood cfg (prepareRound cfg st)).currWL = (prepareRound cfg st).currWL :=
      expandNhood_currWL cfg _
    rw [← hcw] at t2 i2
    exact ih _ (applyOperator_tracked cfg n0 _ t2 hn)
      (applyOperator_items cfg hpush n0 range _ t2 hn i2)

/-- C3 (every item is committed exactly once). Whenever `execute_stable` returns, the
committed items are, up to order, the items of the initial range and the items pushed
by committed iterations, each as often as it was given; so `numCommitted` is the size
of the range plus the number of pushed items, and for an operator that never pushes
the committed items are those of the range and `numCommitted` is its size. Assumed:
the operator keeps the promise of its trait, `MIN_WIN_SIZE > 0`, and a poll on a
non-empty window worklist below its target transfers an element. -/
theorem commits_eq_range_plus_pushed (cfg : Config T σ) (hpush : PushesOnlyIfNeedsPush cfg)
    (hpoll : PollProgress cfg) (hmin : 0 < MIN_WIN_SIZE cfg) (fuel : Nat) (user : σ)
    (range : List T) (s : State T σ)
    (hret : for_each_ordered_2p_win cfg fuel user range = some s) :
    s.committed.Perm (range ++ s.pushedItems)
      ∧ s.numCommitted = s.committed.length
      ∧ s.pushed = s.pushedItems.length
      ∧ s.numCommitted = range.length + s.pushed
      ∧ ((∀ u p x, (cfg.opFunc u p x).pushBuffer = []) →
          s.committed.Perm range ∧ s.numCommitted = range.length) := by
  unfold for_each_ordered_2p_win at hret
  obtain ⟨n, _, hs, hc, _⟩ := (execute_stable_iff cfg fuel _ s).mp hret
  have ht := (afterPrepare_tracked cfg range.length n _ (tracked_fill_initial cfg user range)).1
  have hi := afterPrepare_items cfg hpush range.length range n _
    (tracked_fill_initial cfg user range) (itemsBalance_fill_initial cfg user range)
  have hw := afterPrepare_empty cfg hpoll hmin n (fill_initial cfg (initState user) range)
    (by rw [hs]; exact hc)
  rw [hs] at ht hw hi
  have hcount := ht.count hpush
  rw [hc, hw] at hcount
  have hcomm := ht.commits
  have hitems := hi.items
  rw [hc, hw] at hitems
  simp only [List.length_nil, itemsOf, List.filterMap_nil, List.append_nil] at hcount hitems
  refine ⟨hitems, hcomm, hi.pushed, by omega, fun hnb => ?_⟩
  have hp := afterPrepare_pushed cfg hnb n (fill_initial cfg (initState user) range)
  rw [hs] at hp
  have hp0 : s.pushed = 0 := by rw [hp]; rfl
  have hnil : s.pushedItems = [] := List.length_eq_zero.mp (by rw [← hi.pushed, hp0])
  rw [hnil, List.append_nil] at hitems
  exact ⟨hitems, by omega⟩

theorem pushesOnlyIfNeedsPush_cfgS2 : PushesOnlyIfNeedsPush cfgS2 :=
  fun _ _ _ _ => rfl

theorem pollProgress_cfgS2 : PollProgress cfgS2 :=
  fun _ _ _ _ h => Nat.sub_pos_of_lt h

set_option maxRecDepth 100000 in
theorem s2_returns : for_each_ordered_2p_win cfgS2 20 none [3, 1, 5, 2, 4] = some finalS2 := by
  have h : (for_each_ordered_2p_win cfgS2 20 none [3, 1, 5, 2, 4]).isSome = true := by decide
  unfold finalS2
  cases hr : for_each_ordered_2p_win cfgS2 20 none [3, 1, 5, 2, 4] with
  | none => rw [hr] at h; exact absurd h (by simp)
  | some s => rfl

set_option maxRecDepth 100000 in
theorem commits_eq_range_plus_pushed_witness :
    (PushesOnlyIfNeedsPush cfgS4 ∧ PollProgress cfgS4 ∧ 0 < MIN_WIN_SIZE cfgS4
      ∧ for_each_ordered_2p_win cfgS4 20 () [10] = some finalS4
      ∧ finalS4.committed = [10, 9, 8, 7, 6, 5, 4, 3, 2, 1, 0]
      ∧ finalS4.pushedItems = [9, 8, 7, 6, 5, 4, 3, 2, 1, 0]
      ∧ finalS4.numCommitted = 11
      ∧ finalS4.committed.Perm ([10] ++ finalS4.pushedItems)
      ∧ finalS4.numCommitted = [10].length + finalS4.pushed)
    ∧ (PushesOnlyIfNeedsPush cfgS2 ∧ PollProgress cfgS2 ∧ 0 < MIN_WIN_SIZE cfgS2
      ∧ for_each_ordered_2p_win cfgS2 20 none [3, 1, 5, 2, 4] = some finalS2
      ∧ finalS2.committed = [1, 2, 3, 4, 5]
      ∧ finalS2.total = 15
      ∧ finalS2.numCommitted = 5
      ∧ finalS2.committed.Perm [3, 1, 5, 2, 4]
      ∧ finalS2.numCommitted = [3, 1, 5, 2, 4].length) :=
  ⟨⟨pushesOnlyIfNeedsPush_cfgS4, pollProgress_cfgS4, by decide, s4_returns, by decide,
      by decide, by decide,
      (commits_eq_range_plus_pushed cfgS4 pushesOnlyIfNeedsPush_cfgS4 pollProgress_cfgS4
        (by decide) 20 () [10] finalS4 s4_returns).1,
      (commits_eq_range_plus_pushed cfgS4 pushesOnlyIfNeedsPush_cfgS4 pollProgress_cfgS4
        (by decide) 20 () [10] finalS4 s4_returns).2.2.2.1⟩,
    ⟨pushesOnlyIfNeedsPush_cfgS2, pollProgress_cfgS2, by decide, s2_returns, by decide,
      by decide, by decide,
      ((commits_eq_range_plus_pushed cfgS2 pushesOnlyIfNeedsPush_cfgS2 pollProgress_cfgS2
        (by decide) 20 none [3, 1, 5, 2, 4] finalS2 s2_returns).2.2.2.2 (fun _ _ _ => rfl)).1,
      ((commits_eq_range_plus_pushed cfgS2 pushesOnlyIfNeedsPush_cfgS2 pollProgress_cfgS2
        (by decide) 20 none [3, 1, 5, 2, 4] finalS2 s2_returns).2.2.2.2 (fun _ _ _ => rfl)).2⟩⟩

/-! ## The rounding error of the `double` arithmetic -/

theorem bitsAux_spec (fuel n : Nat) (hn : n ≠ 0) (hf : n ≤ fuel) :
    1 ≤ bitsAux fuel n ∧ 2 ^ (bitsAux fuel n - 1) ≤ n ∧ n < 2 ^ bitsAux fuel n := by
  induction fuel generalizing n with
  | zero => omega
  | succ fuel ih =>
    unfold bitsAux
    rw [if_neg hn]
    by_cases h2 : n / 2 = 0
    · have h1 : n = 1 := by omega
      subst h1
      have hz : bitsAux fuel (1 / 2) = 0 := by
        cases fuel with
        | zero => rfl
        | succ f => rfl
      rw [hz]
      decide
    · obtain ⟨k1, k2, k3⟩ := ih (n / 2) h2 (by omega)
      refine ⟨Nat.succ_le_succ (Nat.zero_le _), ?_, ?_⟩
      · have e : bitsAux fuel (n / 2) + 1 - 1 = (bitsAux fuel (n / 2) - 1) + 1 := by omega
        rw [e, Nat.pow_succ]
        omega
      · rw [Nat.pow_succ]
        omega

theorem bits_spec (n : Nat) (hn : n ≠ 0) :
    1 ≤ bits n ∧ 2 ^ (bits n - 1) ≤ n ∧ n < 2 ^ bits n :=
  bitsAux_spec n n hn (Nat.le_refl n)

theorem zpow_split (u : Int) :
    (2 : ℚ) ^ u = ((2 ^ u.toNat : Nat) : ℚ) / ((2 ^ (-u).toNat : Nat) : ℚ) := by
  rcases Int.le_total 0 u with h | h
  · have h1 : (-u).toNat = 0 := Int.toNat_eq_zero.mpr (by omega)
    have h2 : ((u.toNat : Nat) : Int) = u := Int.toNat_of_nonneg h
    rw [h1]
    simp only [pow_zero, Nat.cast_one, div_one, Nat.cast_pow, Nat.cast_ofNat]
    rw [← zpow_natCast, h2]
  · have h1 : u.toNat = 0 := Int.toNat_eq_zero.mpr h
    have h2 : (((-u).toNat : Nat) : Int) = -u := Int.toNat_of_nonneg (by omega)
    rw [h1]
    simp only [pow_zero, Nat.cast_one, Nat.cast_pow, Nat.cast_ofNat, one_div]
    rw [← zpow_natCast, h2, zpow_neg, inv_inv]

theorem two_zpow_pos (u : Int) : (0 : ℚ) < (2 : ℚ) ^ u := zpow_pos (by norm_num) u

theorem floorLog2_spec (N D : Nat) (hN : N ≠ 0) (hD : D ≠ 0) :
    (2 : ℚ) ^ floorLog2 N D ≤ (N : ℚ) / D ∧ (N : ℚ) / D < (2 : ℚ) ^ (floorLog2 N D + 1) := by
  obtain ⟨a1, a2, a3⟩ := bits_spec N hN
  obtain ⟨b1, b2, b3⟩ := bits_spec D hD
  have hDpos : (0 : ℚ) < D := by exact_mod_cast Nat.pos_of_ne_zero hD
  have hNpos : (0 : ℚ) < N := by exact_mod_cast Nat.pos_of_ne_zero hN
  have a2q : ((2 : ℚ) ^ ((bits N : Int) - 1)) ≤ N := by
    have h : ((2 ^ (bits N - 1) : Nat) : ℚ) ≤ N := by exact_mod_cast a2
    have e : ((bits N : Int) - 1) = ((bits N - 1 : Nat) : Int) := by omega
    rw [e, zpow_natCast]
    simpa using h
  have a3q : (N : ℚ) < (2 : ℚ) ^ (bits N : Int) := by
    have h : (N : ℚ) < ((2 ^ bits N : Nat) : ℚ) := by exact_mod_cast a3
    rw [zpow_natCast]
    simpa using h
  have b2q : ((2 : ℚ) ^ ((bits D : Int) - 1)) ≤ D := by
    have h : ((2 ^ (bits D - 1) : Nat) : ℚ) ≤ D := by exact_mod_cast b2
    have e : ((bits D : Int) - 1) = ((bits D - 1 : Nat) : Int) := by omega
    rw [e, zpow_natCast]
    simpa using h
  have b3q : (D : ℚ) < (2 : ℚ) ^ (bits D : Int) := by
    have h : (D : ℚ) < ((2 ^ bits D : Nat) : ℚ) := by exact_mod_cast b3
    rw [zpow_natCast]
    simpa using h
  have hcond : (2 ^ ((bits N : Int) - (bits D : Int)).toNat * D
      ≤ N * 2 ^ ((bits D : Int) - (bits N : Int)).toNat)
      ↔ (2 : ℚ) ^ ((bits N : Int) - (bits D : Int)) ≤ (N : ℚ) / D := by
    have hs := zpow_split ((bits N : Int) - (bits D : Int))
    have hneg : -((bits N : Int) - (bits D : Int)) = (bits D : Int) - (bits N : Int) := by omega
    rw [hneg] at hs
    have hpos2 : (0 : ℚ) < ((2 ^ ((bits D : Int) - (bits N : Int)).toNat : Nat) : ℚ) := by
      exact_mod_cast Nat.pos_of_ne_zero (by positivity)
    rw [hs, div_le_div_iff hpos2 hDpos]
    constructor
    · intro h
      exact_mod_cast h
    · intro h
      exact_mod_cast h
  unfold floorLog2
  by_cases hc : 2 ^ ((bits N : Int) - (bits D : Int)).toNat * D
      ≤ N * 2 ^ ((bits D : Int) - (bits N : Int)).toNat
  · rw [if_pos hc]
    refine ⟨hcond.mp hc, ?_⟩
    have e : (bits N : Int) - (bits D : Int) + 1 = (bits N : Int) - ((bits D : Int) - 1) := by
      omega
    rw [e, zpow_sub₀ (by norm_num : (2 : ℚ) ≠ 0)]
    exact div_lt_div a3q b2q (le_of_lt (two_zpow_pos _)) (two_zpow_pos _)
  · rw [if_neg hc]
    have hlt : (N : ℚ) / D < (2 : ℚ) ^ ((bits N : Int) - (bits D : Int)) :=
      lt_of_not_le (fun h => hc (hcond.mpr h))
    refine ⟨?_, by rw [sub_add_cancel]; exact hlt⟩
    have e : (bits N : Int) - (bits D : Int) - 1 = ((bits N : Int) - 1) - (bits D : Int) := by
      omega
    rw [e, zpow_sub₀ (by norm_num : (2 : ℚ) ≠ 0)]
    exact div_le_div (le_of_lt hNpos) a2q hDpos (le_of_lt b3q)

theorem roundHalfEven_spec (N D : Nat) (hD : D ≠ 0) :
    |((roundHalfEven N D : Nat) : ℚ) - (N : ℚ) / D| ≤ 1 / 2 := by
  have hDpos : (0 : ℚ) < D := by exact_mod_cast Nat.pos_of_ne_zero hD
  have hdm : (N : ℚ) = (D : ℚ) * ((N / D : Nat) : ℚ) + ((N % D : Nat) : ℚ) := by
    exact_mod_cast (Nat.div_add_mod N D).symm
  have hx : (N : ℚ) / D = ((N / D : Nat) : ℚ) + ((N % D : Nat) : ℚ) / D := by
    rw [hdm]
    field_simp
    ring
  have hr0 : (0 : ℚ) ≤ ((N % D : Nat) : ℚ) / D := by positivity
  have hr1 : ((N % D : Nat) : ℚ) / D < 1 := by
    rw [div_lt_one hDpos]
    exact_mod_cast Nat.mod_lt N (Nat.pos_of_ne_zero hD)
  unfold roundHalfEven
  rw [hx, abs_le]
  by_cases h1 : 2 * (N % D) < D
  · rw [if_pos h1]
    have : ((N % D : Nat) : ℚ) / D < 1 / 2 := by
      rw [div_lt_div_iff hDpos (by norm_num)]
      have : (((N % D : Nat) : ℚ)) * 2 < D := by exact_mod_cast (by omega : (N % D) * 2 < D)
      linarith
    constructor <;> linarith
  · rw [if_neg h1]
    by_cases h2 : D < 2 * (N % D)
    · rw [if_pos h2]
      have : (1 : ℚ) / 2 < ((N % D : Nat) : ℚ) / D := by
        rw [div_lt_div_iff (by norm_num) hDpos]
        have : (D : ℚ) < (((N % D : Nat) : ℚ)) * 2 := by exact_mod_cast (by omega : D < (N % D) * 2)
        linarith
      push_cast
      constructor <;> linarith
    · rw [if_neg h2]
      have heq : 2 * (N % D) = D := by omega
      have : ((N % D : Nat) : ℚ) / D = 1 / 2 := by
        rw [div_eq_div_iff (ne_of_gt hDpos) (by norm_num)]
        have : (((N % D : Nat) : ℚ)) * 2 = D := by exact_mod_cast (by omega : (N % D) * 2 = D)
        linarith
      split
      · constructor <;> linarith
      · push_cast
        constructor <;> linarith

theorem roundDouble_err (N D : Nat) (hN : N ≠ 0) (hD : D ≠ 0) (d : Dbl)
    (h : roundDouble N D = some d) :
    d.e = max (floorLog2 N D - 52) (-1074)
      ∧ |d.toRat - (N : ℚ) / D| ≤ (2 : ℚ) ^ (d.e - 1) := by
  unfold roundDouble at h
  rw [if_neg hN] at h
  simp only at h
  split at h
  · exact absurd h (by simp)
  · have hd := Option.some.inj h
    subst hd
    refine ⟨rfl, ?_⟩
    simp only [Dbl.toRat]
    generalize max (floorLog2 N D - 52) (-1074) = u
    have hDpos : (0 : ℚ) < D := by exact_mod_cast Nat.pos_of_ne_zero hD
    have h2u := two_zpow_pos u
    have hD2 : D * 2 ^ u.toNat ≠ 0 := by positivity
    have hr := roundHalfEven_spec (N * 2 ^ (-u).toNat) (D * 2 ^ u.toNat) hD2
    have hp1 : (0 : ℚ) < ((2 ^ u.toNat : Nat) : ℚ) := by
      exact_mod_cast Nat.pos_of_ne_zero (by positivity)
    have hp2 : (0 : ℚ) < ((2 ^ (-u).toNat : Nat) : ℚ) := by
      exact_mod_cast Nat.pos_of_ne_zero (by positivity)
    have hy : (((N * 2 ^ (-u).toNat : Nat) : ℚ)) / ((D * 2 ^ u.toNat : Nat) : ℚ)
        = (N : ℚ) / D / (2 : ℚ) ^ u := by
      rw [zpow_split u]
      push_cast
      have := ne_of_gt hp1
      have := ne_of_gt hp2
      push_cast at *
      field_simp
    rw [hy] at hr
    have e1 : ((roundHalfEven (N * 2 ^ (-u).toNat) (D * 2 ^ u.toNat) : Nat) : ℚ) * (2 : ℚ) ^ u
        - (N : ℚ) / D
        = (((roundHalfEven (N * 2 ^ (-u).toNat) (D * 2 ^ u.toNat) : Nat) : ℚ)
            - (N : ℚ) / D / (2 : ℚ) ^ u) * (2 : ℚ) ^ u := by
      field_simp
      ring
    rw [e1, abs_mul, abs_of_pos h2u, zpow_sub_one₀ (by norm_num : (2 : ℚ) ≠ 0)]
    calc _ ≤ 1 / 2 * (2 : ℚ) ^ u := mul_le_mul_of_nonneg_right hr (le_of_lt h2u)
      _ = (2 : ℚ) ^ u * 2⁻¹ := by ring

theorem roundDouble_zero (D : Nat) (d : Dbl) (h : roundDouble 0 D = some d) : d.toRat = 0 := by
  unfold roundDouble at h
  rw [if_pos rfl] at h
  rw [← Option.some.inj h]
  simp [Dbl.toRat]

/-- In the normal range the result of a rounding is within the relative error `2⁻⁵³`. -/
theorem roundDouble_normal (N D : Nat) (hD : D ≠ 0) (d : Dbl) (h : roundDouble N D = some d)
    (hx : N = 0 ∨ (2 : ℚ) ^ (-1022 : Int) ≤ (N : ℚ) / D) :
    |d.toRat - (N : ℚ) / D| ≤ (N : ℚ) / D * (2 : ℚ) ^ (-53 : Int) := by
  by_cases hN : N = 0
  · subst hN
    rw [roundDouble_zero D d h]
    simp
  · have hx := hx.resolve_left hN
    obtain ⟨he, herr⟩ := roundDouble_err N D hN hD d h
    obtain ⟨f1, f2⟩ := floorLog2_spec N D hN hD
    have hlt : (-1022 : Int) < floorLog2 N D + 1 :=
      (zpow_lt_zpow_iff_right₀ (by norm_num : (1 : ℚ) < 2)).mp (lt_of_le_of_lt hx f2)
    have hu : d.e - 1 = floorLog2 N D + (-53) := by
      rw [he]
      omega
    rw [hu, zpow_add₀ (by norm_num : (2 : ℚ) ≠ 0)] at herr
    exact le_trans herr (mul_le_mul_of_nonneg_right f1 (le_of_lt (two_zpow_pos _)))

/-- Below the normal range the result of a rounding is within the absolute error `2⁻¹⁰⁷⁵`. -/
theorem roundDouble_subnormal (N D : Nat) (hD : D ≠ 0) (d : Dbl) (h : roundDouble N D = some d)
    (hx : (N : ℚ) / D < (2 : ℚ) ^ (-1022 : Int)) :
    |d.toRat - (N : ℚ) / D| ≤ (2 : ℚ) ^ (-1075 : Int) := by
  by_cases hN : N = 0
  · subst hN
    rw [roundDouble_zero D d h]
    simp
    positivity
  · obtain ⟨he, herr⟩ := roundDouble_err N D hN hD d h
    obtain ⟨f1, f2⟩ := floorLog2_spec N D hN hD
    have hlt : floorLog2 N D < (-1022 : Int) :=
      (zpow_lt_zpow_iff_right₀ (by norm_num : (1 : ℚ) < 2)).mp (lt_of_le_of_lt f1 hx)
    have hu : d.e - 1 = -1075 := by
      rw [he]
      omega
    rw [hu] at herr
    exact herr

theorem Dbl.toRat_split (m : Nat) (e : Int) :
    (m : ℚ) * (2 : ℚ) ^ e
      = ((m * 2 ^ e.toNat : Nat) : ℚ) / ((2 ^ (-e).toNat : Nat) : ℚ) := by
  rw [zpow_split e]
  push_cast
  ring

theorem Dbl.toRat_nonneg (d : Dbl) : 0 ≤ d.toRat :=
  mul_nonneg (Nat.cast_nonneg _) (le_of_lt (two_zpow_pos _))

theorem two_pow_ne_zero_nat (k : Nat) : 2 ^ k ≠ 0 := by positivity

theorem Dbl.mul_exact (x y : Dbl) :
    x.toRat * y.toRat
      = ((x.m * y.m * 2 ^ (x.e + y.e).toNat : Nat) : ℚ) / ((2 ^ (-(x.e + y.e)).toNat : Nat) : ℚ) := by
  rw [← Dbl.toRat_split (x.m * y.m) (x.e + y.e), zpow_add₀ (by norm_num : (2 : ℚ) ≠ 0)]
  simp only [Dbl.toRat]
  push_cast
  ring

theorem Dbl.div_exact (x y : Dbl) (hy : y.m ≠ 0) :
    x.toRat / y.toRat
      = ((x.m * 2 ^ (x.e - y.e).toNat : Nat) : ℚ) / ((y.m * 2 ^ (y.e - x.e).toNat : Nat) : ℚ) := by
  have hneg : -(x.e - y.e) = y.e - x.e := by omega
  have hs := Dbl.toRat_split x.m (x.e - y.e)
  rw [hneg] at hs
  have hym : (y.m : ℚ) ≠ 0 := by exact_mod_cast hy
  have h2 : ((2 ^ (y.e - x.e).toNat : Nat) : ℚ) ≠ 0 := by
    exact_mod_cast two_pow_ne_zero_nat _
  have hy2 := ne_of_gt (two_zpow_pos y.e)
  have e1 : x.toRat / y.toRat = (x.m : ℚ) * (2 : ℚ) ^ (x.e - y.e) / y.m := by
    simp only [Dbl.toRat]
    rw [zpow_sub₀ (by norm_num : (2 : ℚ) ≠ 0)]
    field_simp
    exact Or.inl (mul_comm _ _)
  rw [e1, hs]
  push_cast
  push_cast at h2
  field_simp
  exact Or.inl (mul_comm _ _)

/-- The conversion of a `size_t` to `double` has relative error at most `2⁻⁵³`. -/
theorem Dbl.ofNat_spec (n : Nat) (d : Dbl) (h : Dbl.ofNat n = some d) :
    |d.toRat - (n : ℚ)| ≤ (n : ℚ) * (2 : ℚ) ^ (-53 : Int) := by
  have hx : n = 0 ∨ (2 : ℚ) ^ (-1022 : Int) ≤ (n : ℚ) / (1 : Nat) := by
    by_cases hn : n = 0
    · exact Or.inl hn
    · right
      have h1 : (1 : ℚ) ≤ n := by exact_mod_cast Nat.one_le_iff_ne_zero.mpr hn
      have h2 : (2 : ℚ) ^ (-1022 : Int) ≤ 1 :=
        zpow_le_one_of_nonpos₀ (by norm_num) (by norm_num)
      simp only [Nat.cast_one, div_one]
      exact le_trans h2 h1
  have := roundDouble_normal n 1 (by decide) d h hx
  simpa using this

/-- A product of `double`s that is zero or in the normal range has relative error at
most `2⁻⁵³`. -/
theorem Dbl.mul_spec (x y d : Dbl) (h : Dbl.mul x y = some d)
    (hz : x.toRat * y.toRat = 0 ∨ (2 : ℚ) ^ (-1022 : Int) ≤ x.toRat * y.toRat) :
    |d.toRat - x.toRat * y.toRat| ≤ x.toRat * y.toRat * (2 : ℚ) ^ (-53 : Int) := by
  have hD : 2 ^ (-(x.e + y.e)).toNat ≠ 0 := two_pow_ne_zero_nat _
  have hDq : ((2 ^ (-(x.e + y.e)).toNat : Nat) : ℚ) ≠ 0 := by exact_mod_cast hD
  rw [Dbl.mul_exact] at hz ⊢
  refine roundDouble_normal _ _ hD d h ?_
  rcases hz with hz | hz
  · left
    rcases div_eq_zero_iff.mp hz with h0 | h0
    · exact_mod_cast h0
    · exact absurd h0 hDq
  · exact Or.inr hz

theorem Dbl.div_defined (x y d : Dbl) (h : Dbl.div x y = some d) : y.m ≠ 0 := by
  intro hy
  unfold Dbl.div at h
  rw [if_pos hy] at h
  exact absurd h (by simp)

/-- A quotient of `double`s that is zero or in the normal range has relative error at
most `2⁻⁵³`. -/
theorem Dbl.div_spec (x y d : Dbl) (h : Dbl.div x y = some d)
    (hz : x.toRat / y.toRat = 0 ∨ (2 : ℚ) ^ (-1022 : Int) ≤ x.toRat / y.toRat) :
    |d.toRat - x.toRat / y.toRat| ≤ x.toRat / y.toRat * (2 : ℚ) ^ (-53 : Int) := by
  have hy := Dbl.div_defined x y d h
  have hD : y.m * 2 ^ (y.e - x.e).toNat ≠ 0 := Nat.mul_ne_zero hy (two_pow_ne_zero_nat _)
  have hDq : ((y.m * 2 ^ (y.e - x.e).toNat : Nat) : ℚ) ≠ 0 := by exact_mod_cast hD
  unfold Dbl.div at h
  rw [if_neg hy] at h
  rw [Dbl.div_exact x y hy] at hz ⊢
  refine roundDouble_normal _ _ hD d h ?_
  rcases hz with hz | hz
  · left
    rcases div_eq_zero_iff.mp hz with h0 | h0
    · exact_mod_cast h0
    · exact absurd h0 hDq
  · exact Or.inr hz

/-- A quotient of `double`s below the normal range has absolute error at most
`2⁻¹⁰⁷⁵`. -/
theorem Dbl.div_spec_subnormal (x y d : Dbl) (h : Dbl.div x y = some d)
    (hz : x.toRat / y.toRat < (2 : ℚ) ^ (-1022 : Int)) :
    |d.toRat - x.toRat / y.toRat| ≤ (2 : ℚ) ^ (-1075 : Int) := by
  have hy := Dbl.div_defined x y d h
  have hD : y.m * 2 ^ (y.e - x.e).toNat ≠ 0 := Nat.mul_ne_zero hy (two_pow_ne_zero_nat _)
  unfold Dbl.div at h
  rw [if_neg hy] at h
  rw [Dbl.div_exact x y hy] at hz ⊢
  exact roundDouble_subnormal _ _ hD d h hz

theorem Dbl.toRat_pos_of_m (y : Dbl) (hy : y.m ≠ 0) : 0 < y.toRat :=
  mul_pos (by exact_mod_cast Nat.pos_of_ne_zero hy) (two_zpow_pos _)

/-- The comparison of `double`s is the comparison of their values. -/
theorem Dbl.le_iff (x y : Dbl) : Dbl.le x y = true ↔ x.toRat ≤ y.toRat := by
  unfold Dbl.le
  rw [decide_eq_true_iff]
  have hneg : -(x.e - y.e) = y.e - x.e := by omega
  have hs := zpow_split (x.e - y.e)
  rw [hneg] at hs
  have hA : (0 : ℚ) < ((2 ^ (x.e - y.e).toNat : Nat) : ℚ) := by
    exact_mod_cast Nat.pos_of_ne_zero (two_pow_ne_zero_nat _)
  have hB : (0 : ℚ) < ((2 ^ (y.e - x.e).toNat : Nat) : ℚ) := by
    exact_mod_cast Nat.pos_of_ne_zero (two_pow_ne_zero_nat _)
  have hy2 := two_zpow_pos y.e
  have hxe : (2 : ℚ) ^ x.e = (2 : ℚ) ^ (x.e - y.e) * (2 : ℚ) ^ y.e := by
    rw [← zpow_add₀ (by norm_num : (2 : ℚ) ≠ 0), sub_add_cancel]
  simp only [Dbl.toRat]
  rw [hxe, hs]
  constructor
  · intro h
    have hq : (x.m : ℚ) * ((2 ^ (x.e - y.e).toNat : Nat) : ℚ)
        ≤ (y.m : ℚ) * ((2 ^ (y.e - x.e).toNat : Nat) : ℚ) := by exact_mod_cast h
    have h1 : (x.m : ℚ) * (((2 ^ (x.e - y.e).toNat : Nat) : ℚ)
        / ((2 ^ (y.e - x.e).toNat : Nat) : ℚ)) ≤ y.m := by
      rw [← mul_div_assoc, div_le_iff₀ hB]
      exact hq
    calc _ = ((x.m : ℚ) * (((2 ^ (x.e - y.e).toNat : Nat) : ℚ)
        / ((2 ^ (y.e - x.e).toNat : Nat) : ℚ))) * (2 : ℚ) ^ y.e := by ring
      _ ≤ _ := mul_le_mul_of_nonneg_right h1 (le_of_lt hy2)
  · intro h
    have h0 : ((x.m : ℚ) * (((2 ^ (x.e - y.e).toNat : Nat) : ℚ)
        / ((2 ^ (y.e - x.e).toNat : Nat) : ℚ))) * (2 : ℚ) ^ y.e ≤ (y.m : ℚ) * (2 : ℚ) ^ y.e := by
      calc _ = _ := by ring
        _ ≤ _ := h
    have h1 := le_of_mul_le_mul_right h0 hy2
    rw [← mul_div_assoc, div_le_iff₀ hB] at h1
    exact_mod_cast h1

/-- The conversion `int (x)` is the integral part of `x`, below `2 ^ 31`. -/
theorem Dbl.toInt_spec (x : Dbl) (v : Nat) (h : Dbl.toInt x = some v) :
    (v : ℚ) ≤ x.toRat ∧ x.toRat < (v : ℚ) + 1 ∧ v < 2 ^ 31 := by
  unfold Dbl.toInt at h
  split at h
  · rename_i hlt
    have hv := Option.some.inj h
    rw [hv] at hlt
    have hL : 0 < 2 ^ (-x.e).toNat := Nat.pos_of_ne_zero (two_pow_ne_zero_nat _)
    have hLq : (0 : ℚ) < ((2 ^ (-x.e).toNat : Nat) : ℚ) := by exact_mod_cast hL
    have h1 : v * 2 ^ (-x.e).toNat ≤ x.m * 2 ^ x.e.toNat := by
      rw [← hv]
      exact Nat.div_mul_le_self _ _
    have h2 : x.m * 2 ^ x.e.toNat < (v + 1) * 2 ^ (-x.e).toNat := by
      rw [← hv]
      have := Nat.lt_succ_iff.mpr (Nat.le_refl (x.m * 2 ^ x.e.toNat / 2 ^ (-x.e).toNat))
      exact (Nat.div_lt_iff_lt_mul hL).mp this
    have e : x.toRat = ((x.m * 2 ^ x.e.toNat : Nat) : ℚ) / ((2 ^ (-x.e).toNat : Nat) : ℚ) :=
      Dbl.toRat_split x.m x.e
    refine ⟨?_, ?_, hlt⟩
    · rw [e, le_div_iff₀ hLq]
      exact_mod_cast h1
    · rw [e, div_lt_iff₀ hLq]
      exact_mod_cast h2
  · exact absurd h (by simp)

theorem commitRatioDouble_some (c p : Nat) (R : Dbl) (h : commitRatioDouble c p = some R) :
    ∃ C P, Dbl.ofNat c = some C ∧ Dbl.ofNat p = some P ∧ Dbl.div C P = some R := by
  unfold commitRatioDouble at h
  cases hC : Dbl.ofNat c with
  | none => rw [hC] at h; exact absurd h (by simp)
  | some C =>
    cases hP : Dbl.ofNat p with
    | none => rw [hC, hP] at h; exact absurd h (by simp)
    | some P =>
      rw [hC, hP] at h
      exact ⟨C, P, rfl, rfl, h⟩

theorem shrinkDouble_some (target : Dbl) (w c p v : Nat)
    (h : shrinkDouble target w c p = some v) :
    ∃ R W M Q, commitRatioDouble c p = some R ∧ Dbl.ofNat w = some W
      ∧ Dbl.mul W R = some M ∧ Dbl.div M target = some Q ∧ Dbl.toInt Q = some v := by
  unfold shrinkDouble at h
  cases hR : commitRatioDouble c p with
  | none => rw [hR] at h; exact absurd h (by simp)
  | some R =>
    cases hW : Dbl.ofNat w with
    | none => rw [hR, hW] at h; exact absurd h (by simp)
    | some W =>
      rw [hR, hW] at h
      simp only at h
      cases hM : Dbl.mul W R with
      | none => rw [hM] at h; exact absurd h (by simp)
      | some M =>
        rw [hM] at h
        simp only at h
        cases hQ : Dbl.div M target with
        | none => rw [hQ] at h; exact absurd h (by simp)
        | some Q =>
          rw [hQ] at h
          exact ⟨R, W, M, Q, rfl, rfl, hM, hQ, h⟩

theorem rel_bounds (d z : ℚ) (h : |d - z| ≤ z * (2 : ℚ) ^ (-53 : Int)) :
    z * (1 - 1 / 2 ^ 53) ≤ d ∧ d ≤ z * (1 + 1 / 2 ^ 53) := by
  have e : (2 : ℚ) ^ (-53 : Int) = 1 / 2 ^ 53 := by
    rw [zpow_neg, zpow_ofNat, one_div]
  rw [e, abs_le] at h
  constructor <;> linarith [h.1, h.2]

theorem two_zpow_1022_le : (2 : ℚ) ^ (-1022 : Int) ≤ 1 / 2 ^ 100 := by
  have h : (2 : ℚ) ^ (-1022 : Int) ≤ (2 : ℚ) ^ (-100 : Int) :=
    zpow_le_zpow_right₀ (by norm_num) (by norm_num)
  have e : (2 : ℚ) ^ (-100 : Int) = 1 / 2 ^ 100 := by
    rw [zpow_neg, zpow_ofNat, one_div]
  rw [e] at h
  exact h

/-- The commit ratio computed in `double`: within the relative error of three
roundings of `currCommits / prevWindowSize`. -/
theorem commitRatioDouble_bounds (c p : Nat) (R : Dbl) (hp : p ≠ 0) (hp64 : p < 2 ^ 64)
    (h : commitRatioDouble c p = some R) :
    (c : ℚ) / p * ((1 - 1 / 2 ^ 53) ^ 2 / (1 + 1 / 2 ^ 53)) ≤ R.toRat
      ∧ R.toRat ≤ (c : ℚ) / p * ((1 + 1 / 2 ^ 53) ^ 2 / (1 - 1 / 2 ^ 53))
      ∧ (c ≠ 0 → 1 / 2 ^ 67 ≤ R.toRat) := by
  obtain ⟨C, P, hC, hP, hR⟩ := commitRatioDouble_some c p R h
  obtain ⟨hC1, hC2⟩ := rel_bounds _ _ (Dbl.ofNat_spec c C hC)
  obtain ⟨hP1, hP2⟩ := rel_bounds _ _ (Dbl.ofNat_spec p P hP)
  have hb2 : (1 : ℚ) / 2 ≤ 1 - 1 / 2 ^ 53 := by norm_num
  have ha2 : (1 : ℚ) + 1 / 2 ^ 53 ≤ 2 := by norm_num
  have hpq : (1 : ℚ) ≤ p := by exact_mod_cast Nat.one_le_iff_ne_zero.mpr hp
  have hp64q : (p : ℚ) ≤ 2 ^ 64 := by exact_mod_cast le_of_lt hp64
  have hpq0 : (0 : ℚ) < p := by linarith
  have hcq0 : (0 : ℚ) ≤ c := Nat.cast_nonneg c
  have hPpos : 0 < P.toRat := lt_of_lt_of_le (mul_pos hpq0 (by norm_num)) hP1
  have hC0 := Dbl.toRat_nonneg C
  have hP65 : P.toRat ≤ 2 ^ 65 := by
    have : (p : ℚ) * (1 + 1 / 2 ^ 53) ≤ 2 ^ 64 * 2 :=
      mul_le_mul hp64q ha2 (by norm_num) (by norm_num)
    linarith
  have hnorm : c ≠ 0 → (1 : ℚ) / 2 ^ 66 ≤ C.toRat / P.toRat := by
    intro hc
    have hc1 : (1 : ℚ) ≤ c := by exact_mod_cast Nat.one_le_iff_ne_zero.mpr hc
    have h1 : (1 : ℚ) * (1 / 2) ≤ (c : ℚ) * (1 - 1 / 2 ^ 53) :=
      mul_le_mul hc1 hb2 (by norm_num) (by linarith)
    have hC' : (1 : ℚ) / 2 ≤ C.toRat := by linarith
    have := div_le_div hC0 hC' hPpos hP65
    have e : (1 : ℚ) / 2 / 2 ^ 65 = 1 / 2 ^ 66 := by norm_num
    rw [e] at this
    exact this
  have hz : C.toRat / P.toRat = 0 ∨ (2 : ℚ) ^ (-1022 : Int) ≤ C.toRat / P.toRat := by
    by_cases hc : c = 0
    · left
      subst hc
      have : C.toRat = 0 := by
        simp only [Nat.cast_zero, zero_mul] at hC2
        exact le_antisymm hC2 hC0
      rw [this, zero_div]
    · right
      refine le_trans two_zpow_1022_le (le_trans ?_ (hnorm hc))
      norm_num
  obtain ⟨hR1, hR2⟩ := rel_bounds _ _ (Dbl.div_spec C P R hR hz)
  have hthird : c ≠ 0 → 1 / 2 ^ 67 ≤ R.toRat := by
    intro hc
    have h1 : (1 : ℚ) / 2 ^ 66 * (1 / 2) ≤ C.toRat / P.toRat * (1 - 1 / 2 ^ 53) :=
      mul_le_mul (hnorm hc) hb2 (by norm_num) (div_nonneg hC0 (le_of_lt hPpos))
    have e : (1 : ℚ) / 2 ^ 66 * (1 / 2) = 1 / 2 ^ 67 := by norm_num
    rw [e] at h1
    exact le_trans h1 hR1
  have ha : (0 : ℚ) < 1 + 1 / 2 ^ 53 := by norm_num
  have hb : (0 : ℚ) < 1 - 1 / 2 ^ 53 := by norm_num
  clear hb2 ha2 hnorm hz
  generalize (1 : ℚ) + 1 / 2 ^ 53 = a at *
  generalize (1 : ℚ) - 1 / 2 ^ 53 = b at *
  refine ⟨?_, ?_, ?_⟩
  · calc (c : ℚ) / p * (b ^ 2 / a) = ((c : ℚ) * b) / ((p : ℚ) * a) * b := by
          field_simp
          ring
      _ ≤ C.toRat / P.toRat * b := by gcongr
      _ ≤ R.toRat := hR1
  · calc R.toRat ≤ C.toRat / P.toRat * a := hR2
      _ ≤ ((c : ℚ) * a) / ((p : ℚ) * b) * a := by gcongr
      _ = (c : ℚ) / p * (a ^ 2 / b) := by
          field_simp
          ring
  · exact hthird

theorem two_zpow_1075_le : (2 : ℚ) ^ (-1075 : Int) ≤ 1 / 2 ^ 100 := by
  have h : (2 : ℚ) ^ (-1075 : Int) ≤ (2 : ℚ) ^ (-100 : Int) :=
    zpow_le_zpow_right₀ (by norm_num) (by norm_num)
  have e : (2 : ℚ) ^ (-100 : Int) = 1 / 2 ^ 100 := by
    rw [zpow_neg, zpow_ofNat, one_div]
  rw [e] at h
  exact h

/-- The value of `int (windowSize * commitRatio / TARGET_COMMIT_RATIO)` computed in
`double` (four roundings and two conversions, then the truncation): it fits `int`, and
it exceeds the exact quotient `windowSize * (currCommits / prevWindowSize) / target` by
less than `1 / 1000`. -/
theorem shrinkDouble_bound (target : Dbl) (w c p v : Nat) (hp : p ≠ 0) (hp64 : p < 2 ^ 64)
    (h : shrinkDouble target w c p = some v) :
    0 < target.toRat ∧ v < 2 ^ 31
      ∧ (v : ℚ) ≤ (w : ℚ) * ((c : ℚ) / p) / target.toRat + 1 / 1000 := by
  obtain ⟨R, W, M, Q, hR, hW, hM, hQ, hv⟩ := shrinkDouble_some target w c p v h
  obtain ⟨hr1, hr2, hr3⟩ := commitRatioDouble_bounds c p R hp hp64 hR
  obtain ⟨hW1, hW2⟩ := rel_bounds _ _ (Dbl.ofNat_spec w W hW)
  obtain ⟨hv1, hv2, hv3⟩ := Dbl.toInt_spec Q v hv
  have ht : 0 < target.toRat := Dbl.toRat_pos_of_m target (Dbl.div_defined M target Q hQ)
  have hpq : (1 : ℚ) ≤ p := by exact_mod_cast Nat.one_le_iff_ne_zero.mpr hp
  have hpq0 : (0 : ℚ) < p := by linarith
  have hcq0 : (0 : ℚ) ≤ c := Nat.cast_nonneg c
  have hwq0 : (0 : ℚ) ≤ w := Nat.cast_nonneg w
  have hx0 : (0 : ℚ) ≤ (w : ℚ) * ((c : ℚ) / p) / target.toRat := by positivity
  have hW0 := Dbl.toRat_nonneg W
  have hR0 := Dbl.toRat_nonneg R
  have hM0 := Dbl.toRat_nonneg M
  have hQ0 := Dbl.toRat_nonneg Q
  have hb2 : (1 : ℚ) / 2 ≤ 1 - 1 / 2 ^ 53 := by norm_num
  refine ⟨ht, hv3, ?_⟩
  by_cases hzero : c = 0 ∨ w = 0
  · have hWR : W.toRat * R.toRat = 0 := by
      rcases hzero with hc | hw0
      · subst hc
        simp only [Nat.cast_zero, zero_div, zero_mul] at hr2
        rw [le_antisymm hr2 hR0, mul_zero]
      · subst hw0
        simp only [Nat.cast_zero, zero_mul] at hW2
        rw [le_antisymm hW2 hW0, zero_mul]
    have hM2 := (rel_bounds _ _ (Dbl.mul_spec W R M hM (Or.inl hWR))).2
    rw [hWR, zero_mul] at hM2
    have hMz : M.toRat = 0 := le_antisymm hM2 hM0
    have hQz : M.toRat / target.toRat = 0 := by rw [hMz, zero_div]
    have hQ2 := (rel_bounds _ _ (Dbl.div_spec M target Q hQ (Or.inl hQz))).2
    rw [hQz, zero_mul] at hQ2
    linarith
  · have hc : c ≠ 0 := fun hc => hzero (Or.inl hc)
    have hw0 : w ≠ 0 := fun hw0 => hzero (Or.inr hw0)
    have hw1 : (1 : ℚ) ≤ w := by exact_mod_cast Nat.one_le_iff_ne_zero.mpr hw0
    have hWhalf : (1 : ℚ) / 2 ≤ W.toRat := by
      have h1 : (1 : ℚ) * (1 / 2) ≤ (w : ℚ) * (1 - 1 / 2 ^ 53) :=
        mul_le_mul hw1 hb2 (by norm_num) (by linarith)
      linarith
    have hWR : (1 : ℚ) / 2 ^ 68 ≤ W.toRat * R.toRat := by
      have h1 : (1 : ℚ) / 2 * (1 / 2 ^ 67) ≤ W.toRat * R.toRat :=
        mul_le_mul hWhalf (hr3 hc) (by norm_num) hW0
      have e : (1 : ℚ) / 2 * (1 / 2 ^ 67) = 1 / 2 ^ 68 := by norm_num
      rw [e] at h1
      exact h1
    have hzM : W.toRat * R.toRat = 0
        ∨ (2 : ℚ) ^ (-1022 : Int) ≤ W.toRat * R.toRat := by
      right
      refine le_trans two_zpow_1022_le (le_trans ?_ hWR)
      norm_num
    obtain ⟨hM1, hM2⟩ := rel_bounds _ _ (Dbl.mul_spec W R M hM hzM)
    by_cases hsub : M.toRat / target.toRat < (2 : ℚ) ^ (-1022 : Int)
    · have hQs := Dbl.div_spec_subnormal M target Q hQ hsub
      rw [abs_le] at hQs
      have h1 := two_zpow_1022_le
      have h2 := two_zpow_1075_le
      have h3 : (1 : ℚ) / 2 ^ 100 + 1 / 2 ^ 100 < 1 := by norm_num
      have hQlt : Q.toRat < 1 := by linarith [hQs.2]
      linarith
    · obtain ⟨hQ1, hQ2⟩ := rel_bounds _ _
        (Dbl.div_spec M target Q hQ (Or.inr (not_lt.mp hsub)))
      have ha : (0 : ℚ) < 1 + 1 / 2 ^ 53 := by norm_num
      have hb : (0 : ℚ) < 1 - 1 / 2 ^ 53 := by norm_num
      have hK1 : ((1 : ℚ) + 1 / 2 ^ 53) ^ 5 / (1 - 1 / 2 ^ 53) ≤ 1 + 1 / 2 ^ 50 := by
        norm_num
      have hK2 : (1 : ℚ) / 2 ≤ (1 - 1 / 2 ^ 53) ^ 5 / (1 + 1 / 2 ^ 53) := by
        norm_num
      clear hb2 hWhalf hWR hzM hsub
      generalize (1 : ℚ) + 1 / 2 ^ 53 = a at *
      generalize (1 : ℚ) - 1 / 2 ^ 53 = b at *
      have hup : Q.toRat ≤ (w : ℚ) * ((c : ℚ) / p) / target.toRat * (a ^ 5 / b) := by
        calc Q.toRat ≤ M.toRat / target.toRat * a := hQ2
          _ ≤ (W.toRat * R.toRat * a) / target.toRat * a := by gcongr
          _ ≤ (((w : ℚ) * a) * ((c : ℚ) / p * (a ^ 2 / b)) * a) / target.toRat * a := by
              gcongr
          _ = (w : ℚ) * ((c : ℚ) / p) / target.toRat * (a ^ 5 / b) := by
              field_simp
              ring
      have hlow : (w : ℚ) * ((c : ℚ) / p) / target.toRat * (b ^ 5 / a) ≤ Q.toRat := by
        calc (w : ℚ) * ((c : ℚ) / p) / target.toRat * (b ^ 5 / a)
            = (((w : ℚ) * b) * ((c : ℚ) / p * (b ^ 2 / a)) * b) / target.toRat * b := by
              field_simp
              ring
          _ ≤ (W.toRat * R.toRat * b) / target.toRat * b := by gcongr
          _ ≤ M.toRat / target.toRat * b := by gcongr
          _ ≤ Q.toRat := hQ1
      have hv31 : (v : ℚ) + 1 ≤ 2 ^ 31 := by exact_mod_cast hv3
      generalize (w : ℚ) * ((c : ℚ) / p) / target.toRat = x at *
      have hx32 : x ≤ 2 ^ 32 := by
        have h1 : x * (1 / 2) ≤ x * (b ^ 5 / a) := mul_le_mul_of_nonneg_left hK2 hx0
        linarith
      have h2 : x * (a ^ 5 / b) ≤ x * (1 + 1 / 2 ^ 50) := mul_le_mul_of_nonneg_left hK1 hx0
      have h3 : x * (1 / 2 ^ 50) ≤ 2 ^ 32 * (1 / 2 ^ 50) :=
        mul_le_mul_of_nonneg_right hx32 (by norm_num)
      have h4 : (2 : ℚ) ^ 32 * (1 / 2 ^ 50) ≤ 1 / 1000 := by norm_num
      linarith

/-- A round whose commit ratio the `double` test finds below the target has a ratio
below `target * (1 + 2⁻⁵¹)`. -/
theorem commitRatioDouble_lt_target (target : Dbl) (c p : Nat) (R : Dbl) (hp : p ≠ 0)
    (hp64 : p < 2 ^ 64) (hR : commitRatioDouble c p = some R) (hle : Dbl.le target R = false) :
    (c : ℚ) / p < target.toRat * (1 + 1 / 2 ^ 51) := by
  obtain ⟨hr1, -, -⟩ := commitRatioDouble_bounds c p R hp hp64 hR
  have hlt : R.toRat < target.toRat := by
    apply lt_of_not_le
    intro h
    rw [(Dbl.le_iff target R).mpr h] at hle
    exact absurd hle (by simp)
  have hK : (1 : ℚ) / (1 + 1 / 2 ^ 51) ≤ (1 - 1 / 2 ^ 53) ^ 2 / (1 + 1 / 2 ^ 53) := by
    norm_num
  have hpos : (0 : ℚ) < 1 + 1 / 2 ^ 51 := by norm_num
  have hcp : (0 : ℚ) ≤ (c : ℚ) / p := by positivity
  have h1 : (c : ℚ) / p * (1 / (1 + 1 / 2 ^ 51)) < target.toRat :=
    lt_of_le_of_lt (le_trans (mul_le_mul_of_nonneg_left hK hcp) hr1) hlt
  rw [mul_one_div, div_lt_iff₀ hpos] at h1
  exact h1

theorem doubleArith_cfgS2D : DoubleArith cfgS2D target08 :=
  ⟨fun c p b h => by simp [cfgS2D, h], fun w c p v h => by simp [cfgS2D, h]⟩

theorem doubleArith_cfgBurstD : DoubleArith cfgBurstD target08 :=
  ⟨fun c p b h => by simp [cfgBurstD, h], fun w c p v h => by simp [cfgBurstD, h]⟩

set_option maxRecDepth 100000 in
/-- C11 counterexample. Scenario S2 on the range 1..100, the window-size arithmetic in
`double` with target 0.8 and `MIN_WIN_SIZE = 64`: the first round attempts 64 Contexts
with `windowSize = 64` and commits one, a ratio of 1/64 below the target; the next
window is 64 again, far above `64 * (1/64) / 0.8 + 1`, which is below 9/4. -/
theorem adaptive_law_fails_at_floor :
    round1S2D.windowSize = 64
    ∧ currCommitsOf round1S2D = 1
    ∧ prevWindowSizeOf round1S2D = 64
    ∧ cfgS2D.commitRatioGE (currCommitsOf round1S2D) (prevWindowSizeOf round1S2D) = false
    ∧ shrinkDouble target08 round1S2D.windowSize (currCommitsOf round1S2D)
        (prevWindowSizeOf round1S2D) = some 1
    ∧ MIN_WIN_SIZE cfgS2D = 64
    ∧ (prepareRound cfgS2D round1S2D).windowSize = 64
    ∧ ¬ (((prepareRound cfgS2D round1S2D).windowSize : ℚ)
          ≤ (round1S2D.windowSize : ℚ)
              * ((currCommitsOf round1S2D : ℚ) / (prevWindowSizeOf round1S2D : ℚ))
              / target08.toRat + 1) := by
  have h1 : round1S2D.windowSize = 64 := by decide
  have h2 : currCommitsOf round1S2D = 1 := by decide
  have h3 : prevWindowSizeOf round1S2D = 64 := by decide
  have h4 : (prepareRound cfgS2D round1S2D).windowSize = 64 := by decide
  refine ⟨h1, h2, h3, by rw [h2, h3]; decide, by rw [h1, h2, h3]; decide, by decide, h4, ?_⟩
  rw [h1, h2, h3, h4]
  norm_num [Dbl.toRat, target08]

/-- C11 as amended. Let the configuration compute the window-size arithmetic in
`double` with `TARGET_COMMIT_RATIO = target`, as the source does. For every refill
after a round (`prevWindowSize` non-zero, a `size_t`) whose commit ratio the test of
line 191 finds below the target, and for which the conversion to `int` of line 197 is
defined with value `v`: the window size for the next round is the larger of `v` and
`MIN_WIN_SIZE`; it is at most the larger of `old * r / target + 1/1000` and
`MIN_WIN_SIZE`, with `r = currCommits / prevWindowSize` the exact ratio; and `r` is
below `target * (1 + 2⁻⁵¹)`. -/
theorem adaptive_law_with_clamp (cfg : Config T σ) (target : Dbl)
    (harith : DoubleArith cfg target) (st : State T σ) (c p v : Nat)
    (hp : p ≠ 0) (hp64 : p < 2 ^ 64) (hlt : cfg.commitRatioGE c p = false)
    (hv : shrinkDouble target st.windowSize c p = some v) :
    (refill cfg st c p).windowSize = max v (MIN_WIN_SIZE cfg)
    ∧ ((refill cfg st c p).windowSize : ℚ)
        ≤ max ((st.windowSize : ℚ) * ((c : ℚ) / (p : ℚ)) / target.toRat + 1 / 1000)
            ((MIN_WIN_SIZE cfg : Nat) : ℚ)
    ∧ (c : ℚ) / (p : ℚ) < target.toRat * (1 + 1 / 2 ^ 51) := by
  obtain ⟨-, hv31, hbound⟩ := shrinkDouble_bound target st.windowSize c p v hp hp64 hv
  have hs : toSizeT (cfg.shrinkWindow st.windowSize c p) = v := by
    rw [harith.shrink _ _ _ _ hv]
    unfold toSizeT
    exact Nat.mod_eq_of_lt (by omega)
  have h := refill_windowSize_shrink cfg st c p hp hlt
  rw [hs] at h
  refine ⟨h, ?_, ?_⟩
  · rw [h, Nat.cast_max]
    exact max_le_max hbound (le_refl _)
  · obtain ⟨R, -, -, -, hR, -⟩ := shrinkDouble_some target st.windowSize c p v hv
    have hge : commitRatioGEDouble target c p = some (Dbl.le target R) := by
      unfold commitRatioGEDouble
      rw [hR]
      rfl
    have hle : Dbl.le target R = false := by
      rw [← harith.ratio c p _ hge]
      exact hlt
    exact commitRatioDouble_lt_target target c p R hp hp64 hR hle

set_option maxRecDepth 100000 in
theorem adaptive_law_with_clamp_witness :
    (prepareRoundHead round3BurstD).windowSize = 4
    ∧ currCommitsOf round3BurstD = 1
    ∧ prevWindowSizeOf round3BurstD = 4
    ∧ cfgBurstD.commitRatioGE 1 4 = false
    ∧ shrinkDouble target08 4 1 4 = some 1
    ∧ MIN_WIN_SIZE cfgBurstD = 1
    ∧ (refill cfgBurstD (prepareRoundHead round3BurstD) 1 4).windowSize = 1
    ∧ ((refill cfgBurstD (prepareRoundHead round3BurstD) 1 4).windowSize : ℚ)
        ≤ max (((prepareRoundHead round3BurstD).windowSize : ℚ)
                * (((1 : Nat) : ℚ) / ((4 : Nat) : ℚ)) / target08.toRat + 1 / 1000)
            ((MIN_WIN_SIZE cfgBurstD : Nat) : ℚ)
    ∧ ((1 : Nat) : ℚ) / ((4 : Nat) : ℚ) < target08.toRat * (1 + 1 / 2 ^ 51) := by
  have hw : (prepareRoundHead round3BurstD).windowSize = 4 := by decide
  have hm : MIN_WIN_SIZE cfgBurstD = 1 := by decide
  have h := adaptive_law_with_clamp cfgBurstD target08 doubleArith_cfgBurstD
    (prepareRoundHead round3BurstD) 1 4 1 (by decide) (by decide) (by decide)
    (by rw [hw]; decide)
  refine ⟨hw, by decide, by decide, by decide, by decide, hm, ?_, h.2.1, h.2.2⟩
  rw [h.1, hm]
  rfl

end KDGtwoPhase
